import Mathlib

/-!
Verification of the cache subsystem of the `supuwoerc/utils` repository:
the doubly linked list primitive (`src/doubly-linked-list.ts`), the recency
caches (`src/lru.ts`: `LRUCache`, `ValueWithTTL`, `LRUCacheWithTTL`) and the
frequency caches (`src/lfu.ts`: `LFUCache`, `LFUCacheWithTTL`).

Modelling conventions.

Keys: cache keys are modelled as `Nat`.  In JavaScript a key can be any
property key and the code tests keys for truthiness in one place
(`if (tail && tail.key)` in the eviction branch of `LRUCache.set` and
`LRUCacheWithTTL.set`).  The number `0` is falsy in JavaScript, so `Nat`
with the test `key != 0` models numeric keys faithfully.

Maps: the JavaScript `Record` objects (`#cache`, `#freqMap`) are modelled as
association lists `List (Nat × _)` with lookup returning the first match.
Property insertion updates in place or appends, property deletion removes
the entry.  The code only consumes key order through `Math.min` over
`Object.keys`, which is order independent, so association list order is
immaterial.

Node handles: each cache stores exactly one node object per present key
(nodes are created only in the `else` branch of `set`, where the key is not
in the map), so a node is identified by its key.  The doubly linked lists
owned by the caches are modelled by their sequence of keys, head first:
`addToHead` is `List.cons`, `removeTail` reads `List.getLast?` and drops it,
and `removeNode` on a node handle erases its key when present and is a
no-op otherwise, exactly as in the source, where `removeNode` first runs a
membership scan and returns `false` for a node that is not in the list.
Every `addToHead` call made by the cache code receives a node whose links
are cleared (fresh nodes, nodes just detached by `removeNode`, or nodes
detached earlier by `removeTail`), so the ownership guard never fires on
these paths and `cons` is its exact effect.

The node class used by the caches carries a `key` field; the spec describes
it ("CacheEntry (key-bearing node): extends Node with a key").  The pointer
level model of `doubly-linked-list.ts` used for the list claims appears
further below and needs no key field.

Time: `Date.now()` is modelled by an explicit `now : Nat` argument threaded
through the operations of the TTL variants.

Fallible code: operations of `LFUCache` that can throw a `TypeError` in
JavaScript (unguarded `this.#freqMap[oldFreq].removeNode(node)` in
`#increaseFreq`, unguarded list access in `#removeMinFreqNode` and
`delete`) return `Option`, `none` marking the thrown exception.  The TTL
variant guards these accesses (`if (freqList)`, `if (!minFreqList ...)`),
so its operations are total.
-/

/-- JavaScript object property update: replace the value of the first entry
with the given key, or append a new entry. -/
def objSet {α : Type} : List (Nat × α) → Nat → α → List (Nat × α)
  | [], k, v => [(k, v)]
  | (k0, v0) :: rest, k, v =>
    if k0 = k then (k0, v) :: rest else (k0, v0) :: objSet rest k v

/-- JavaScript `delete obj[k]`: remove the first entry with the given key. -/
def objDelete {α : Type} : List (Nat × α) → Nat → List (Nat × α)
  | [], _ => []
  | (k0, v0) :: rest, k =>
    if k0 = k then rest else (k0, v0) :: objDelete rest k

/-- JavaScript `Object.hasOwn(obj, k)`. -/
def objHas {α : Type} (m : List (Nat × α)) (k : Nat) : Bool :=
  (List.lookup k m).isSome

@[simp] theorem objSet_nil {α : Type} (k : Nat) (v : α) :
    objSet [] k v = [(k, v)] := rfl

@[simp] theorem objSet_cons {α : Type} (k0 : Nat) (v0 : α) (rest : List (Nat × α))
    (k : Nat) (v : α) :
    objSet ((k0, v0) :: rest) k v =
      if k0 = k then (k0, v) :: rest else (k0, v0) :: objSet rest k v := rfl

@[simp] theorem objDelete_nil {α : Type} (k : Nat) :
    objDelete ([] : List (Nat × α)) k = [] := rfl

@[simp] theorem objDelete_cons {α : Type} (k0 : Nat) (v0 : α) (rest : List (Nat × α))
    (k : Nat) :
    objDelete ((k0, v0) :: rest) k =
      if k0 = k then rest else (k0, v0) :: objDelete rest k := rfl

theorem lookup_objSet {α : Type} (m : List (Nat × α)) (k : Nat) (v : α) :
    List.lookup k (objSet m k v) = some v := by
  induction m with
  | nil => simp [List.lookup]
  | cons hd tl ih =>
    obtain ⟨k0, v0⟩ := hd
    by_cases h : k0 = k
    · subst h; simp [List.lookup]
    · have hb : (k == k0) = false := beq_eq_false_iff_ne.mpr (Ne.symm h)
      simp [objSet, h, List.lookup, hb, ih]

theorem lookup_objSet_ne {α : Type} (m : List (Nat × α)) (k k' : Nat) (v : α)
    (h : k' ≠ k) : List.lookup k' (objSet m k v) = List.lookup k' m := by
  have hb : (k' == k) = false := beq_eq_false_iff_ne.mpr h
  induction m with
  | nil => simp [List.lookup, hb]
  | cons hd tl ih =>
    obtain ⟨k0, v0⟩ := hd
    by_cases h0 : k0 = k
    · subst h0
      simp [List.lookup, hb]
    · simp [objSet, h0, List.lookup, ih]

theorem lookup_objDelete_ne {α : Type} (m : List (Nat × α)) (k k' : Nat)
    (h : k' ≠ k) : List.lookup k' (objDelete m k) = List.lookup k' m := by
  have hb : (k' == k) = false := beq_eq_false_iff_ne.mpr h
  induction m with
  | nil => simp
  | cons hd tl ih =>
    obtain ⟨k0, v0⟩ := hd
    by_cases h0 : k0 = k
    · subst h0
      simp [objDelete, List.lookup, hb]
    · simp [objDelete, h0, List.lookup, ih]

/-! ## `LRUCache` (`src/lru.ts`)

State: `#cache : Record<K, DoublyLinkedListNode<V, K>>` and
`#doublyLinkedList : DoublyLinkedList<V, K>`, capacity fixed at
construction.  The reported `size` is the size of the list. -/

structure LRUCache (V : Type) where
  capacity : Nat
  cache : List (Nat × V)
  dll : List Nat
deriving Repr, DecidableEq

namespace LRUCache

variable {V : Type}

/-- A freshly constructed cache (validation of the constructor argument is
modelled separately for the construction claim). -/
def empty (capacity : Nat) : LRUCache V := ⟨capacity, [], []⟩

/-- `has(key)`: `Object.hasOwn(this.#cache, key)`. -/
def has (s : LRUCache V) (k : Nat) : Bool := objHas s.cache k

/-- `get size()`: `this.#doublyLinkedList.size`. -/
def size (s : LRUCache V) : Nat := s.dll.length

/-- `set(key, value)`.  Existing key: update the node value, detach the
node and re-attach it at the head.  New key: create a node, map it, attach
at head; when the list size now exceeds the capacity, `removeTail()` and,
only when the removed key is truthy (`if (tail && tail.key)`), delete it
from the map. -/
def set (s : LRUCache V) (k : Nat) (v : V) : LRUCache V :=
  if s.has k then
    { s with cache := objSet s.cache k v, dll := k :: s.dll.erase k }
  else
    let s1 : LRUCache V := { s with cache := objSet s.cache k v, dll := k :: s.dll }
    if s1.dll.length > s1.capacity then
      match s1.dll.getLast? with
      | some tailKey =>
        let s2 : LRUCache V := { s1 with dll := s1.dll.dropLast }
        if tailKey ≠ 0 then { s2 with cache := objDelete s2.cache tailKey } else s2
      | none => s1
    else s1

/-- `get(key)`: on a hit, detach the node (`removeNode`, a no-op when the
node is not in the list) and re-attach it at the head, returning its
value. -/
def get (s : LRUCache V) (k : Nat) : Option V × LRUCache V :=
  if s.has k then
    (List.lookup k s.cache, { s with dll := k :: s.dll.erase k })
  else (none, s)

/-- `delete(key)`: remove the map entry and detach the node; the result of
`removeNode` (whether the node was in the list) is returned. -/
def delete (s : LRUCache V) (k : Nat) : Bool × LRUCache V :=
  if s.has k then
    (s.dll.contains k, { s with cache := objDelete s.cache k, dll := s.dll.erase k })
  else (false, s)

/-- `clear()`. -/
def clear (s : LRUCache V) : LRUCache V := { s with cache := [], dll := [] }

end LRUCache

section LRUChecks

/-- Sanity check of the model on the eviction test of the repository:
capacity 3, set keys 1..4, key 1 evicted. -/
example :
    let s := ((((LRUCache.empty 3 : LRUCache Nat).set 1 11).set 2 22).set 3 33).set 4 44
    s.has 1 = false ∧ s.has 2 = true ∧ s.has 4 = true ∧ s.size = 3 := by
  decide

/-- Sanity check: promotion by get. -/
example :
    let s0 := (((LRUCache.empty 3 : LRUCache Nat).set 1 11).set 2 22).set 3 33
    let s1 := (s0.get 1).2.set 4 44
    s1.has 1 = true ∧ s1.has 2 = false ∧ s1.has 3 = true ∧ s1.has 4 = true := by
  decide

end LRUChecks

/-- C1.  The claim states that after each public operation
`0 ≤ size ≤ capacity` holds for every cache variant.  The code violates it:
with capacity 1, `set(0, a); set(1, b)` evicts the node with the falsy key
`0` from the list but the guard `if (tail && tail.key)` skips the map
deletion, so the stale node stays in the map; the following `get(0)` finds
it, `removeNode` is a no-op (the node is not in the list), and `addToHead`
re-attaches it, making the reported size 2 with capacity 1. -/
theorem C1_lru_size_exceeds_capacity :
    ((((((LRUCache.empty 1 : LRUCache Nat).set 0 10).set 1 20).get 0).2).capacity = 1) ∧
    ((((((LRUCache.empty 1 : LRUCache Nat).set 0 10).set 1 20).get 0).2).size = 2) := by
  decide

/-- C2.  The claim states that the map key set always equals the key set of
the list, and that capacity-triggered eviction removes the evicted key from
the map for every possible key value.  The code violates it for the falsy
key `0`: with capacity 1, after `set(0, a); set(1, b)` the eviction removed
key `0` from the list but `if (tail && tail.key)` skipped the map deletion,
so the map holds keys `{0, 1}` while the list holds only `1`. -/
theorem C2_lru_map_list_divergence :
    ((((LRUCache.empty 1 : LRUCache Nat).set 0 10).set 1 20).cache.map Prod.fst = [0, 1]) ∧
    ((((LRUCache.empty 1 : LRUCache Nat).set 0 10).set 1 20).dll = [1]) := by
  decide

/-! ### Key-set lemmas for the association list model -/

theorem lookup_isSome_iff {α : Type} (m : List (Nat × α)) (k : Nat) :
    (List.lookup k m).isSome = true ↔ k ∈ m.map Prod.fst := by
  induction m with
  | nil => simp [List.lookup]
  | cons hd tl ih =>
    obtain ⟨k0, v0⟩ := hd
    by_cases h : k = k0
    · subst h; simp [List.lookup]
    · have hb : (k == k0) = false := beq_eq_false_iff_ne.mpr h
      simp [List.lookup, hb, h, ih]

theorem objSet_keys_of_mem {α : Type} (m : List (Nat × α)) (k : Nat) (v : α)
    (h : k ∈ m.map Prod.fst) :
    (objSet m k v).map Prod.fst = m.map Prod.fst := by
  induction m with
  | nil => simp at h
  | cons hd tl ih =>
    obtain ⟨k0, v0⟩ := hd
    by_cases h0 : k0 = k
    · simp [objSet, h0]
    · simp only [List.map_cons, List.mem_cons] at h
      rcases h with h | h
    -- k = k0 contradicts h0
      · exact absurd h.symm h0
      · simp [objSet, h0, ih h]

theorem objSet_keys_of_not_mem {α : Type} (m : List (Nat × α)) (k : Nat) (v : α)
    (h : k ∉ m.map Prod.fst) :
    (objSet m k v).map Prod.fst = m.map Prod.fst ++ [k] := by
  induction m with
  | nil => simp
  | cons hd tl ih =>
    obtain ⟨k0, v0⟩ := hd
    simp only [List.map_cons, List.mem_cons] at h
    push_neg at h
    simp [objSet, Ne.symm h.1, ih h.2]

theorem objDelete_keys {α : Type} (m : List (Nat × α)) (k : Nat) :
    (objDelete m k).map Prod.fst = (m.map Prod.fst).erase k := by
  induction m with
  | nil => simp
  | cons hd tl ih =>
    obtain ⟨k0, v0⟩ := hd
    by_cases h0 : k0 = k
    · subst h0; simp [objDelete, List.erase_cons_head]
    · have hb : (k0 == k) = false := beq_eq_false_iff_ne.mpr h0
      simp [objDelete, h0, List.erase_cons, hb, ih]

/-! ### The recency policy of `LRUCache` (claim C3)

`Sync s M` states that the cache `s` is in a consistent configuration
described by the recency list `M` (most recent key first): the list of the
cache is `M`, every key of `M` is nonzero (truthy), and the map holds
exactly the keys of `M`.  All states reachable using only nonzero keys
satisfy it; the falsy key `0` breaks it (theorems on claims C1 and C2). -/

structure Sync {V : Type} (s : LRUCache V) (M : List Nat) : Prop where
  dll_eq : s.dll = M
  nodup : M.Nodup
  nonzero : ∀ k ∈ M, k ≠ 0
  keysNodup : (s.cache.map Prod.fst).Nodup
  has_iff : ∀ k, s.has k = true ↔ k ∈ M

theorem sync_empty {V : Type} (c : Nat) : Sync (LRUCache.empty (V := V) c) [] := by
  refine ⟨rfl, List.nodup_nil, by simp, by simp [LRUCache.empty], ?_⟩
  intro k
  simp [LRUCache.has, LRUCache.empty, objHas, List.lookup]

theorem capacity_set {V : Type} (s : LRUCache V) (k : Nat) (v : V) :
    (s.set k v).capacity = s.capacity := by
  unfold LRUCache.set
  split
  · rfl
  · dsimp only
    split
    · split
      · split <;> rfl
      · rfl
    · rfl

theorem has_false_of_sync {V : Type} {s : LRUCache V} {M : List Nat} (hs : Sync s M)
    {k : Nat} (hk : k ∉ M) : s.has k = false := by
  rcases h : s.has k with _ | _
  · rfl
  · exact absurd ((hs.has_iff k).mp h) hk

theorem has_iff_mem_keys {V : Type} (s : LRUCache V) (k : Nat) :
    s.has k = true ↔ k ∈ s.cache.map Prod.fst :=
  lookup_isSome_iff s.cache k

theorem mem_keys_iff_of_sync {V : Type} {s : LRUCache V} {M : List Nat} (hs : Sync s M)
    (k : Nat) : k ∈ s.cache.map Prod.fst ↔ k ∈ M :=
  (has_iff_mem_keys s k).symm.trans (hs.has_iff k)

/-- Effect of `set` with a fresh nonzero key on a consistent cache that is
within capacity: the recency list becomes `(k :: M).take capacity`, i.e.
the new key is attached at the head and, at full capacity, the list tail is
evicted (and, the key being nonzero, removed from the map as well). -/
theorem Sync.set_fresh {V : Type} {s : LRUCache V} {M : List Nat} (hs : Sync s M)
    (hcap : 1 ≤ s.capacity) (hlen : M.length ≤ s.capacity)
    {k : Nat} (hk0 : k ≠ 0) (hkM : k ∉ M) (v : V) :
    Sync (s.set k v) ((k :: M).take s.capacity) := by
  have hhas : s.has k = false := has_false_of_sync hs hkM
  have hkeys : k ∉ s.cache.map Prod.fst := fun h => hkM ((mem_keys_iff_of_sync hs k).mp h)
  have hsetkeys : (objSet s.cache k v).map Prod.fst = s.cache.map Prod.fst ++ [k] :=
    objSet_keys_of_not_mem s.cache k v hkeys
  have hkeysN : (s.cache.map Prod.fst ++ [k]).Nodup := by
    rw [List.nodup_append]
    refine ⟨hs.keysNodup, List.nodup_singleton k, ?_⟩
    intro a ha hb
    rw [List.mem_singleton] at hb
    subst hb
    exact hkeys ha
  rcases Nat.lt_or_ge M.length s.capacity with hlt | hge
  · -- within capacity: no eviction
    have htake : (k :: M).take s.capacity = k :: M :=
      List.take_of_length_le (by simp; omega)
    have hres : s.set k v =
        { s with cache := objSet s.cache k v, dll := k :: s.dll } := by
      unfold LRUCache.set
      rw [hhas]
      simp only [Bool.false_eq_true, if_false]
      have hlen2 : ¬ ((k :: s.dll).length > s.capacity) := by
        simp [hs.dll_eq]
        omega
      rw [if_neg hlen2]
    rw [hres, htake]
    refine ⟨by simp [hs.dll_eq], ?_, ?_, ?_, ?_⟩
    · exact List.nodup_cons.mpr ⟨hkM, hs.nodup⟩
    · intro k' hk'
      rcases List.mem_cons.mp hk' with rfl | h
      · exact hk0
      · exact hs.nonzero k' h
    · rw [show ({ s with cache := objSet s.cache k v, dll := k :: s.dll } :
          LRUCache V).cache = objSet s.cache k v from rfl, hsetkeys]
      exact hkeysN
    · intro k'
      rw [has_iff_mem_keys]
      rw [show ({ s with cache := objSet s.cache k v, dll := k :: s.dll } :
          LRUCache V).cache = objSet s.cache k v from rfl, hsetkeys]
      constructor
      · intro h
        rcases List.mem_append.mp h with h | h
        · exact List.mem_cons.mpr (Or.inr ((mem_keys_iff_of_sync hs k').mp h))
        · rw [List.mem_singleton] at h
          exact List.mem_cons.mpr (Or.inl h)
      · intro h
        rcases List.mem_cons.mp h with rfl | h
        · exact List.mem_append.mpr (Or.inr (by simp))
        · exact List.mem_append.mpr (Or.inl ((mem_keys_iff_of_sync hs k').mpr h))
  · -- at capacity: eviction of the tail
    have hlen2 : M.length = s.capacity := le_antisymm hlen hge
    have hM : M ≠ [] := by
      intro h
      rw [h] at hlen2
      simp at hlen2
      omega
    obtain ⟨L, t, rfl⟩ : ∃ L t, M = L ++ [t] := by
      rcases List.eq_nil_or_concat M with h | ⟨L, b, h⟩
      · exact absurd h hM
      · exact ⟨L, b, by simpa using h⟩
    have ht0 : t ≠ 0 := hs.nonzero t (by simp)
    have hLt : t ∉ L := by
      have h := hs.nodup
      rw [List.nodup_append] at h
      intro hmem
      exact h.2.2 hmem (by simp)
    have hkt : k ≠ t := fun h => hkM (by simp [h])
    have hgetLast : (k :: (L ++ [t])).getLast? = some t := by
      rw [show k :: (L ++ [t]) = (k :: L) ++ [t] by simp]
      exact List.getLast?_concat _
    have hdrop : (k :: (L ++ [t])).dropLast = k :: L := by
      rw [show k :: (L ++ [t]) = (k :: L) ++ [t] by simp]
      exact List.dropLast_concat
    have hres : s.set k v =
        { s with cache := objDelete (objSet s.cache k v) t, dll := k :: L } := by
      unfold LRUCache.set
      rw [hhas]
      simp only [Bool.false_eq_true, if_false]
      have hlen3 : ((k :: s.dll).length > s.capacity) := by
        have : (L ++ [t]).length = s.capacity := hlen2
        simp only [List.length_append, List.length_singleton] at this
        simp [hs.dll_eq]
        omega
      rw [if_pos hlen3]
      rw [hs.dll_eq, hgetLast]
      dsimp only
      rw [if_pos ht0, hdrop]
    have htake : (k :: (L ++ [t])).take s.capacity = k :: L := by
      rw [← hlen2]
      simp only [List.length_append, List.length_singleton]
      rw [show (k :: (L ++ [t])).take (L.length + 1) = k :: ((L ++ [t]).take L.length) from
        rfl, List.take_left]
    rw [hres, htake]
    have hkeysdel : (objDelete (objSet s.cache k v) t).map Prod.fst =
        (s.cache.map Prod.fst ++ [k]).erase t := by
      rw [objDelete_keys, hsetkeys]
    refine ⟨by simp, ?_, ?_, ?_, ?_⟩
    · have h := hs.nodup
      rw [List.nodup_append] at h
      exact List.nodup_cons.mpr ⟨fun hmem => hkM (by simp [hmem]), h.1⟩
    · intro k' hk'
      rcases List.mem_cons.mp hk' with rfl | h
      · exact hk0
      · exact hs.nonzero k' (by simp [h])
    · rw [show ({ s with cache := objDelete (objSet s.cache k v) t, dll := k :: L } :
          LRUCache V).cache = objDelete (objSet s.cache k v) t from rfl, hkeysdel]
      exact hkeysN.erase t
    · intro k'
      rw [has_iff_mem_keys]
      rw [show ({ s with cache := objDelete (objSet s.cache k v) t, dll := k :: L } :
          LRUCache V).cache = objDelete (objSet s.cache k v) t from rfl, hkeysdel]
      rw [hkeysN.mem_erase_iff]
      constructor
      · rintro ⟨hne, hmem⟩
        rcases List.mem_append.mp hmem with h | h
        · have h2 : k' ∈ L ++ [t] := (mem_keys_iff_of_sync hs k').mp h
          rcases List.mem_append.mp h2 with h3 | h3
          · exact List.mem_cons.mpr (Or.inr h3)
          · rw [List.mem_singleton] at h3
            exact absurd h3 hne
        · rw [List.mem_singleton] at h
          exact List.mem_cons.mpr (Or.inl h)
      · intro hmem
        rcases List.mem_cons.mp hmem with rfl | h
        · exact ⟨hkt, List.mem_append.mpr (Or.inr (by simp))⟩
        · refine ⟨fun he => hLt (he ▸ h), List.mem_append.mpr (Or.inl ?_)⟩
          exact (mem_keys_iff_of_sync hs k').mpr (List.mem_append.mpr (Or.inl h))

/-- Effect of `get` on a present key: promotion to the head of the recency
list; the map is unchanged and the stored value is returned. -/
theorem Sync.get_mem {V : Type} {s : LRUCache V} {M : List Nat} (hs : Sync s M)
    {k : Nat} (hk : k ∈ M) :
    (s.get k).1.isSome = true ∧ Sync (s.get k).2 (k :: M.erase k) := by
  have hhas : s.has k = true := (hs.has_iff k).mpr hk
  have hres : s.get k = (List.lookup k s.cache, { s with dll := k :: s.dll.erase k }) := by
    unfold LRUCache.get
    rw [hhas]
    simp
  rw [hres]
  refine ⟨?_, ⟨by simp [hs.dll_eq], ?_, ?_, hs.keysNodup, ?_⟩⟩
  · simpa [LRUCache.has, objHas] using hhas
  · exact List.nodup_cons.mpr ⟨hs.nodup.not_mem_erase, hs.nodup.erase k⟩
  · intro k' hk'
    rcases List.mem_cons.mp hk' with rfl | h
    · exact hs.nonzero k' hk
    · exact hs.nonzero k' (List.erase_subset _ _ h)
  · intro k'
    rw [show ({ s with dll := k :: s.dll.erase k } : LRUCache V).has k' = s.has k' from rfl,
      hs.has_iff k']
    simp only [List.mem_cons, hs.nodup.mem_erase_iff]
    constructor
    · intro h
      by_cases hek : k' = k
      · exact Or.inl hek
      · exact Or.inr ⟨hek, h⟩
    · rintro (rfl | ⟨_, h⟩)
      · exact hk
      · exact h

/-- Folding `set` over a list of key-value pairs. -/
def setAll {V : Type} (s : LRUCache V) (ks : List (Nat × V)) : LRUCache V :=
  ks.foldl (fun s kv => s.set kv.1 kv.2) s

theorem capacity_setAll {V : Type} (ks : List (Nat × V)) :
    ∀ s : LRUCache V, (setAll s ks).capacity = s.capacity := by
  induction ks with
  | nil => intro s; rfl
  | cons kv rest ih =>
    intro s
    rw [show setAll s (kv :: rest) = setAll (s.set kv.1 kv.2) rest from rfl, ih,
      capacity_set]

/-- The recency list evolution induced by a sequence of fresh insertions:
cons at the head, truncated to the capacity. -/
def evolve (c : Nat) (M : List Nat) (ks : List Nat) : List Nat :=
  ks.foldl (fun M k => (k :: M).take c) M

theorem take_append_take (c : Nat) (A B : List Nat) :
    (A ++ B.take c).take c = (A ++ B).take c := by
  rw [List.take_append_eq_append_take, List.take_append_eq_append_take,
    List.take_take]
  congr 1
  have h : min (c - A.length) c = c - A.length := by omega
  rw [h]

theorem evolve_eq (c : Nat) (ks : List Nat) :
    ∀ M : List Nat, M.length ≤ c → evolve c M ks = (ks.reverse ++ M).take c := by
  induction ks with
  | nil =>
    intro M h
    simp [evolve, List.take_of_length_le h]
  | cons k rest ih =>
    intro M h
    rw [show evolve c M (k :: rest) = evolve c ((k :: M).take c) rest from rfl,
      ih _ (by rw [List.length_take]; omega), take_append_take]
    congr 1
    simp

/-- Main fold lemma: starting from a consistent cache within capacity and
setting a sequence of fresh, pairwise distinct, nonzero keys yields the
configuration described by `evolve`. -/
theorem sync_setAll {V : Type} (c : Nat) (hc : 1 ≤ c) :
    ∀ (ks : List (Nat × V)) (s : LRUCache V) (M : List Nat),
      s.capacity = c → Sync s M → M.length ≤ c →
      (ks.map Prod.fst).Nodup →
      (∀ k ∈ ks.map Prod.fst, k ≠ 0) →
      (∀ k ∈ ks.map Prod.fst, k ∉ M) →
      Sync (setAll s ks) (evolve c M (ks.map Prod.fst)) := by
  intro ks
  induction ks with
  | nil =>
    intro s M hcap hs hlen _ _ _
    exact hs
  | cons kv rest ih =>
    intro s M hcap hs hlen hnodup hnz hfresh
    obtain ⟨k, v⟩ := kv
    have hk0 : k ≠ 0 := hnz k (by simp)
    have hkM : k ∉ M := hfresh k (by simp)
    have hstep : Sync (s.set k v) ((k :: M).take s.capacity) :=
      hs.set_fresh (by omega) (by omega) hk0 hkM v
    rw [hcap] at hstep
    have hcap2 : (s.set k v).capacity = c := by rw [capacity_set, hcap]
    have hsub : ∀ x, x ∈ (k :: M).take c → x = k ∨ x ∈ M := by
      intro x hx
      have := List.take_subset c (k :: M) hx
      simpa using this
    rw [List.map_cons, List.nodup_cons] at hnodup
    refine ?_
    have hres := ih (s.set k v) ((k :: M).take c) hcap2 hstep
      (by rw [List.length_take]; omega)
      hnodup.2
      (fun x hx => hnz x (by simp [hx]))
      ?_
    · rw [show setAll s ((k, v) :: rest) = setAll (s.set k v) rest from rfl]
      rw [show (((k, v) :: rest).map Prod.fst) = k :: rest.map Prod.fst from rfl]
      rw [show evolve c M (k :: rest.map Prod.fst) =
        evolve c ((k :: M).take c) (rest.map Prod.fst) from rfl]
      exact hres
    · intro x hx hmem
      rcases hsub x hmem with rfl | hxM
      · exact hnodup.1 hx
      · exact hfresh x (by simp [hx]) hxM

theorem capacity_get {V : Type} (s : LRUCache V) (k : Nat) :
    (s.get k).2.capacity = s.capacity := by
  unfold LRUCache.get
  split <;> rfl

/-- C3 counterexample.  The claim, as stated, fails on the code twice.
First, with the falsy key `0`: capacity 1, `set(0, a); set(1, b)` should
leave exactly key `1` surviving, but `has(0)` still reports `true` (the
eviction guard `if (tail && tail.key)` skipped the map deletion).  Second,
the claimed `get(k)` scenario is off by one: with capacity 1, after
`set(5, a); get(5)`, inserting `capacity` = 1 new distinct key evicts `5`
as well, although the claim says every original key except `5` is
evicted. -/
theorem C3_counterexample :
    ((((LRUCache.empty 1 : LRUCache Nat).set 0 10).set 1 20).has 0 = true) ∧
    (((((LRUCache.empty 1 : LRUCache Nat).set 5 50).get 5).2.set 7 70).has 5 = false) := by
  decide


/-- C3 (amended).  LRU policy correctness for `LRUCache`, restricted to
nonzero (truthy) keys, with the second scenario corrected to `capacity - 1`
insertions: (i) `set` of a fresh key into a full consistent cache evicts
exactly the least recently touched key, the list tail; (ii) after setting
`N > c` distinct keys into a fresh cache with no intervening gets, the
surviving keys are exactly the `c` most recent insertions and the keys are
evicted oldest first (the key inserted `j`-th is evicted exactly when the
`(j + c + 1)`-th key is inserted); (iii) a successful `get(k)` promotes `k`
to most recent, so inserting `c - 1` fresh distinct keys afterwards evicts
every original key except `k`, which survives, while a `c`-th fresh
insertion then evicts `k` as well. -/
theorem C3_lru_policy (V : Type) :
    (∀ (s : LRUCache V) (M : List Nat) (k : Nat) (v : V),
      Sync s M → 1 ≤ s.capacity → M.length = s.capacity → k ≠ 0 → k ∉ M →
      ∀ t, M.getLast? = some t →
        (s.set k v).has t = false ∧
        (∀ x, (s.set k v).has x = true ↔ x = k ∨ x ∈ M.dropLast)) ∧
    (∀ (c : Nat) (ks : List (Nat × V)), 1 ≤ c →
      (ks.map Prod.fst).Nodup → (∀ x ∈ ks.map Prod.fst, x ≠ 0) → c < ks.length →
      (∀ x, (setAll (LRUCache.empty c) ks).has x = true ↔
        x ∈ (ks.map Prod.fst).reverse.take c) ∧
      (∀ j kj vj rest, ks.drop j = (kj, vj) :: rest → j + c < ks.length →
        (setAll (LRUCache.empty c) (ks.take (j + c))).has kj = true ∧
        (setAll (LRUCache.empty c) (ks.take (j + c + 1))).has kj = false)) ∧
    (∀ (c : Nat) (os ns : List (Nat × V)) (ki nk : Nat) (nv : V),
      1 ≤ c →
      (os.map Prod.fst).Nodup → (∀ x ∈ os.map Prod.fst, x ≠ 0) → os.length = c →
      ki ∈ os.map Prod.fst →
      (ns.map Prod.fst).Nodup → (∀ x ∈ ns.map Prod.fst, x ≠ 0) →
      ns.length = c - 1 →
      (∀ x ∈ ns.map Prod.fst, x ∉ os.map Prod.fst) →
      nk ≠ 0 → nk ∉ os.map Prod.fst → nk ∉ ns.map Prod.fst →
      ((setAll ((setAll (LRUCache.empty c) os).get ki).2 ns).has ki = true) ∧
      (∀ o ∈ os.map Prod.fst, o ≠ ki →
        (setAll ((setAll (LRUCache.empty c) os).get ki).2 ns).has o = false) ∧
      (∀ n ∈ ns.map Prod.fst,
        (setAll ((setAll (LRUCache.empty c) os).get ki).2 ns).has n = true) ∧
      (((setAll ((setAll (LRUCache.empty c) os).get ki).2 ns).set nk nv).has ki =
        false)) := by
  refine ⟨?_, ?_, ?_⟩
  · -- (i) single eviction
    intro s M k v hs hcap hlen hk0 hkM t ht
    have hM : M ≠ [] := by
      intro h
      rw [h] at ht
      simp at ht
    have hstep : Sync (s.set k v) ((k :: M).take s.capacity) :=
      hs.set_fresh hcap (le_of_eq hlen) hk0 hkM v
    have hlen1 : 1 ≤ M.length := by
      rcases M with _ | ⟨a, M2⟩
      · exact absurd rfl hM
      · simp
    have htake : (k :: M).take s.capacity = k :: M.dropLast := by
      rw [← hlen]
      rw [show M.length = (M.length - 1) + 1 by omega]
      rw [show (k :: M).take ((M.length - 1) + 1) = k :: M.take (M.length - 1) from rfl]
      rw [← List.dropLast_eq_take]
    rw [htake] at hstep
    obtain ⟨L, t2, rfl⟩ : ∃ L t2, M = L ++ [t2] := by
      rcases List.eq_nil_or_concat M with h | ⟨L, b, h⟩
      · exact absurd h hM
      · exact ⟨L, b, by simpa using h⟩
    have ht2 : t2 = t := by
      rw [List.getLast?_concat] at ht
      injection ht
    subst ht2
    have hdl : (L ++ [t2]).dropLast = L := List.dropLast_concat
    rw [hdl] at hstep
    refine ⟨?_, ?_⟩
    · have hnot : t2 ∉ k :: L := by
        rw [List.mem_cons]
        rintro (rfl | h)
        · exact hkM (by simp)
        · have hnd := hs.nodup
          rw [List.nodup_append] at hnd
          exact hnd.2.2 h (by simp)
      exact has_false_of_sync hstep hnot
    · intro x
      rw [hstep.has_iff x, hdl, List.mem_cons]
  · -- (ii) fill past capacity
    intro c ks hc hnodup hnz hlong
    have state : ∀ n, Sync (setAll (LRUCache.empty c) (ks.take n))
        (((ks.map Prod.fst).take n).reverse.take c) := by
      intro n
      have hsync := sync_setAll c hc (ks.take n) (LRUCache.empty c) [] rfl
        (sync_empty c) (by simp)
        (by rw [List.map_take]; exact hnodup.sublist (List.take_sublist n _))
        (fun x hx => hnz x (List.mem_of_mem_take (by rwa [List.map_take] at hx)))
        (by simp)
      rw [evolve_eq c _ [] (by simp), List.append_nil, List.map_take] at hsync
      exact hsync
    constructor
    · intro x
      have hsync := sync_setAll c hc ks (LRUCache.empty c) [] rfl (sync_empty c)
        (by simp) hnodup hnz (by simp)
      rw [hsync.has_iff x, evolve_eq c _ [] (by simp)]
      simp
    · intro j kj vj rest hdrop hj
      have hkeysdrop : (ks.map Prod.fst).drop j = kj :: rest.map Prod.fst := by
        rw [← List.map_drop, hdrop]
        rfl
      have hkjmem : kj ∈ ks.map Prod.fst := by
        have h1 : kj ∈ (ks.map Prod.fst).drop j := by
          rw [hkeysdrop]
          simp
        exact List.drop_subset j _ h1
      constructor
      · -- still present after j + c sets
        have hs := state (j + c)
        rw [hs.has_iff kj]
        have hrev : ((ks.map Prod.fst).take (j + c)).reverse.take c =
            (((ks.map Prod.fst).take (j + c)).drop j).reverse := by
          have hlt : ((ks.map Prod.fst).take (j + c)).length = j + c :=
            List.length_take_of_le (by simp; omega)
          rw [List.reverse_drop, hlt]
          congr 1
          omega
        rw [hrev, List.mem_reverse, List.drop_take, hkeysdrop]
        rw [show j + c - j = (c - 1) + 1 by omega]
        rw [show ((kj :: rest.map Prod.fst).take ((c - 1) + 1)) =
          kj :: ((rest.map Prod.fst).take (c - 1)) from rfl]
        simp
      · -- evicted at the (j + c + 1)-th set
        have hs := state (j + c + 1)
        refine has_false_of_sync hs ?_
        have hrev : ((ks.map Prod.fst).take (j + c + 1)).reverse.take c =
            (((ks.map Prod.fst).take (j + c + 1)).drop (j + 1)).reverse := by
          have hlt : ((ks.map Prod.fst).take (j + c + 1)).length = j + c + 1 :=
            List.length_take_of_le (by simp; omega)
          rw [List.reverse_drop, hlt]
          congr 1
          omega
        have hdd : (ks.map Prod.fst).drop (j + 1) = rest.map Prod.fst := by
          rw [show (ks.map Prod.fst).drop (j + 1) =
            ((ks.map Prod.fst).drop j).drop 1 by rw [List.drop_drop]]
          rw [hkeysdrop]
          rfl
        rw [hrev, List.mem_reverse, List.drop_take, hdd]
        intro hmem
        have hmem2 : kj ∈ rest.map Prod.fst := List.mem_of_mem_take hmem
        have hnd : ((ks.map Prod.fst).drop j).Nodup :=
          hnodup.sublist (List.drop_sublist j _)
        rw [hkeysdrop, List.nodup_cons] at hnd
        exact hnd.1 hmem2
  · -- (iii) promotion by get
    intro c os ns ki nk nv hc honodup honz holen hki hnnodup hnnz hnlen hdisj hnk0
      hnkos hnkns
    have hokeys : (os.map Prod.fst).length = c := by simp [holen]
    have hsync0 := sync_setAll c hc os (LRUCache.empty c) [] rfl (sync_empty c)
      (by simp) honodup honz (by simp)
    rw [evolve_eq c _ [] (by simp), List.append_nil,
      List.take_of_length_le (by simp [hokeys])] at hsync0
    have hkirev : ki ∈ (os.map Prod.fst).reverse := List.mem_reverse.mpr hki
    obtain ⟨hget1, hget2⟩ := hsync0.get_mem hkirev
    have hM1len : (ki :: (os.map Prod.fst).reverse.erase ki).length = c := by
      rw [List.length_cons, List.length_erase_of_mem hkirev, List.length_reverse,
        hokeys]
      omega
    have hcap1 : ((setAll (LRUCache.empty c) os).get ki).2.capacity = c := by
      rw [capacity_get, capacity_setAll]
      rfl
    have herasesub : ∀ x, x ∈ (os.map Prod.fst).reverse.erase ki →
        x ∈ os.map Prod.fst := by
      intro x hx
      exact List.mem_reverse.mp (List.erase_subset ki _ hx)
    have hfresh2 : ∀ x ∈ ns.map Prod.fst,
        x ∉ ki :: (os.map Prod.fst).reverse.erase ki := by
      intro x hx hmem
      rcases List.mem_cons.mp hmem with rfl | hmem2
      · exact hdisj x hx hki
      · exact hdisj x hx (herasesub x hmem2)
    have hsync2 := sync_setAll c hc ns ((setAll (LRUCache.empty c) os).get ki).2
      (ki :: (os.map Prod.fst).reverse.erase ki) hcap1 hget2 (le_of_eq hM1len)
      hnnodup hnnz hfresh2
    have hnlen2 : (ns.map Prod.fst).reverse.length = c - 1 := by simp [hnlen]
    have hM2 : evolve c (ki :: (os.map Prod.fst).reverse.erase ki)
        (ns.map Prod.fst) = (ns.map Prod.fst).reverse ++ [ki] := by
      rw [evolve_eq c _ _ (le_of_eq hM1len), List.take_append_eq_append_take,
        List.take_of_length_le (by omega), hnlen2]
      congr 1
      rw [show c - (c - 1) = 1 by omega]
      rfl
    rw [hM2] at hsync2
    refine ⟨?_, ?_, ?_, ?_⟩
    · rw [hsync2.has_iff ki]
      simp
    · intro o ho hone
      refine has_false_of_sync hsync2 ?_
      rw [List.mem_append]
      rintro (hmem | hmem)
      · exact hdisj o (List.mem_reverse.mp hmem) ho
      · simp at hmem
        exact hone hmem
    · intro n hn
      rw [hsync2.has_iff n, List.mem_append]
      exact Or.inl (List.mem_reverse.mpr hn)
    · have hM2len : ((ns.map Prod.fst).reverse ++ [ki]).length = c := by
        simp only [List.length_append, List.length_singleton, hnlen2]
        omega
      have hcap2 : (setAll ((setAll (LRUCache.empty c) os).get ki).2 ns).capacity
          = c := by
        rw [capacity_setAll, hcap1]
      have hnkM2 : nk ∉ (ns.map Prod.fst).reverse ++ [ki] := by
        rw [List.mem_append]
        rintro (hmem | hmem)
        · exact hnkns (List.mem_reverse.mp hmem)
        · simp at hmem
          subst hmem
          exact hnkos hki
      have hstep := hsync2.set_fresh (by omega) (by omega) hnk0 hnkM2 nv
      have htake : (nk :: ((ns.map Prod.fst).reverse ++ [ki])).take
          (setAll ((setAll (LRUCache.empty c) os).get ki).2 ns).capacity =
          nk :: (ns.map Prod.fst).reverse := by
        rw [hcap2, ← hM2len]
        rw [show ((ns.map Prod.fst).reverse ++ [ki]).length =
          (ns.map Prod.fst).reverse.length + 1 by simp]
        rw [show (nk :: ((ns.map Prod.fst).reverse ++ [ki])).take
          ((ns.map Prod.fst).reverse.length + 1) =
          nk :: (((ns.map Prod.fst).reverse ++ [ki]).take
            (ns.map Prod.fst).reverse.length) from rfl]
        rw [List.take_left]
      rw [htake] at hstep
      have hnot : ki ∉ nk :: (ns.map Prod.fst).reverse := by
        rw [List.mem_cons]
        rintro (rfl | hmem)
        · exact hnkos hki
        · exact hdisj ki (List.mem_reverse.mp hmem) hki
      exact has_false_of_sync hstep hnot

/-- Witness for C3: the amended policy theorem applied at concrete inputs
(capacity 1 with keys 5, 7; capacity 2 with keys 3, 4, 6). -/
theorem C3_lru_policy_witness :
    ((((LRUCache.empty 1 : LRUCache Nat).set 5 50).set 7 70).has 5 = false) ∧
    ((((LRUCache.empty 1 : LRUCache Nat).set 5 50).set 7 70).has 7 = true) ∧
    ((setAll (LRUCache.empty 2 : LRUCache Nat) [(3, 30), (4, 40), (6, 60)]).has 3
      = false) ∧
    ((setAll (LRUCache.empty 2 : LRUCache Nat) [(3, 30), (4, 40), (6, 60)]).has 4
      = true) ∧
    ((setAll ((setAll (LRUCache.empty 1 : LRUCache Nat) [(5, 50)]).get 5).2 []).has 5
      = true) := by
  have hsync : Sync ((LRUCache.empty 1 : LRUCache Nat).set 5 50) [5] :=
    (sync_empty 1).set_fresh (by decide) (by decide) (by decide) (by decide) 50
  have h1 := (C3_lru_policy Nat).1 ((LRUCache.empty 1).set 5 50) [5] 7 70 hsync
    (by decide) (by decide) (by decide) (by decide) 5 (by decide)
  have h2 := (C3_lru_policy Nat).2.1 2 [(3, 30), (4, 40), (6, 60)] (by decide)
    (by decide) (by decide) (by decide)
  have h3 := (C3_lru_policy Nat).2.2 1 [(5, 50)] [] 5 7 70 (by decide) (by decide)
    (by decide) (by decide) (by decide) (by decide) (by decide) (by decide)
    (by decide) (by decide) (by decide) (by decide)
  refine ⟨h1.1, (h1.2 7).mpr (Or.inl rfl), ?_, ?_, h3.1⟩
  · rcases hb : (setAll (LRUCache.empty 2 : LRUCache Nat)
        [(3, 30), (4, 40), (6, 60)]).has 3 with _ | _
    · rfl
    · exact absurd ((h2.1 3).mp hb) (by decide)
  · exact (h2.1 4).mpr (by decide)

/-! ## `ValueWithTTL` and `LRUCacheWithTTL` (`src/lru.ts`)

`Date.now()` is passed explicitly as `now`. -/

structure ValueWithTTL (V : Type) where
  value : V
  expiry : Nat
  ttl : Nat
deriving Repr, DecidableEq

namespace ValueWithTTL

variable {V : Type}

/-- Constructor body: `this.expiry = Date.now() + ttl` (the validation of
`ttl` is modelled separately for the construction claim). -/
def create (v : V) (ttl now : Nat) : ValueWithTTL V := ⟨v, now + ttl, ttl⟩

/-- `isExpired()`: `this.expiry <= Date.now()`. -/
def isExpired (w : ValueWithTTL V) (now : Nat) : Bool := w.expiry ≤ now

/-- `resetTTL()`: `this.expiry = Date.now() + this.#ttl`. -/
def resetTTL (w : ValueWithTTL V) (now : Nat) : ValueWithTTL V :=
  { w with expiry := now + w.ttl }

end ValueWithTTL

structure LRUCacheWithTTL (V : Type) where
  capacity : Nat
  ttl : Nat
  cache : List (Nat × ValueWithTTL V)
  dll : List Nat
deriving Repr, DecidableEq

namespace LRUCacheWithTTL

variable {V : Type}

def empty (capacity ttl : Nat) : LRUCacheWithTTL V := ⟨capacity, ttl, [], []⟩

/-- `has(key)`: a present but expired entry is deleted from the map and
detached from the list, and the call reports `false`; a present live entry
reports `true`; an absent key reports `false`.  The call mutates the
cache, so the new state is returned alongside the answer. -/
def has (s : LRUCacheWithTTL V) (now k : Nat) : Bool × LRUCacheWithTTL V :=
  match List.lookup k s.cache with
  | some w =>
    if w.isExpired now then
      (false, { s with cache := objDelete s.cache k, dll := s.dll.erase k })
    else (true, s)
  | none => (false, s)

def size (s : LRUCacheWithTTL V) : Nat := s.dll.length

/-- `set(key, value)`: goes through `this.has(key)` (which may lazily evict
an expired entry under the same key) and then follows the same structure
as `LRUCache.set`, wrapping the value freshly with the TTL; the eviction
branch has the same `if (tail && tail.key)` guard. -/
def set (s : LRUCacheWithTTL V) (now k : Nat) (v : V) : LRUCacheWithTTL V :=
  let hr := s.has now k
  let s1 := hr.2
  if hr.1 then
    { s1 with cache := objSet s1.cache k (ValueWithTTL.create v s.ttl now),
              dll := k :: s1.dll.erase k }
  else
    let s2 : LRUCacheWithTTL V :=
      { s1 with cache := objSet s1.cache k (ValueWithTTL.create v s.ttl now),
                dll := k :: s1.dll }
    if s2.dll.length > s2.capacity then
      match s2.dll.getLast? with
      | some tailKey =>
        let s3 : LRUCacheWithTTL V := { s2 with dll := s2.dll.dropLast }
        if tailKey ≠ 0 then { s3 with cache := objDelete s3.cache tailKey } else s3
      | none => s2
    else s2

/-- `get(key)`: on a live hit, `resetTTL` (expiry becomes `now + ttl`),
recency promotion, and the stored value is returned. -/
def get (s : LRUCacheWithTTL V) (now k : Nat) : Option V × LRUCacheWithTTL V :=
  let hr := s.has now k
  let s1 := hr.2
  if hr.1 then
    match List.lookup k s1.cache with
    | some w =>
      (some w.value, { s1 with cache := objSet s1.cache k (w.resetTTL now),
                               dll := k :: s1.dll.erase k })
    | none => (none, s1)
  else (none, s1)

/-- `cleanupExpired()`: eager sweep removing every expired entry, returning
the removed count. -/
def cleanupExpired (s : LRUCacheWithTTL V) (now : Nat) : Nat × LRUCacheWithTTL V :=
  let expired := s.cache.filter (fun kv => kv.2.isExpired now)
  (expired.length,
    { s with cache := s.cache.filter (fun kv => !(kv.2.isExpired now)),
             dll := expired.foldl (fun l kv => l.erase kv.1) s.dll })

def delete (s : LRUCacheWithTTL V) (now k : Nat) : Bool × LRUCacheWithTTL V :=
  let hr := s.has now k
  let s1 := hr.2
  if hr.1 then
    (s1.dll.contains k, { s1 with cache := objDelete s1.cache k, dll := s1.dll.erase k })
  else (false, s1)

def clear (s : LRUCacheWithTTL V) : LRUCacheWithTTL V :=
  { s with cache := [], dll := [] }

end LRUCacheWithTTL

section LRUTTLChecks

/-- Sanity: a TTL entry expires (set at 0 with ttl 1000, checked at 1500). -/
example :
    let s := (LRUCacheWithTTL.empty 3 1000 : LRUCacheWithTTL Nat).set 0 1 11
    (s.has 500 1).1 = true ∧ (s.has 1500 1).1 = false ∧ (s.has 1500 1).2.size = 0 := by
  decide

/-- Sanity: TTL reset by get (set at 0, get at 800, still live at 1600). -/
example :
    let s := (LRUCacheWithTTL.empty 3 1000 : LRUCacheWithTTL Nat).set 0 1 11
    let s800 := (s.get 800 1).2
    (s.get 800 1).1 = some 11 ∧ (s800.get 1600 1).1 = some 11 ∧
    (s800.get 1900 1).1 = none := by
  decide

end LRUTTLChecks


/-- `Math.min` over a list of numbers (`none` on the empty list). -/
def minList : List Nat → Option Nat
  | [] => none
  | x :: xs =>
    match minList xs with
    | none => some x
    | some m => some (min x m)

theorem minList_le_of_mem {l : List Nat} {x : Nat} (h : x ∈ l) :
    ∃ m, minList l = some m ∧ m ≤ x := by
  induction l with
  | nil => simp at h
  | cons a l ih =>
    rcases List.mem_cons.mp h with rfl | h2
    · rcases hm : minList l with _ | m
      · exact ⟨x, by simp [minList, hm], Nat.le_refl x⟩
      · exact ⟨min x m, by simp [minList, hm], min_le_left x m⟩
    · obtain ⟨m, hm, hle⟩ := ih h2
      exact ⟨min a m, by simp [minList, hm], Nat.le_trans (min_le_right a m) hle⟩

theorem minList_mem {l : List Nat} {m : Nat} (h : minList l = some m) : m ∈ l := by
  induction l generalizing m with
  | nil => simp [minList] at h
  | cons a l ih =>
    rcases hm : minList l with _ | m2
    · rw [minList, hm] at h
      injection h with h
      simp [h.symm]
    · rw [minList, hm] at h
      injection h with h
      rcases Nat.le_total a m2 with hc | hc
      · have hma : m = a := by omega
        simp [hma]
      · have hmm : m = m2 := by omega
        subst hmm
        exact List.mem_cons.mpr (Or.inr (ih hm))

theorem minList_eq_none_iff {l : List Nat} : minList l = none ↔ l = [] := by
  cases l with
  | nil => simp [minList]
  | cons a l =>
    simp only [minList]
    rcases minList l with _ | m <;> simp

/-! ## `LFUCache` (`src/lfu.ts`)

`#cache : Record<K, LFUCacheNode<K, V>>` (nodes carry `key` and `freq`),
`#freqMap : Record<number, DoublyLinkedList<V>>`, `#minFreq`, `#size`.
The map is modelled as key to (value, freq); buckets as freq to list of
keys (head first).  `#size` is an `Int`: the decrement `this.#size--` is
unguarded in this class.  Operations whose JavaScript body can throw a
`TypeError` (accessing a bucket that is `undefined`, or `removeTail()`
returning `undefined` followed by `node.key`) return `Option`, with `none`
for the throw. -/

structure LFUCache (V : Type) where
  capacity : Nat
  cache : List (Nat × (V × Nat))
  freqMap : List (Nat × List Nat)
  minFreq : Nat
  size : Int
deriving Repr, DecidableEq

namespace LFUCache

variable {V : Type}

def empty (capacity : Nat) : LFUCache V := ⟨capacity, [], [], 0, 0⟩

/-- `has(key)`. -/
def has (s : LFUCache V) (k : Nat) : Bool := objHas s.cache k

/-- `#findMinFreq()`: `Math.min` over `Object.keys(this.#freqMap)`, 0 when
there are no buckets. -/
def findMinFreq (s : LFUCache V) : Nat :=
  (minList (s.freqMap.map Prod.fst)).getD 0

/-- `#addToFreqList(freq, node)`: create the bucket if missing, then
`addToHead`. -/
def addToFreqList (s : LFUCache V) (freq k : Nat) : LFUCache V :=
  match List.lookup freq s.freqMap with
  | some b => { s with freqMap := objSet s.freqMap freq (k :: b) }
  | none => { s with freqMap := objSet s.freqMap freq [k] }

/-- `#increaseFreq(node)`: remove the node from its bucket (the bucket is
accessed unguarded: a missing bucket is a `TypeError`, `none` here); when
that bucket became empty and was the minimum, `minFreq++`; then re-insert
at the head of the next bucket.  The emptied bucket stays in the map. -/
def increaseFreq (s : LFUCache V) (k : Nat) : Option (LFUCache V) :=
  match List.lookup k s.cache with
  | none => none
  | some (v, oldFreq) =>
    match List.lookup oldFreq s.freqMap with
    | none => none
    | some b =>
      let b1 := b.erase k
      let s1 : LFUCache V := { s with freqMap := objSet s.freqMap oldFreq b1 }
      let s2 : LFUCache V :=
        if b1.isEmpty ∧ oldFreq = s.minFreq then
          { s1 with minFreq := s1.minFreq + 1 }
        else s1
      let s3 : LFUCache V := { s2 with cache := objSet s2.cache k (v, oldFreq + 1) }
      some (s3.addToFreqList (oldFreq + 1) k)

/-- `get(key)`. -/
def get (s : LFUCache V) (k : Nat) : Option (Option V × LFUCache V) :=
  match List.lookup k s.cache with
  | none => some (none, s)
  | some (v, _) => (s.increaseFreq k).map (fun s1 => (some v, s1))

/-- `#removeMinFreqNode()`: `removeTail` on the minimum-frequency bucket,
delete the evicted key from the map (unconditionally), drop the bucket if
now empty and recompute `minFreq`, then `this.#size--`. -/
def removeMinFreqNode (s : LFUCache V) : Option (LFUCache V) :=
  match List.lookup s.minFreq s.freqMap with
  | none => none
  | some b =>
    match b.getLast? with
    | none => none
    | some tailKey =>
      let s1 : LFUCache V := { s with freqMap := objSet s.freqMap s.minFreq b.dropLast,
                                      cache := objDelete s.cache tailKey }
      let s2 : LFUCache V :=
        if b.dropLast.isEmpty then
          let s3 : LFUCache V := { s1 with freqMap := objDelete s1.freqMap s.minFreq }
          { s3 with minFreq := s3.findMinFreq }
        else s1
      some { s2 with size := s2.size - 1 }

/-- `set(key, value)`: existing key updates the value and promotes the
frequency; new key evicts from the minimum-frequency bucket when
`size >= capacity`, then inserts at frequency 1 and sets `minFreq = 1`. -/
def set (s : LFUCache V) (k : Nat) (v : V) : Option (LFUCache V) :=
  match List.lookup k s.cache with
  | some (_, f) =>
    let s1 : LFUCache V := { s with cache := objSet s.cache k (v, f) }
    s1.increaseFreq k
  | none =>
    let step1 : Option (LFUCache V) :=
      if s.size ≥ (s.capacity : Int) then s.removeMinFreqNode else some s
    step1.map (fun s1 =>
      let s2 : LFUCache V := { s1 with cache := objSet s1.cache k (v, 1) }
      let s3 := s2.addToFreqList 1 k
      { s3 with minFreq := 1, size := s3.size + 1 })

/-- `delete(key)`. -/
def delete (s : LFUCache V) (k : Nat) : Option (Bool × LFUCache V) :=
  match List.lookup k s.cache with
  | none => some (false, s)
  | some (_, freq) =>
    let s1 : LFUCache V := { s with cache := objDelete s.cache k }
    match List.lookup freq s1.freqMap with
    | none => none
    | some b =>
      let b1 := b.erase k
      let s2 : LFUCache V := { s1 with freqMap := objSet s1.freqMap freq b1 }
      let s3 : LFUCache V :=
        if b1.isEmpty then
          let s4 : LFUCache V := { s2 with freqMap := objDelete s2.freqMap freq }
          if freq = s.minFreq then { s4 with minFreq := s4.findMinFreq } else s4
        else s2
      some (true, { s3 with size := s3.size - 1 })

/-- `clear()`. -/
def clear (s : LFUCache V) : LFUCache V :=
  { s with cache := [], freqMap := [], minFreq := 0, size := 0 }

end LFUCache

/-- A public operation on the plain frequency cache. -/
inductive LFUOp (V : Type) where
  | set (k : Nat) (v : V)
  | get (k : Nat)
  | del (k : Nat)
  | clear
deriving Repr

def LFUCache.step {V : Type} (s : LFUCache V) : LFUOp V → Option (LFUCache V)
  | .set k v => s.set k v
  | .get k => (s.get k).map Prod.snd
  | .del k => (s.delete k).map Prod.snd
  | .clear => some s.clear

def runLFU {V : Type} (c : Nat) (ops : List (LFUOp V)) : Option (LFUCache V) :=
  ops.foldlM LFUCache.step (LFUCache.empty c)

section LFUChecks

/-- Sanity: the first concrete LFU scenario of the spec: capacity 2,
`set(a); set(b); get(a); set(c)` evicts `b`. -/
example :
    (runLFU 2 [LFUOp.set 1 11, LFUOp.set 2 22, LFUOp.get 1, LFUOp.set 3 33]).map
      (fun s => (s.has 1, s.has 2, s.has 3, s.size)) = some (true, false, true, 2) := by
  decide

/-- Sanity: the tie-break scenario: capacity 2, `set(a); set(b); set(c)`
evicts `a` (the tail of the frequency-1 bucket). -/
example :
    (runLFU 2 [LFUOp.set 1 11, LFUOp.set 2 22, LFUOp.set 3 33]).map
      (fun s => (s.has 1, s.has 2, s.has 3)) = some (false, true, true) := by
  decide

/-- Sanity: the C5 stale-minFreq behaviour: capacity 1,
`set(a); get(a); delete(a)` leaves `minFreq = 1` on an empty cache. -/
example :
    (runLFU 1 [LFUOp.set 1 11, LFUOp.get 1, LFUOp.del 1]).map
      (fun s => (s.minFreq, s.size, s.cache.length)) = some (1, 0, 0) := by
  decide

end LFUChecks

/-! ## `LFUCacheWithTTL` (`src/lfu.ts`)

Same structure as `LFUCache` with TTL-wrapped values.  This class guards
the bucket accesses (`if (freqList)`, `if (!minFreqList ...)`, `if (!node)
return`) and the size decrement (`if (this.#size > 0)`), so its operations
are total and `#size` is kept as `Nat`. -/

structure LFUCacheWithTTL (V : Type) where
  capacity : Nat
  ttl : Nat
  cache : List (Nat × (ValueWithTTL V × Nat))
  freqMap : List (Nat × List Nat)
  minFreq : Nat
  size : Nat
deriving Repr, DecidableEq

namespace LFUCacheWithTTL

variable {V : Type}

def empty (capacity ttl : Nat) : LFUCacheWithTTL V := ⟨capacity, ttl, [], [], 0, 0⟩

def findMinFreq (s : LFUCacheWithTTL V) : Nat :=
  (minList (s.freqMap.map Prod.fst)).getD 0

def addToFreqList (s : LFUCacheWithTTL V) (freq k : Nat) : LFUCacheWithTTL V :=
  match List.lookup freq s.freqMap with
  | some b => { s with freqMap := objSet s.freqMap freq (k :: b) }
  | none => { s with freqMap := objSet s.freqMap freq [k] }

/-- `#removeNodeCompletely(node)`: remove from the bucket when the bucket
exists (dropping it and recomputing `minFreq` when emptied), delete the
map entry, and decrement the size when positive.  `freq` is `node.freq`. -/
def removeNodeCompletely (s : LFUCacheWithTTL V) (k freq : Nat) : LFUCacheWithTTL V :=
  let s1 : LFUCacheWithTTL V :=
    match List.lookup freq s.freqMap with
    | some b =>
      let b1 := b.erase k
      let sA : LFUCacheWithTTL V := { s with freqMap := objSet s.freqMap freq b1 }
      if b1.isEmpty then
        let sB : LFUCacheWithTTL V := { sA with freqMap := objDelete sA.freqMap freq }
        if freq = s.minFreq then { sB with minFreq := sB.findMinFreq } else sB
      else sA
    | none => s
  let s2 : LFUCacheWithTTL V := { s1 with cache := objDelete s1.cache k }
  if 0 < s2.size then { s2 with size := s2.size - 1 } else s2

/-- `has(key)`: an expired entry is removed completely and reported
absent. -/
def has (s : LFUCacheWithTTL V) (now k : Nat) : Bool × LFUCacheWithTTL V :=
  match List.lookup k s.cache with
  | none => (false, s)
  | some (w, freq) =>
    if w.isExpired now then (false, s.removeNodeCompletely k freq)
    else (true, s)

/-- `#increaseFreq(node)` with the `if (freqList)` guard. -/
def increaseFreq (s : LFUCacheWithTTL V) (k : Nat) : LFUCacheWithTTL V :=
  match List.lookup k s.cache with
  | none => s
  | some (w, oldFreq) =>
    let s3 : LFUCacheWithTTL V :=
      match List.lookup oldFreq s.freqMap with
      | some b =>
        let b1 := b.erase k
        let sA : LFUCacheWithTTL V := { s with freqMap := objSet s.freqMap oldFreq b1 }
        if b1.isEmpty ∧ oldFreq = s.minFreq then { sA with minFreq := sA.minFreq + 1 }
        else sA
      | none => s
    let s4 : LFUCacheWithTTL V := { s3 with cache := objSet s3.cache k (w, oldFreq + 1) }
    s4.addToFreqList (oldFreq + 1) k

/-- `get(key)`: live hit resets the TTL, promotes the frequency, and
returns the stored value. -/
def get (s : LFUCacheWithTTL V) (now k : Nat) : Option V × LFUCacheWithTTL V :=
  let hr := s.has now k
  if hr.1 then
    match List.lookup k hr.2.cache with
    | some (w, freq) =>
      let s1 : LFUCacheWithTTL V :=
        { hr.2 with cache := objSet hr.2.cache k (w.resetTTL now, freq) }
      (some w.value, s1.increaseFreq k)
    | none => (none, hr.2)
  else (none, hr.2)

/-- `#removeMinFreqNode()` with all guards. -/
def removeMinFreqNode (s : LFUCacheWithTTL V) : LFUCacheWithTTL V :=
  match List.lookup s.minFreq s.freqMap with
  | none => s
  | some b =>
    if b.isEmpty then s
    else
      match b.getLast? with
      | none => s
      | some tailKey =>
        let s1 : LFUCacheWithTTL V :=
          { s with freqMap := objSet s.freqMap s.minFreq b.dropLast,
                   cache := objDelete s.cache tailKey }
        let s2 : LFUCacheWithTTL V :=
          if b.dropLast.isEmpty then
            let s3 : LFUCacheWithTTL V :=
              { s1 with freqMap := objDelete s1.freqMap s.minFreq }
            { s3 with minFreq := s3.findMinFreq }
          else s1
        if 0 < s2.size then { s2 with size := s2.size - 1 } else s2

/-- `set(key, value)`: goes through `this.has(key)` (lazy expiry), then
either updates and promotes, or evicts when full and inserts at
frequency 1. -/
def set (s : LFUCacheWithTTL V) (now k : Nat) (v : V) : LFUCacheWithTTL V :=
  let hr := s.has now k
  let s1 := hr.2
  if hr.1 then
    match List.lookup k s1.cache with
    | some (_, freq) =>
      let s2 : LFUCacheWithTTL V :=
        { s1 with cache := objSet s1.cache k (ValueWithTTL.create v s.ttl now, freq) }
      s2.increaseFreq k
    | none => s1
  else
    let s2 : LFUCacheWithTTL V :=
      if s1.size ≥ s1.capacity then s1.removeMinFreqNode else s1
    let s3 : LFUCacheWithTTL V :=
      { s2 with cache := objSet s2.cache k (ValueWithTTL.create v s.ttl now, 1) }
    let s4 := s3.addToFreqList 1 k
    { s4 with minFreq := 1, size := s4.size + 1 }

/-- `delete(key)` (via `this.has(key)`, which already evicts an expired
entry and makes the delete report `false`). -/
def delete (s : LFUCacheWithTTL V) (now k : Nat) : Bool × LFUCacheWithTTL V :=
  let hr := s.has now k
  if hr.1 then
    match List.lookup k hr.2.cache with
    | some (_, freq) => (true, hr.2.removeNodeCompletely k freq)
    | none => (false, hr.2)
  else (false, hr.2)

def clear (s : LFUCacheWithTTL V) : LFUCacheWithTTL V :=
  { s with cache := [], freqMap := [], minFreq := 0, size := 0 }

end LFUCacheWithTTL

section LFUTTLChecks

/-- Sanity: lazy expiry in the frequency cache with TTL. -/
example :
    let s := (LFUCacheWithTTL.empty 2 1000 : LFUCacheWithTTL Nat).set 0 1 11
    (s.has 500 1).1 = true ∧ (s.has 1500 1).1 = false ∧ (s.has 1500 1).2.size = 0 ∧
    List.lookup 1 (s.has 1500 1).2.cache = none := by
  decide

/-- Sanity: TTL reset by get in the frequency cache with TTL. -/
example :
    let s := (LFUCacheWithTTL.empty 2 1000 : LFUCacheWithTTL Nat).set 0 1 11
    let s800 := (s.get 800 1).2
    (s.get 800 1).1 = some 11 ∧ (s800.get 1600 1).1 = some 11 ∧
    (s800.get 1900 1).1 = none := by
  decide

end LFUTTLChecks

/-! ### Invariant of `LFUCache` and characterization of its operations -/

theorem lookup_eq_none_of_not_mem {α : Type} (m : List (Nat × α)) (k : Nat)
    (h : k ∉ m.map Prod.fst) : List.lookup k m = none := by
  rcases hl : List.lookup k m with _ | v
  · rfl
  · exact absurd ((lookup_isSome_iff m k).mp (by simp [hl])) h

theorem mem_keys_of_lookup {α : Type} {m : List (Nat × α)} {k : Nat} {v : α}
    (h : List.lookup k m = some v) : k ∈ m.map Prod.fst :=
  (lookup_isSome_iff m k).mp (by simp [h])

theorem objDelete_objSet_self {α : Type} (m : List (Nat × α)) (k : Nat) (v : α) :
    objDelete (objSet m k v) k = objDelete m k := by
  induction m with
  | nil => simp
  | cons hd tl ih =>
    obtain ⟨k0, v0⟩ := hd
    by_cases h0 : k0 = k
    · simp [h0]
    · simp [h0, ih]

theorem lookup_objDelete_self {α : Type} (m : List (Nat × α)) (k : Nat)
    (h : (m.map Prod.fst).Nodup) : List.lookup k (objDelete m k) = none := by
  rcases hl : List.lookup k (objDelete m k) with _ | v
  · rfl
  · have hmem := mem_keys_of_lookup hl
    rw [objDelete_keys] at hmem
    exact absurd hmem h.not_mem_erase

theorem getLast?_of_ne_nil {l : List Nat} (h : l ≠ []) : ∃ t, l.getLast? = some t := by
  rcases List.eq_nil_or_concat l with rfl | ⟨L, b, rfl⟩
  · exact absurd rfl h
  · exact ⟨b, by rw [List.concat_eq_append, List.getLast?_concat]⟩

theorem concat_of_getLast? {l : List Nat} {t : Nat} (h : l.getLast? = some t) :
    l = l.dropLast ++ [t] := by
  rcases List.eq_nil_or_concat l with rfl | ⟨L, b, rfl⟩
  · simp at h
  · rw [List.concat_eq_append, List.getLast?_concat] at h
    injection h with h
    subst h
    rw [List.concat_eq_append, List.dropLast_concat]

theorem mem_dropLast_of_ne_last {l : List Nat} {t x : Nat} (hnd : l.Nodup)
    (h : l.getLast? = some t) (hx : x ∈ l) (hne : x ≠ t) : x ∈ l.dropLast := by
  have hdec := concat_of_getLast? h
  rw [hdec] at hx
  rcases List.mem_append.mp hx with h2 | h2
  · exact h2
  · rw [List.mem_singleton] at h2
    exact absurd h2 hne

theorem last_not_mem_dropLast {l : List Nat} {t : Nat} (hnd : l.Nodup)
    (h : l.getLast? = some t) : t ∉ l.dropLast := by
  have hdec := concat_of_getLast? h
  rw [hdec, List.nodup_append] at hnd
  intro hmem
  exact hnd.2.2 hmem (by simp)

/-- The internal consistency invariant of `LFUCache`, satisfied by every
state reachable without a thrown exception: the size field counts the map
entries and stays within capacity, keys and bucket frequencies are
duplicate free, every map entry sits in the bucket of its frequency and
vice versa, `minFreq` is a lower bound on the non-empty bucket
frequencies (empty buckets left behind by `#increaseFreq` may sit below
it), and at full capacity the `minFreq` bucket exists and is non-empty, so
eviction cannot throw. -/
structure LFUInv {V : Type} (s : LFUCache V) : Prop where
  size_eq : s.size = (s.cache.length : Int)
  size_le : s.cache.length ≤ s.capacity
  keysNodup : (s.cache.map Prod.fst).Nodup
  freqsNodup : (s.freqMap.map Prod.fst).Nodup
  bucketNodup : ∀ f b, List.lookup f s.freqMap = some b → b.Nodup
  freqPos : ∀ f b, List.lookup f s.freqMap = some b → 1 ≤ f
  cache_bucket : ∀ k v f, List.lookup k s.cache = some (v, f) →
    ∃ b, List.lookup f s.freqMap = some b ∧ k ∈ b
  bucket_cache : ∀ f b, List.lookup f s.freqMap = some b → ∀ k, k ∈ b →
    ∃ v, List.lookup k s.cache = some (v, f)
  minFreq_le : ∀ f b, List.lookup f s.freqMap = some b → b ≠ [] → s.minFreq ≤ f
  full_bucket : s.cache.length = s.capacity → 1 ≤ s.capacity →
    ∃ b, List.lookup s.minFreq s.freqMap = some b ∧ b ≠ []

theorem LFUInv.empty (V : Type) (c : Nat) : LFUInv (LFUCache.empty (V := V) c) := by
  refine ⟨rfl, by simp [LFUCache.empty], by simp [LFUCache.empty],
    by simp [LFUCache.empty], ?_, ?_, ?_, ?_, ?_, ?_⟩ <;>
    simp [LFUCache.empty, List.lookup]
  omega

/-- Two buckets sharing a key have the same frequency. -/
theorem LFUInv.bucket_unique {V : Type} {s : LFUCache V} (hs : LFUInv s)
    {f g : Nat} {b c : List Nat} {k : Nat} (hf : List.lookup f s.freqMap = some b)
    (hg : List.lookup g s.freqMap = some c) (hkb : k ∈ b) (hkc : k ∈ c) : f = g := by
  obtain ⟨v, hv⟩ := hs.bucket_cache f b hf k hkb
  obtain ⟨w, hw⟩ := hs.bucket_cache g c hg k hkc
  rw [hv] at hw
  injection hw with hw
  exact congrArg Prod.snd hw

/-- A key outside the map is in no bucket. -/
theorem LFUInv.fresh_not_in_bucket {V : Type} {s : LFUCache V} (hs : LFUInv s)
    {k : Nat} (hk : List.lookup k s.cache = none) {f : Nat} {b : List Nat}
    (hf : List.lookup f s.freqMap = some b) : k ∉ b := by
  intro hmem
  obtain ⟨v, hv⟩ := hs.bucket_cache f b hf k hmem
  rw [hk] at hv
  exact Option.noConfusion hv

theorem addToFreqList_eq {V : Type} (s : LFUCache V) (f k : Nat) :
    s.addToFreqList f k =
      { s with freqMap :=
          objSet s.freqMap f (k :: ((List.lookup f s.freqMap).getD [])) } := by
  unfold LFUCache.addToFreqList
  rcases h : List.lookup f s.freqMap with _ | b <;> simp [h]

theorem LFUCache.increaseFreq_eq {V : Type} (s : LFUCache V) {k : Nat} {v : V} {f : Nat}
    (hk : List.lookup k s.cache = some (v, f)) {b : List Nat}
    (hb : List.lookup f s.freqMap = some b) :
    s.increaseFreq k = some
      { s with cache := objSet s.cache k (v, f + 1),
               freqMap := objSet (objSet s.freqMap f (b.erase k)) (f + 1)
                 (k :: ((List.lookup (f + 1) (objSet s.freqMap f (b.erase k))).getD [])),
               minFreq := if (b.erase k).isEmpty ∧ f = s.minFreq then s.minFreq + 1
                          else s.minFreq } := by
  unfold LFUCache.increaseFreq
  rw [hk]
  dsimp only
  rw [hb]
  dsimp only
  rw [addToFreqList_eq]
  split_ifs with hc <;> rfl

theorem LFUInv.increaseFreq_inv {V : Type} {s : LFUCache V} (hs : LFUInv s) {k : Nat}
    {v : V} {f : Nat} (hk : List.lookup k s.cache = some (v, f)) :
    ∃ s', s.increaseFreq k = some s' ∧ LFUInv s' ∧
      s'.cache.map Prod.fst = s.cache.map Prod.fst ∧
      s'.size = s.size ∧ s'.capacity = s.capacity ∧
      List.lookup k s'.cache = some (v, f + 1) := by
  obtain ⟨b, hb, hkb⟩ := hs.cache_bucket k v f hk
  have hne : f ≠ f + 1 := by omega
  have hkmem : k ∈ s.cache.map Prod.fst := mem_keys_of_lookup hk
  -- the updated maps
  have hm1f : List.lookup f (objSet s.freqMap f (b.erase k)) = some (b.erase k) :=
    lookup_objSet s.freqMap f (b.erase k)
  have hm1g : ∀ g, g ≠ f →
      List.lookup g (objSet s.freqMap f (b.erase k)) = List.lookup g s.freqMap :=
    fun g hg => lookup_objSet_ne s.freqMap f g (b.erase k) hg
  have hm1keys : (objSet s.freqMap f (b.erase k)).map Prod.fst = s.freqMap.map Prod.fst :=
    objSet_keys_of_mem s.freqMap f (b.erase k) (mem_keys_of_lookup hb)
  set b2 : List Nat :=
    (List.lookup (f + 1) (objSet s.freqMap f (b.erase k))).getD [] with hb2def
  have hb2 : b2 = (List.lookup (f + 1) s.freqMap).getD [] := by
    rw [hb2def, hm1g (f + 1) (Ne.symm hne)]
  have hkb2 : k ∉ b2 := by
    intro hmem
    rw [hb2] at hmem
    rcases hl : List.lookup (f + 1) s.freqMap with _ | bb
    · rw [hl] at hmem
      simp at hmem
    · rw [hl] at hmem
      obtain ⟨v2, hv2⟩ := hs.bucket_cache (f + 1) bb hl k (by simpa using hmem)
      rw [hk] at hv2
      injection hv2 with hv2
      exact hne (congrArg Prod.snd hv2)
  have hb2sub : ∀ x, x ∈ b2 → ∃ v2, List.lookup x s.cache = some (v2, f + 1) := by
    intro x hmem
    rw [hb2] at hmem
    rcases hl : List.lookup (f + 1) s.freqMap with _ | bb
    · rw [hl] at hmem
      simp at hmem
    · rw [hl] at hmem
      exact hs.bucket_cache (f + 1) bb hl x (by simpa using hmem)
  have hb2nodup : b2.Nodup := by
    rw [hb2]
    rcases hl : List.lookup (f + 1) s.freqMap with _ | bb
    · simp
    · simpa using hs.bucketNodup (f + 1) bb hl
  -- the final bucket map
  set m2 : List (Nat × List Nat) :=
    objSet (objSet s.freqMap f (b.erase k)) (f + 1) (k :: b2) with hm2def
  have hm2f1 : List.lookup (f + 1) m2 = some (k :: b2) := lookup_objSet _ _ _
  have hm2f : List.lookup f m2 = some (b.erase k) := by
    rw [hm2def, lookup_objSet_ne _ _ _ _ hne, hm1f]
  have hm2g : ∀ g, g ≠ f → g ≠ f + 1 → List.lookup g m2 = List.lookup g s.freqMap := by
    intro g hgf hgf1
    rw [hm2def, lookup_objSet_ne _ _ _ _ hgf1, hm1g g hgf]
  have hbnodup : b.Nodup := hs.bucketNodup f b hb
  have hbne : b ≠ [] := fun h => by
    rw [h] at hkb
    simp at hkb
  have hfge : s.minFreq ≤ f := hs.minFreq_le f b hb hbne
  have hcachekeys : (objSet s.cache k (v, f + 1)).map Prod.fst = s.cache.map Prod.fst :=
    objSet_keys_of_mem s.cache k (v, f + 1) hkmem
  have hcachelen : (objSet s.cache k (v, f + 1)).length = s.cache.length := by
    have h1 := congrArg List.length hcachekeys
    simpa using h1
  have hcachek : List.lookup k (objSet s.cache k (v, f + 1)) = some (v, f + 1) :=
    lookup_objSet _ _ _
  have hcacheg : ∀ x, x ≠ k →
      List.lookup x (objSet s.cache k (v, f + 1)) = List.lookup x s.cache :=
    fun x hx => lookup_objSet_ne _ _ _ _ hx
  refine ⟨_, s.increaseFreq_eq hk hb, ?_, hcachekeys, rfl, rfl, hcachek⟩
  refine ⟨?_, ?_, ?_, ?_, ?_, ?_, ?_, ?_, ?_, ?_⟩
  · -- size_eq
    show s.size = ((objSet s.cache k (v, f + 1)).length : Int)
    rw [hcachelen]
    exact hs.size_eq
  · -- size_le
    show (objSet s.cache k (v, f + 1)).length ≤ s.capacity
    rw [hcachelen]
    exact hs.size_le
  · -- keysNodup
    show ((objSet s.cache k (v, f + 1)).map Prod.fst).Nodup
    rw [hcachekeys]
    exact hs.keysNodup
  · -- freqsNodup
    show (m2.map Prod.fst).Nodup
    rw [hm2def]
    by_cases hf1 : (f + 1) ∈ (objSet s.freqMap f (b.erase k)).map Prod.fst
    · rw [objSet_keys_of_mem _ _ _ hf1, hm1keys]
      exact hs.freqsNodup
    · rw [objSet_keys_of_not_mem _ _ _ hf1, hm1keys, List.nodup_append]
      refine ⟨hs.freqsNodup, List.nodup_singleton _, ?_⟩
      intro a ha hb'
      rw [List.mem_singleton] at hb'
      subst hb'
      rw [hm1keys] at hf1
      exact hf1 ha
  · -- bucketNodup
    intro g c hg
    by_cases hgf1 : g = f + 1
    · subst hgf1
      rw [hm2f1] at hg
      injection hg with hg
      subst hg
      exact List.nodup_cons.mpr ⟨hkb2, hb2nodup⟩
    · by_cases hgf : g = f
      · subst hgf
        rw [hm2f] at hg
        injection hg with hg
        subst hg
        exact hbnodup.erase k
      · rw [hm2g g hgf hgf1] at hg
        exact hs.bucketNodup g c hg
  · -- freqPos
    intro g c hg
    by_cases hgf1 : g = f + 1
    · omega
    · by_cases hgf : g = f
      · rw [hgf]
        exact hs.freqPos f b hb
      · rw [hm2g g hgf hgf1] at hg
        exact hs.freqPos g c hg
  · -- cache_bucket
    intro x vx fx hx
    by_cases hxk : x = k
    · rw [hxk, hcachek] at hx
      have hfx : fx = f + 1 := (congrArg Prod.snd (Option.some.inj hx)).symm
      subst hfx
      refine ⟨k :: b2, hm2f1, ?_⟩
      rw [hxk]
      simp
    · rw [hcacheg x hxk] at hx
      obtain ⟨c, hc, hxc⟩ := hs.cache_bucket x vx fx hx
      by_cases hfxf : fx = f
      · rw [hfxf] at hc ⊢
        rw [hb] at hc
        injection hc with hc
        subst hc
        exact ⟨b.erase k, hm2f, (List.mem_erase_of_ne hxk).mpr hxc⟩
      · by_cases hfxf1 : fx = f + 1
        · subst hfxf1
          refine ⟨k :: b2, hm2f1, ?_⟩
          rw [hb2]
          rcases hl : List.lookup (f + 1) s.freqMap with _ | bb
          · rw [hl] at hc
            exact Option.noConfusion hc
          · rw [hl] at hc
            injection hc with hc
            subst hc
            simp [hxc]
        · exact ⟨c, by rw [hm2g fx hfxf hfxf1]; exact hc, hxc⟩
  · -- bucket_cache
    intro g c hg x hxc
    by_cases hgf1 : g = f + 1
    · subst hgf1
      rw [hm2f1] at hg
      injection hg with hg
      subst hg
      rcases List.mem_cons.mp hxc with hxk | hmem
      · exact ⟨v, by rw [hxk]; exact hcachek⟩
      · obtain ⟨v2, hv2⟩ := hb2sub x hmem
        have hxk : x ≠ k := fun hh => hkb2 (hh ▸ hmem)
        exact ⟨v2, by rw [hcacheg x hxk]; exact hv2⟩
    · by_cases hgf : g = f
      · rw [hgf, hm2f] at hg
        injection hg with hg
        subst hg
        have hmem : x ∈ b := List.mem_of_mem_erase hxc
        have hxk : x ≠ k := fun hh => hbnodup.not_mem_erase (hh ▸ hxc)
        obtain ⟨v2, hv2⟩ := hs.bucket_cache f b hb x hmem
        refine ⟨v2, ?_⟩
        rw [hcacheg x hxk, hgf]
        exact hv2
      · rw [hm2g g hgf hgf1] at hg
        have hxk : x ≠ k := by
          intro hh
          obtain ⟨v2, hv2⟩ := hs.bucket_cache g c hg x hxc
          rw [hh, hk] at hv2
          injection hv2 with hv2
          exact hgf (congrArg Prod.snd hv2).symm
        obtain ⟨v2, hv2⟩ := hs.bucket_cache g c hg x hxc
        exact ⟨v2, by rw [hcacheg x hxk]; exact hv2⟩
  · -- minFreq_le
    intro g c hg hcne
    show (if (b.erase k).isEmpty ∧ f = s.minFreq then s.minFreq + 1 else s.minFreq) ≤ g
    split_ifs with hcond
    · obtain ⟨hemp, hfmf⟩ := hcond
      rw [List.isEmpty_iff] at hemp
      by_cases hgf1 : g = f + 1
      · omega
      · by_cases hgf : g = f
        · rw [hgf, hm2f] at hg
          injection hg with hg
          rw [← hg, hemp] at hcne
          exact absurd rfl hcne
        · rw [hm2g g hgf hgf1] at hg
          have h1 := hs.minFreq_le g c hg hcne
          have h2 : g ≠ s.minFreq := by
            rw [← hfmf]
            exact hgf
          omega
    · by_cases hgf1 : g = f + 1
      · omega
      · by_cases hgf : g = f
        · rw [hgf]
          exact hfge
        · rw [hm2g g hgf hgf1] at hg
          exact hs.minFreq_le g c hg hcne
  · -- full_bucket
    intro hlen hcap
    rw [hcachelen] at hlen
    show ∃ c, List.lookup
      (if (b.erase k).isEmpty ∧ f = s.minFreq then s.minFreq + 1 else s.minFreq) m2 =
      some c ∧ c ≠ []
    split_ifs with hcond
    · obtain ⟨hemp, hfmf⟩ := hcond
      rw [← hfmf]
      exact ⟨k :: b2, hm2f1, by simp⟩
    · obtain ⟨bm, hbm, hbmne⟩ := hs.full_bucket hlen hcap
      by_cases hmff : s.minFreq = f
      · refine ⟨b.erase k, ?_, ?_⟩
        · rw [hmff]
          exact hm2f
        · intro hh
          rw [← List.isEmpty_iff] at hh
          exact hcond ⟨hh, hmff.symm⟩
      · have hmff1 : s.minFreq ≠ f + 1 := by omega
        exact ⟨bm, by rw [hm2g s.minFreq hmff hmff1]; exact hbm, hbmne⟩

theorem LFUInv.value_update {V : Type} {s : LFUCache V} (hs : LFUInv s) {k : Nat}
    {v0 : V} {f : Nat} (hk : List.lookup k s.cache = some (v0, f)) (v : V) :
    LFUInv { s with cache := objSet s.cache k (v, f) } := by
  have hkmem : k ∈ s.cache.map Prod.fst := mem_keys_of_lookup hk
  have hkeys : (objSet s.cache k (v, f)).map Prod.fst = s.cache.map Prod.fst :=
    objSet_keys_of_mem s.cache k (v, f) hkmem
  have hlen : (objSet s.cache k (v, f)).length = s.cache.length := by
    have := congrArg List.length hkeys
    simpa using this
  have hlookk : List.lookup k (objSet s.cache k (v, f)) = some (v, f) :=
    lookup_objSet _ _ _
  have hlookg : ∀ x, x ≠ k →
      List.lookup x (objSet s.cache k (v, f)) = List.lookup x s.cache :=
    fun x hx => lookup_objSet_ne _ _ _ _ hx
  refine ⟨?_, ?_, ?_, hs.freqsNodup, hs.bucketNodup, hs.freqPos, ?_, ?_,
    hs.minFreq_le, ?_⟩
  · show s.size = ((objSet s.cache k (v, f)).length : Int)
    rw [hlen]
    exact hs.size_eq
  · show (objSet s.cache k (v, f)).length ≤ s.capacity
    rw [hlen]
    exact hs.size_le
  · show ((objSet s.cache k (v, f)).map Prod.fst).Nodup
    rw [hkeys]
    exact hs.keysNodup
  · intro x vx fx hx
    by_cases hxk : x = k
    · rw [hxk, hlookk] at hx
      have hfx : fx = f := (congrArg Prod.snd (Option.some.inj hx)).symm
      obtain ⟨c, hc, hmem⟩ := hs.cache_bucket k v0 f hk
      refine ⟨c, by rw [hfx]; exact hc, by rw [hxk]; exact hmem⟩
    · rw [hlookg x hxk] at hx
      exact hs.cache_bucket x vx fx hx
  · intro g c hg x hxc
    obtain ⟨v2, hv2⟩ := hs.bucket_cache g c hg x hxc
    by_cases hxk : x = k
    · have hgf : g = f := by
        rw [hxk, hk] at hv2
        exact (congrArg Prod.snd (Option.some.inj hv2)).symm
    -- the bucket of x is the bucket of f, and the updated entry has freq f
      refine ⟨v, ?_⟩
      rw [hxk, hlookk, hgf]
    · exact ⟨v2, by rw [hlookg x hxk]; exact hv2⟩
  · intro h1 h2
    rw [hlen] at h1
    exact hs.full_bucket h1 h2

theorem LFUCache.removeMinFreqNode_eq {V : Type} (s : LFUCache V) {b : List Nat}
    {t : Nat} (hb : List.lookup s.minFreq s.freqMap = some b)
    (ht : b.getLast? = some t) :
    s.removeMinFreqNode = some (
      if b.dropLast.isEmpty then
        { s with cache := objDelete s.cache t,
                 freqMap :=
                   objDelete (objSet s.freqMap s.minFreq b.dropLast) s.minFreq,
                 minFreq := (minList
                   ((objDelete (objSet s.freqMap s.minFreq b.dropLast)
                     s.minFreq).map Prod.fst)).getD 0,
                 size := s.size - 1 }
      else
        { s with cache := objDelete s.cache t,
                 freqMap := objSet s.freqMap s.minFreq b.dropLast,
                 size := s.size - 1 }) := by
  unfold LFUCache.removeMinFreqNode
  rw [hb]
  dsimp only
  rw [ht]
  dsimp only
  unfold LFUCache.findMinFreq
  split_ifs with hc <;> rfl

theorem LFUInv.removeMinFreqNode_some {V : Type} {s : LFUCache V} (hs : LFUInv s)
    {b : List Nat} {t : Nat} (hb : List.lookup s.minFreq s.freqMap = some b)
    (ht : b.getLast? = some t) :
    ∃ s2, s.removeMinFreqNode = some s2 ∧ LFUInv s2 ∧
      s2.cache = objDelete s.cache t ∧
      s2.cache.map Prod.fst = (s.cache.map Prod.fst).erase t ∧
      t ∈ s.cache.map Prod.fst ∧
      s2.capacity = s.capacity ∧ s2.size = s.size - 1 ∧
      (s2.freqMap.map Prod.fst = s.freqMap.map Prod.fst ∨
        s2.freqMap.map Prod.fst = (s.freqMap.map Prod.fst).erase s.minFreq) := by
  have hbnodup : b.Nodup := hs.bucketNodup s.minFreq b hb
  have hdecomp := concat_of_getLast? ht
  have htb : t ∈ b := by
    rw [hdecomp]
    simp
  have htdrop : t ∉ b.dropLast := last_not_mem_dropLast hbnodup ht
  obtain ⟨vt, hvt⟩ := hs.bucket_cache s.minFreq b hb t htb
  have htkeys : t ∈ s.cache.map Prod.fst := mem_keys_of_lookup hvt
  have hlen1 : 1 ≤ s.cache.length := by
    have := List.length_pos_of_mem htkeys
    simpa using this
  have hckeys : (objDelete s.cache t).map Prod.fst = (s.cache.map Prod.fst).erase t :=
    objDelete_keys s.cache t
  have hclen : (objDelete s.cache t).length = s.cache.length - 1 := by
    have h1 := congrArg List.length hckeys
    rw [List.length_erase_of_mem htkeys] at h1
    simpa using h1
  have hcnodup : ((objDelete s.cache t).map Prod.fst).Nodup := by
    rw [hckeys]
    exact hs.keysNodup.erase t
  have hclookt : List.lookup t (objDelete s.cache t) = none :=
    lookup_objDelete_self s.cache t hs.keysNodup
  have hclookx : ∀ x, x ≠ t →
      List.lookup x (objDelete s.cache t) = List.lookup x s.cache :=
    fun x hx => lookup_objDelete_ne s.cache t x hx
  have ht_only : ∀ g c, List.lookup g s.freqMap = some c → t ∈ c → g = s.minFreq := by
    intro g c hg htc
    exact hs.bucket_unique hg hb htc htb
  rw [s.removeMinFreqNode_eq hb ht]
  by_cases hemp : b.dropLast.isEmpty
  · -- the minimum bucket had a single node: drop the bucket, recompute minFreq
    rw [if_pos hemp]
    rw [List.isEmpty_iff] at hemp
    have hbt : b = [t] := by
      rw [hdecomp, hemp]
      rfl
    have hfm : objDelete (objSet s.freqMap s.minFreq b.dropLast) s.minFreq =
        objDelete s.freqMap s.minFreq := objDelete_objSet_self _ _ _
    have hfmkeys : (objDelete s.freqMap s.minFreq).map Prod.fst =
        (s.freqMap.map Prod.fst).erase s.minFreq := objDelete_keys _ _
    have hfmlookmf : List.lookup s.minFreq (objDelete s.freqMap s.minFreq) = none :=
      lookup_objDelete_self _ _ hs.freqsNodup
    have hfmlookg : ∀ g, g ≠ s.minFreq →
        List.lookup g (objDelete s.freqMap s.minFreq) = List.lookup g s.freqMap :=
      fun g hg => lookup_objDelete_ne _ _ _ hg
    refine ⟨_, rfl, ?_, by rw [hfm], by rw [hfm]; exact hckeys, htkeys, rfl,
      rfl, Or.inr (by rw [hfm]; exact hfmkeys)⟩
    · refine ⟨?_, ?_, ?_, ?_, ?_, ?_, ?_, ?_, ?_, ?_⟩
      · show s.size - 1 = ((objDelete s.cache t).length : Int)
        rw [hclen, hs.size_eq]
        push_cast
        omega
      · show (objDelete s.cache t).length ≤ s.capacity
        rw [hclen]
        have := hs.size_le
        omega
      · exact hcnodup
      · show ((objDelete (objSet s.freqMap s.minFreq b.dropLast)
          s.minFreq).map Prod.fst).Nodup
        rw [hfm, hfmkeys]
        exact hs.freqsNodup.erase _
      · intro g c hg
        rw [hfm] at hg
        by_cases hgmf : g = s.minFreq
        · rw [hgmf, hfmlookmf] at hg
          exact Option.noConfusion hg
        · rw [hfmlookg g hgmf] at hg
          exact hs.bucketNodup g c hg
      · intro g c hg
        rw [hfm] at hg
        by_cases hgmf : g = s.minFreq
        · rw [hgmf, hfmlookmf] at hg
          exact Option.noConfusion hg
        · rw [hfmlookg g hgmf] at hg
          exact hs.freqPos g c hg
      · intro x vx fx hx
        show ∃ c, List.lookup fx (objDelete (objSet s.freqMap s.minFreq b.dropLast)
          s.minFreq) = some c ∧ x ∈ c
        rw [hfm]
        have hxt : x ≠ t := by
          intro hh
          rw [hh, hclookt] at hx
          exact Option.noConfusion hx
        rw [hclookx x hxt] at hx
        obtain ⟨c, hc, hxc⟩ := hs.cache_bucket x vx fx hx
        have hfxmf : fx ≠ s.minFreq := by
          intro hh
          rw [hh, hb] at hc
          injection hc with hc
          rw [← hc, hbt] at hxc
          rw [List.mem_singleton] at hxc
          exact hxt hxc
        exact ⟨c, by rw [hfmlookg fx hfxmf]; exact hc, hxc⟩
      · intro g c hg x hxc
        rw [hfm] at hg
        by_cases hgmf : g = s.minFreq
        · rw [hgmf, hfmlookmf] at hg
          exact Option.noConfusion hg
        · rw [hfmlookg g hgmf] at hg
          obtain ⟨v2, hv2⟩ := hs.bucket_cache g c hg x hxc
          have hxt : x ≠ t := fun hh => hgmf (ht_only g c hg (hh ▸ hxc))
          exact ⟨v2, by rw [hclookx x hxt]; exact hv2⟩
      · intro g c hg hcne
        rw [hfm] at hg
        have hgkeys : g ∈ (objDelete s.freqMap s.minFreq).map Prod.fst :=
          mem_keys_of_lookup hg
        rw [hfmkeys] at hgkeys
        obtain ⟨m, hm, hle⟩ := minList_le_of_mem hgkeys
        show (minList ((objDelete (objSet s.freqMap s.minFreq b.dropLast)
          s.minFreq).map Prod.fst)).getD 0 ≤ g
        rw [hfm, hfmkeys, hm]
        exact hle
      · intro h1 h2
        exfalso
        rw [hclen] at h1
        have h1a : s.cache.length - 1 = s.capacity := h1
        have h2a : 1 ≤ s.capacity := h2
        clear h1 h2
        have := hs.size_le
        omega
  · -- the minimum bucket keeps other nodes
    rw [if_neg hemp]
    rw [List.isEmpty_iff] at hemp
    have hfmlookmf : List.lookup s.minFreq (objSet s.freqMap s.minFreq b.dropLast) =
        some b.dropLast := lookup_objSet _ _ _
    have hfmlookg : ∀ g, g ≠ s.minFreq →
        List.lookup g (objSet s.freqMap s.minFreq b.dropLast) = List.lookup g s.freqMap :=
      fun g hg => lookup_objSet_ne _ _ _ _ hg
    have hfmkeys : (objSet s.freqMap s.minFreq b.dropLast).map Prod.fst =
        s.freqMap.map Prod.fst :=
      objSet_keys_of_mem _ _ _ (mem_keys_of_lookup hb)
    refine ⟨_, rfl, ?_, rfl, hckeys, htkeys, rfl, rfl, Or.inl hfmkeys⟩
    · refine ⟨?_, ?_, ?_, ?_, ?_, ?_, ?_, ?_, ?_, ?_⟩
      · show s.size - 1 = ((objDelete s.cache t).length : Int)
        rw [hclen, hs.size_eq]
        push_cast
        omega
      · show (objDelete s.cache t).length ≤ s.capacity
        rw [hclen]
        have := hs.size_le
        omega
      · exact hcnodup
      · show ((objSet s.freqMap s.minFreq b.dropLast).map Prod.fst).Nodup
        rw [hfmkeys]
        exact hs.freqsNodup
      · intro g c hg
        by_cases hgmf : g = s.minFreq
        · rw [hgmf, hfmlookmf] at hg
          injection hg with hg
          rw [← hg]
          exact hbnodup.sublist (List.dropLast_sublist b)
        · rw [hfmlookg g hgmf] at hg
          exact hs.bucketNodup g c hg
      · intro g c hg
        by_cases hgmf : g = s.minFreq
        · rw [hgmf]
          exact hs.freqPos s.minFreq b hb
        · rw [hfmlookg g hgmf] at hg
          exact hs.freqPos g c hg
      · intro x vx fx hx
        have hxt : x ≠ t := by
          intro hh
          rw [hh, hclookt] at hx
          exact Option.noConfusion hx
        rw [hclookx x hxt] at hx
        obtain ⟨c, hc, hxc⟩ := hs.cache_bucket x vx fx hx
        by_cases hfxmf : fx = s.minFreq
        · rw [hfxmf, hb] at hc
          injection hc with hc
          rw [← hc] at hxc
          refine ⟨b.dropLast, by rw [hfxmf]; exact hfmlookmf, ?_⟩
          exact mem_dropLast_of_ne_last hbnodup ht hxc hxt
        · exact ⟨c, by rw [hfmlookg fx hfxmf]; exact hc, hxc⟩
      · intro g c hg x hxc
        by_cases hgmf : g = s.minFreq
        · rw [hgmf, hfmlookmf] at hg
          injection hg with hg
          rw [← hg] at hxc
          have hxb : x ∈ b := (List.dropLast_sublist b).mem hxc
          have hxt : x ≠ t := fun hh => htdrop (hh ▸ hxc)
          obtain ⟨v2, hv2⟩ := hs.bucket_cache s.minFreq b hb x hxb
          refine ⟨v2, ?_⟩
          rw [hclookx x hxt, hgmf]
          exact hv2
        · rw [hfmlookg g hgmf] at hg
          obtain ⟨v2, hv2⟩ := hs.bucket_cache g c hg x hxc
          have hxt : x ≠ t := fun hh => hgmf (ht_only g c hg (hh ▸ hxc))
          exact ⟨v2, by rw [hclookx x hxt]; exact hv2⟩
      · intro g c hg hcne
        by_cases hgmf : g = s.minFreq
        · rw [hgmf]
        · rw [hfmlookg g hgmf] at hg
          exact hs.minFreq_le g c hg hcne
      · intro h1 h2
        exfalso
        rw [hclen] at h1
        have h1a : s.cache.length - 1 = s.capacity := h1
        have h2a : 1 ≤ s.capacity := h2
        clear h1 h2
        have := hs.size_le
        omega

theorem LFUInv.insert_fresh_inv {V : Type} {s : LFUCache V} (hs : LFUInv s) {k : Nat}
    (hk : List.lookup k s.cache = none) (v : V) (hroom : s.cache.length < s.capacity) :
    LFUInv { s with cache := objSet s.cache k (v, 1),
                    freqMap :=
                      objSet s.freqMap 1 (k :: ((List.lookup 1 s.freqMap).getD [])),
                    minFreq := 1, size := s.size + 1 } := by
  have hkfresh : k ∉ s.cache.map Prod.fst := by
    intro hmem
    rw [← lookup_isSome_iff, hk] at hmem
    simp at hmem
  have hckeys : (objSet s.cache k (v, 1)).map Prod.fst = s.cache.map Prod.fst ++ [k] :=
    objSet_keys_of_not_mem s.cache k (v, 1) hkfresh
  have hclen : (objSet s.cache k (v, 1)).length = s.cache.length + 1 := by
    have h1 := congrArg List.length hckeys
    simpa using h1
  have hclookk : List.lookup k (objSet s.cache k (v, 1)) = some (v, 1) :=
    lookup_objSet _ _ _
  have hclookx : ∀ x, x ≠ k →
      List.lookup x (objSet s.cache k (v, 1)) = List.lookup x s.cache :=
    fun x hx => lookup_objSet_ne _ _ _ _ hx
  set b1 : List Nat := (List.lookup 1 s.freqMap).getD [] with hb1def
  have hb1sub : ∀ x, x ∈ b1 → ∃ v2, List.lookup x s.cache = some (v2, 1) := by
    intro x hmem
    rw [hb1def] at hmem
    rcases hl : List.lookup 1 s.freqMap with _ | bb
    · rw [hl] at hmem
      simp at hmem
    · rw [hl] at hmem
      exact hs.bucket_cache 1 bb hl x (by simpa using hmem)
  have hkb1 : k ∉ b1 := by
    intro hmem
    obtain ⟨v2, hv2⟩ := hb1sub k hmem
    rw [hk] at hv2
    exact Option.noConfusion hv2
  have hb1nodup : b1.Nodup := by
    rw [hb1def]
    rcases hl : List.lookup 1 s.freqMap with _ | bb
    · simp
    · simpa using hs.bucketNodup 1 bb hl
  have hm1look1 : List.lookup 1 (objSet s.freqMap 1 (k :: b1)) = some (k :: b1) :=
    lookup_objSet _ _ _
  have hm1lookg : ∀ g, g ≠ 1 →
      List.lookup g (objSet s.freqMap 1 (k :: b1)) = List.lookup g s.freqMap :=
    fun g hg => lookup_objSet_ne _ _ _ _ hg
  refine ⟨?_, ?_, ?_, ?_, ?_, ?_, ?_, ?_, ?_, ?_⟩
  · show s.size + 1 = ((objSet s.cache k (v, 1)).length : Int)
    rw [hclen, hs.size_eq]
    push_cast
    omega
  · show (objSet s.cache k (v, 1)).length ≤ s.capacity
    rw [hclen]
    omega
  · show ((objSet s.cache k (v, 1)).map Prod.fst).Nodup
    rw [hckeys, List.nodup_append]
    refine ⟨hs.keysNodup, List.nodup_singleton k, ?_⟩
    intro a ha hb
    rw [List.mem_singleton] at hb
    subst hb
    exact hkfresh ha
  · show ((objSet s.freqMap 1 (k :: b1)).map Prod.fst).Nodup
    by_cases h1 : (1 : Nat) ∈ s.freqMap.map Prod.fst
    · rw [objSet_keys_of_mem _ _ _ h1]
      exact hs.freqsNodup
    · rw [objSet_keys_of_not_mem _ _ _ h1, List.nodup_append]
      refine ⟨hs.freqsNodup, List.nodup_singleton 1, ?_⟩
      intro a ha hb
      rw [List.mem_singleton] at hb
      subst hb
      exact h1 ha
  · intro g c hg
    by_cases hg1 : g = 1
    · rw [hg1, hm1look1] at hg
      injection hg with hg
      rw [← hg]
      exact List.nodup_cons.mpr ⟨hkb1, hb1nodup⟩
    · rw [hm1lookg g hg1] at hg
      exact hs.bucketNodup g c hg
  · intro g c hg
    by_cases hg1 : g = 1
    · omega
    · rw [hm1lookg g hg1] at hg
      exact hs.freqPos g c hg
  · intro x vx fx hx
    by_cases hxk : x = k
    · rw [hxk, hclookk] at hx
      have hfx : fx = 1 := (congrArg Prod.snd (Option.some.inj hx)).symm
      rw [hfx]
      refine ⟨k :: b1, hm1look1, ?_⟩
      rw [hxk]
      simp
    · rw [hclookx x hxk] at hx
      obtain ⟨c, hc, hxc⟩ := hs.cache_bucket x vx fx hx
      by_cases hfx1 : fx = 1
      · refine ⟨k :: b1, by rw [hfx1]; exact hm1look1, ?_⟩
        rw [hb1def]
        rw [hfx1] at hc
        rw [hc]
        simp [hxc]
      · exact ⟨c, by rw [hm1lookg fx hfx1]; exact hc, hxc⟩
  · intro g c hg x hxc
    by_cases hg1 : g = 1
    · rw [hg1, hm1look1] at hg
      injection hg with hg
      rw [← hg] at hxc
      rcases List.mem_cons.mp hxc with hxk | hmem
      · refine ⟨v, ?_⟩
        rw [hxk, hg1]
        exact hclookk
      · obtain ⟨v2, hv2⟩ := hb1sub x hmem
        have hxk : x ≠ k := fun hh => hkb1 (hh ▸ hmem)
        refine ⟨v2, ?_⟩
        rw [hclookx x hxk, hg1]
        exact hv2
    · rw [hm1lookg g hg1] at hg
      obtain ⟨v2, hv2⟩ := hs.bucket_cache g c hg x hxc
      have hxk : x ≠ k := by
        intro hh
        rw [hh, hk] at hv2
        exact Option.noConfusion hv2
      exact ⟨v2, by rw [hclookx x hxk]; exact hv2⟩
  · intro g c hg hcne
    show 1 ≤ g
    by_cases hg1 : g = 1
    · omega
    · rw [hm1lookg g hg1] at hg
      exact hs.freqPos g c hg
  · intro h1 h2
    exact ⟨k :: b1, hm1look1, by simp⟩

theorem LFUCache.set_fresh_eq {V : Type} (s : LFUCache V) {k : Nat} (v : V)
    (hk : List.lookup k s.cache = none)
    (hsize : ¬ ((s.capacity : Int) ≤ s.size)) :
    s.set k v = some
      { s with cache := objSet s.cache k (v, 1),
               freqMap := objSet s.freqMap 1 (k :: ((List.lookup 1 s.freqMap).getD [])),
               minFreq := 1, size := s.size + 1 } := by
  unfold LFUCache.set
  rw [hk]
  dsimp only
  rw [if_neg (by exact fun h => hsize h), Option.map_some', addToFreqList_eq]

theorem LFUCache.set_fresh_evict_eq {V : Type} (s : LFUCache V) {k : Nat} (v : V)
    (hk : List.lookup k s.cache = none)
    (hsize : (s.capacity : Int) ≤ s.size) {s2 : LFUCache V}
    (hev : s.removeMinFreqNode = some s2) :
    s.set k v = some
      { s2 with cache := objSet s2.cache k (v, 1),
                freqMap :=
                  objSet s2.freqMap 1 (k :: ((List.lookup 1 s2.freqMap).getD [])),
                minFreq := 1, size := s2.size + 1 } := by
  unfold LFUCache.set
  rw [hk]
  dsimp only
  rw [if_pos (by exact hsize), hev, Option.map_some', addToFreqList_eq]

theorem LFUCache.delete_eq {V : Type} (s : LFUCache V) {k : Nat} {v : V} {f : Nat}
    (hk : List.lookup k s.cache = some (v, f)) {b : List Nat}
    (hb : List.lookup f s.freqMap = some b) :
    s.delete k = some (true,
      if (b.erase k).isEmpty then
        if f = s.minFreq then
          { s with cache := objDelete s.cache k,
                   freqMap := objDelete (objSet s.freqMap f (b.erase k)) f,
                   minFreq := (minList ((objDelete (objSet s.freqMap f (b.erase k))
                     f).map Prod.fst)).getD 0,
                   size := s.size - 1 }
        else
          { s with cache := objDelete s.cache k,
                   freqMap := objDelete (objSet s.freqMap f (b.erase k)) f,
                   size := s.size - 1 }
      else
        { s with cache := objDelete s.cache k,
                 freqMap := objSet s.freqMap f (b.erase k),
                 size := s.size - 1 }) := by
  unfold LFUCache.delete
  rw [hk]
  dsimp only
  rw [hb]
  dsimp only
  unfold LFUCache.findMinFreq
  split_ifs with h1 h2 <;> rfl

theorem LFUInv.delete_some {V : Type} {s : LFUCache V} (hs : LFUInv s) {k : Nat}
    {v : V} {f : Nat} (hk : List.lookup k s.cache = some (v, f)) :
    ∃ b s', List.lookup f s.freqMap = some b ∧ k ∈ b ∧
      s.delete k = some (true, s') ∧ LFUInv s' ∧
      s'.cache.map Prod.fst = (s.cache.map Prod.fst).erase k ∧
      s'.capacity = s.capacity ∧ s'.size = s.size - 1 ∧
      (b.erase k = [] ∧ f = s.minFreq →
        s'.minFreq = (minList ((s.freqMap.map Prod.fst).erase f)).getD 0) ∧
      (¬ (b.erase k = [] ∧ f = s.minFreq) → s'.minFreq = s.minFreq) := by
  obtain ⟨b, hb, hkb⟩ := hs.cache_bucket k v f hk
  have hbnodup : b.Nodup := hs.bucketNodup f b hb
  have hkkeys : k ∈ s.cache.map Prod.fst := mem_keys_of_lookup hk
  have hckeys : (objDelete s.cache k).map Prod.fst = (s.cache.map Prod.fst).erase k :=
    objDelete_keys s.cache k
  have hclen : (objDelete s.cache k).length = s.cache.length - 1 := by
    have h1 := congrArg List.length hckeys
    rw [List.length_erase_of_mem hkkeys] at h1
    simpa using h1
  have hlen1 : 1 ≤ s.cache.length := by
    have := List.length_pos_of_mem hkkeys
    simpa using this
  have hcnodup : ((objDelete s.cache k).map Prod.fst).Nodup := by
    rw [hckeys]
    exact hs.keysNodup.erase k
  have hclookk : List.lookup k (objDelete s.cache k) = none :=
    lookup_objDelete_self s.cache k hs.keysNodup
  have hclookx : ∀ x, x ≠ k →
      List.lookup x (objDelete s.cache k) = List.lookup x s.cache :=
    fun x hx => lookup_objDelete_ne s.cache k x hx
  have hk_only : ∀ g c, List.lookup g s.freqMap = some c → k ∈ c → g = f := by
    intro g c hg hkc
    exact hs.bucket_unique hg hb hkc hkb
  have hfull_vac : ∀ (ss : LFUCache V), ss.cache = objDelete s.cache k →
      ss.capacity = s.capacity →
      (ss.cache.length = ss.capacity → 1 ≤ ss.capacity →
        ∃ c, List.lookup ss.minFreq ss.freqMap = some c ∧ c ≠ []) := by
    intro ss hc hcap h1 h2
    exfalso
    rw [hc, hclen, hcap] at h1
    have h2a : 1 ≤ s.capacity := by rw [← hcap]; exact h2
    have := hs.size_le
    omega
  have hsize' : s.size - 1 = ((objDelete s.cache k).length : Int) := by
    rw [hclen, hs.size_eq]
    push_cast
    omega
  have hsizele : (objDelete s.cache k).length ≤ s.capacity := by
    rw [hclen]
    have := hs.size_le
    omega
  rw [s.delete_eq hk hb]
  by_cases hemp : (b.erase k).isEmpty
  · rw [if_pos hemp]
    rw [List.isEmpty_iff] at hemp
    have hbk : ∀ x, x ∈ b → x = k := by
      intro x hx
      by_contra hne
      have : x ∈ b.erase k := (List.mem_erase_of_ne hne).mpr hx
      rw [hemp] at this
      simp at this
    have hfm : objDelete (objSet s.freqMap f (b.erase k)) f = objDelete s.freqMap f :=
      objDelete_objSet_self _ _ _
    have hfmkeys : (objDelete s.freqMap f).map Prod.fst =
        (s.freqMap.map Prod.fst).erase f := objDelete_keys _ _
    have hfmlookf : List.lookup f (objDelete s.freqMap f) = none :=
      lookup_objDelete_self _ _ hs.freqsNodup
    have hfmlookg : ∀ g, g ≠ f →
        List.lookup g (objDelete s.freqMap f) = List.lookup g s.freqMap :=
      fun g hg => lookup_objDelete_ne _ _ _ hg
    have hInvCommon : ∀ (mf2 : Nat),
        (∀ g c, List.lookup g (objDelete s.freqMap f) = some c → c ≠ [] → mf2 ≤ g) →
        LFUInv { s with cache := objDelete s.cache k,
                        freqMap := objDelete (objSet s.freqMap f (b.erase k)) f,
                        minFreq := mf2, size := s.size - 1 } := by
      intro mf2 hmf2
      refine ⟨hsize', hsizele, hcnodup, ?_, ?_, ?_, ?_, ?_, ?_, ?_⟩
      · show ((objDelete (objSet s.freqMap f (b.erase k)) f).map Prod.fst).Nodup
        rw [hfm, hfmkeys]
        exact hs.freqsNodup.erase f
      · intro g c hg
        rw [hfm] at hg
        by_cases hgf : g = f
        · rw [hgf, hfmlookf] at hg
          exact Option.noConfusion hg
        · rw [hfmlookg g hgf] at hg
          exact hs.bucketNodup g c hg
      · intro g c hg
        rw [hfm] at hg
        by_cases hgf : g = f
        · rw [hgf, hfmlookf] at hg
          exact Option.noConfusion hg
        · rw [hfmlookg g hgf] at hg
          exact hs.freqPos g c hg
      · intro x vx fx hx
        show ∃ c, List.lookup fx (objDelete (objSet s.freqMap f (b.erase k)) f) =
          some c ∧ x ∈ c
        rw [hfm]
        have hxk : x ≠ k := by
          intro hh
          rw [hh, hclookk] at hx
          exact Option.noConfusion hx
        rw [hclookx x hxk] at hx
        obtain ⟨c, hc, hxc⟩ := hs.cache_bucket x vx fx hx
        have hfxf : fx ≠ f := by
          intro hh
          rw [hh, hb] at hc
          injection hc with hc
          exact hxk (hbk x (hc ▸ hxc))
        exact ⟨c, by rw [hfmlookg fx hfxf]; exact hc, hxc⟩
      · intro g c hg x hxc
        rw [hfm] at hg
        by_cases hgf : g = f
        · rw [hgf, hfmlookf] at hg
          exact Option.noConfusion hg
        · rw [hfmlookg g hgf] at hg
          obtain ⟨v2, hv2⟩ := hs.bucket_cache g c hg x hxc
          have hxk : x ≠ k := fun hh => hgf (hk_only g c hg (hh ▸ hxc))
          exact ⟨v2, by rw [hclookx x hxk]; exact hv2⟩
      · intro g c hg hcne
        rw [hfm] at hg
        exact hmf2 g c hg hcne
      · exact hfull_vac _ rfl rfl
    by_cases hfmf : f = s.minFreq
    · rw [if_pos hfmf]
      refine ⟨b, _, hb, hkb, rfl, ?_, hckeys, rfl, rfl, ?_, ?_⟩
      · refine hInvCommon _ ?_
        intro g c hg hcne
        have hgkeys : g ∈ (objDelete s.freqMap f).map Prod.fst :=
          mem_keys_of_lookup hg
        rw [hfmkeys] at hgkeys
        obtain ⟨m, hm, hle⟩ := minList_le_of_mem hgkeys
        show (minList ((objDelete (objSet s.freqMap f (b.erase k)) f).map
          Prod.fst)).getD 0 ≤ g
        rw [hfm, hfmkeys, hm]
        exact hle
      · intro _
        show (minList ((objDelete (objSet s.freqMap f (b.erase k)) f).map
          Prod.fst)).getD 0 = (minList ((s.freqMap.map Prod.fst).erase f)).getD 0
        rw [hfm, hfmkeys]
      · intro hcon
        exact absurd ⟨hemp, hfmf⟩ hcon
    · rw [if_neg hfmf]
      refine ⟨b, _, hb, hkb, rfl, ?_, hckeys, rfl, rfl, ?_, ?_⟩
      · refine hInvCommon _ ?_
        intro g c hg hcne
        by_cases hgf : g = f
        · rw [hgf, hfmlookf] at hg
          exact Option.noConfusion hg
        · rw [hfmlookg g hgf] at hg
          exact hs.minFreq_le g c hg hcne
      · intro hcon
        exact absurd hcon.2 hfmf
      · intro _
        rfl
  · rw [if_neg hemp]
    rw [List.isEmpty_iff] at hemp
    have hfmlookf : List.lookup f (objSet s.freqMap f (b.erase k)) =
        some (b.erase k) := lookup_objSet _ _ _
    have hfmlookg : ∀ g, g ≠ f →
        List.lookup g (objSet s.freqMap f (b.erase k)) = List.lookup g s.freqMap :=
      fun g hg => lookup_objSet_ne _ _ _ _ hg
    have hfmkeys : (objSet s.freqMap f (b.erase k)).map Prod.fst =
        s.freqMap.map Prod.fst :=
      objSet_keys_of_mem _ _ _ (mem_keys_of_lookup hb)
    refine ⟨b, _, hb, hkb, rfl, ?_, hckeys, rfl, rfl, ?_, ?_⟩
    · refine ⟨hsize', hsizele, hcnodup, ?_, ?_, ?_, ?_, ?_, ?_, ?_⟩
      · show ((objSet s.freqMap f (b.erase k)).map Prod.fst).Nodup
        rw [hfmkeys]
        exact hs.freqsNodup
      · intro g c hg
        by_cases hgf : g = f
        · rw [hgf, hfmlookf] at hg
          injection hg with hg
          rw [← hg]
          exact hbnodup.erase k
        · rw [hfmlookg g hgf] at hg
          exact hs.bucketNodup g c hg
      · intro g c hg
        by_cases hgf : g = f
        · rw [hgf]
          exact hs.freqPos f b hb
        · rw [hfmlookg g hgf] at hg
          exact hs.freqPos g c hg
      · intro x vx fx hx
        have hxk : x ≠ k := by
          intro hh
          rw [hh, hclookk] at hx
          exact Option.noConfusion hx
        rw [hclookx x hxk] at hx
        obtain ⟨c, hc, hxc⟩ := hs.cache_bucket x vx fx hx
        by_cases hfxf : fx = f
        · rw [hfxf, hb] at hc
          injection hc with hc
          rw [← hc] at hxc
          refine ⟨b.erase k, by rw [hfxf]; exact hfmlookf, ?_⟩
          exact (List.mem_erase_of_ne hxk).mpr hxc
        · exact ⟨c, by rw [hfmlookg fx hfxf]; exact hc, hxc⟩
      · intro g c hg x hxc
        by_cases hgf : g = f
        · rw [hgf, hfmlookf] at hg
          injection hg with hg
          rw [← hg] at hxc
          have hxb : x ∈ b := List.mem_of_mem_erase hxc
          have hxk : x ≠ k := by
            intro hh
            rw [hh] at hxc
            exact hbnodup.not_mem_erase hxc
          obtain ⟨v2, hv2⟩ := hs.bucket_cache f b hb x hxb
          refine ⟨v2, ?_⟩
          rw [hclookx x hxk, hgf]
          exact hv2
        · rw [hfmlookg g hgf] at hg
          obtain ⟨v2, hv2⟩ := hs.bucket_cache g c hg x hxc
          have hxk : x ≠ k := fun hh => hgf (hk_only g c hg (hh ▸ hxc))
          exact ⟨v2, by rw [hclookx x hxk]; exact hv2⟩
      · intro g c hg hcne
        by_cases hgf : g = f
        · rw [hgf]
          exact hs.minFreq_le f b hb (fun hh => by rw [hh] at hkb; simp at hkb)
        · rw [hfmlookg g hgf] at hg
          exact hs.minFreq_le g c hg hcne
      · exact hfull_vac _ rfl rfl
    · intro hcon
      exact absurd hcon.1 hemp
    · intro _
      rfl

theorem LFUInv.get_some {V : Type} {s : LFUCache V} (hs : LFUInv s) (k : Nat) :
    ∃ r s', s.get k = some (r, s') ∧ LFUInv s' ∧ s'.capacity = s.capacity := by
  rcases hk : List.lookup k s.cache with _ | vf
  · refine ⟨none, s, ?_, hs, rfl⟩
    unfold LFUCache.get
    rw [hk]
  · obtain ⟨v, f⟩ := vf
    obtain ⟨s', hinc, hinv, _, _, hcap, _⟩ := hs.increaseFreq_inv hk
    refine ⟨some v, s', ?_, hinv, hcap⟩
    unfold LFUCache.get
    rw [hk]
    dsimp only
    rw [hinc]
    rfl

theorem LFUInv.set_some {V : Type} {s : LFUCache V} (hs : LFUInv s) {k : Nat} {v : V}
    {s' : LFUCache V} (h : s.set k v = some s') :
    LFUInv s' ∧ s'.capacity = s.capacity := by
  rcases hk : List.lookup k s.cache with _ | vf
  · -- new key
    have hkfresh : k ∉ s.cache.map Prod.fst := by
      intro hmem
      rw [← lookup_isSome_iff, hk] at hmem
      simp at hmem
    by_cases hsize : (s.capacity : Int) ≤ s.size
    · -- eviction path: extract the successful eviction from h
      have hx := h
      unfold LFUCache.set at hx
      rw [hk] at hx
      dsimp only at hx
      rw [if_pos hsize] at hx
      rcases hev : s.removeMinFreqNode with _ | s2
      · rw [hev] at hx
        exact Option.noConfusion hx
      · -- recover the bucket facts behind the successful eviction
        have hx2 := hev
        unfold LFUCache.removeMinFreqNode at hx2
        rcases hb : List.lookup s.minFreq s.freqMap with _ | b
        · rw [hb] at hx2
          exact Option.noConfusion hx2
        · rw [hb] at hx2
          dsimp only at hx2
          rcases ht : b.getLast? with _ | t
          · rw [ht] at hx2
            exact Option.noConfusion hx2
          · obtain ⟨s2', hev', hinv2, hc2, hkeys2, htmem, hcap2, hsz2, _⟩ :=
              hs.removeMinFreqNode_some hb ht
            have hs2eq : s2' = s2 := by
              rw [hev] at hev'
              exact Option.some.inj hev'.symm
            rw [hs2eq] at hinv2 hc2 hkeys2 hcap2 hsz2
            have hlen1 : 1 ≤ s.cache.length := by
              have := List.length_pos_of_mem htmem
              simpa using this
            have hlencap : s.cache.length = s.capacity := by
              have h1 := hs.size_le
              have h2 := hs.size_eq
              omega
            have hs2len : s2.cache.length = s.cache.length - 1 := by
              have h1 := congrArg List.length hkeys2
              rw [List.length_erase_of_mem htmem] at h1
              simpa using h1
            have hroom : s2.cache.length < s2.capacity := by
              rw [hs2len, hcap2]
              omega
            have hkfresh2 : List.lookup k s2.cache = none := by
              apply lookup_eq_none_of_not_mem
              rw [hkeys2]
              intro hmem
              exact hkfresh (List.erase_subset t _ hmem)
            have hres := s.set_fresh_evict_eq v hk hsize hev
            rw [hres] at h
            have hs'eq := Option.some.inj h
            rw [← hs'eq]
            refine ⟨hinv2.insert_fresh_inv hkfresh2 v hroom, hcap2⟩
    · have hres := s.set_fresh_eq v hk hsize
      rw [hres] at h
      have hs'eq := Option.some.inj h
      rw [← hs'eq]
      have hroom : s.cache.length < s.capacity := by
        have h1 := hs.size_eq
        have h2 : ¬ ((s.capacity : Int) ≤ s.size) := hsize
        omega
      exact ⟨hs.insert_fresh_inv hk v hroom, rfl⟩
  · -- existing key: update value, then promote frequency
    obtain ⟨v0, f⟩ := vf
    have hx := h
    unfold LFUCache.set at hx
    rw [hk] at hx
    dsimp only at hx
    have hinv1 : LFUInv { s with cache := objSet s.cache k (v, f) } :=
      hs.value_update hk v
    have hlook1 : List.lookup k (objSet s.cache k (v, f)) = some (v, f) :=
      lookup_objSet _ _ _
    obtain ⟨s2, hinc, hinv2, _, _, hcap2, _⟩ := hinv1.increaseFreq_inv hlook1
    rw [hinc] at hx
    have hs2 := Option.some.inj hx
    rw [← hs2]
    exact ⟨hinv2, hcap2⟩

theorem LFUInv.clear_inv {V : Type} (s : LFUCache V) : LFUInv s.clear := by
  refine ⟨rfl, by simp [LFUCache.clear], by simp [LFUCache.clear],
    by simp [LFUCache.clear], ?_, ?_, ?_, ?_, ?_, ?_⟩ <;>
    simp [LFUCache.clear, List.lookup]
  omega

theorem LFUInv.step_some {V : Type} {s s' : LFUCache V} (hs : LFUInv s) {op : LFUOp V}
    (h : s.step op = some s') : LFUInv s' ∧ s'.capacity = s.capacity := by
  cases op with
  | set k v => exact hs.set_some h
  | get k =>
    obtain ⟨r, s2, hget, hinv, hcap⟩ := hs.get_some k
    rw [show s.step (LFUOp.get k) = (s.get k).map Prod.snd from rfl, hget] at h
    have := Option.some.inj h
    rw [← this]
    exact ⟨hinv, hcap⟩
  | del k =>
    rw [show s.step (LFUOp.del k) = (s.delete k).map Prod.snd from rfl] at h
    rcases hk : List.lookup k s.cache with _ | vf
    · have hdel : s.delete k = some (false, s) := by
        unfold LFUCache.delete
        rw [hk]
      rw [hdel] at h
      have := Option.some.inj h
      rw [← this]
      exact ⟨hs, rfl⟩
    · obtain ⟨v, f⟩ := vf
      obtain ⟨b, s2, hb, hkb, hdel, hinv, _, hcap, _, _, _⟩ := hs.delete_some hk
      rw [hdel] at h
      have := Option.some.inj h
      rw [← this]
      exact ⟨hinv, hcap⟩
  | clear =>
    have := Option.some.inj h
    rw [← this]
    exact ⟨LFUInv.clear_inv s, rfl⟩

theorem runLFU_inv {V : Type} (c : Nat) (ops : List (LFUOp V)) {s : LFUCache V}
    (h : runLFU c ops = some s) : LFUInv s ∧ s.capacity = c := by
  suffices H : ∀ (ops : List (LFUOp V)) (s0 : LFUCache V), LFUInv s0 →
      List.foldlM LFUCache.step s0 ops = some s → LFUInv s ∧ s.capacity = s0.capacity by
    exact H ops (LFUCache.empty c) (LFUInv.empty V c) h
  intro ops
  induction ops with
  | nil =>
    intro s0 h0 hh
    rw [List.foldlM_nil] at hh
    have := Option.some.inj hh
    rw [← this]
    exact ⟨h0, rfl⟩
  | cons op rest ih =>
    intro s0 h0 hh
    rw [List.foldlM_cons] at hh
    rcases hstep : s0.step op with _ | s1
    · rw [hstep] at hh
      exact Option.noConfusion hh
    · rw [hstep] at hh
      have hh2 : List.foldlM LFUCache.step s1 rest = some s := hh
      obtain ⟨hinv1, hcap1⟩ := h0.step_some hstep
      obtain ⟨hinv, hcap⟩ := ih s1 hinv1 hh2
      exact ⟨hinv, by rw [hcap, hcap1]⟩

theorem lfu_has_iff {V : Type} (s : LFUCache V) (x : Nat) :
    s.has x = true ↔ x ∈ s.cache.map Prod.fst :=
  lookup_isSome_iff s.cache x

theorem lfu_lookup_none_of_has_false {V : Type} {s : LFUCache V} {k : Nat}
    (h : s.has k = false) : List.lookup k s.cache = none := by
  rcases hl : List.lookup k s.cache with _ | v
  · rfl
  · exfalso
    have : s.has k = true := by
      show (List.lookup k s.cache).isSome = true
      rw [hl]
      rfl
    rw [h] at this
    exact Bool.noConfusion this

/-- C4.  LFU eviction policy.  General statement: in every reachable state
of `LFUCache` (any run of public operations that did not throw), a `set` of
a new key when `size >= capacity` succeeds and removes exactly the tail
node of the minimum-frequency bucket from the cache: afterwards a key is
present iff it is the new key, or it was present before and is not that
tail key.  In addition the two concrete scenarios of the spec: with
capacity 2, `set(a); set(b); get(a); set(c)` evicts `b`, and
`set(a); set(b); set(c)` with no gets evicts `a` (lowest frequency, tie
broken by evicting the longest-untouched entry). -/
theorem C4_lfu_eviction_policy :
    (∀ (V : Type) (c : Nat) (ops : List (LFUOp V)) (s : LFUCache V) (k : Nat) (v : V),
      runLFU c ops = some s → 1 ≤ c → s.has k = false → (s.capacity : Int) ≤ s.size →
      ∃ b t s', List.lookup s.minFreq s.freqMap = some b ∧ b.getLast? = some t ∧
        s.set k v = some s' ∧
        (∀ x, s'.has x = true ↔ x = k ∨ (s.has x = true ∧ x ≠ t))) ∧
    ((runLFU 2 [LFUOp.set 1 11, LFUOp.set 2 22, LFUOp.get 1, LFUOp.set 3 33]).map
      (fun s => (s.has 1, s.has 2, s.has 3, s.size)) =
      some (true, false, true, 2)) ∧
    ((runLFU 2 [LFUOp.set 1 11, LFUOp.set 2 22, LFUOp.set 3 33]).map
      (fun s => (s.has 1, s.has 2, s.has 3)) = some (false, true, true)) := by
  refine ⟨?_, by decide, by decide⟩
  intro V c ops s k v hrun hc hhas hsize
  obtain ⟨hs, hcap⟩ := runLFU_inv c ops hrun
  have hk : List.lookup k s.cache = none := lfu_lookup_none_of_has_false hhas
  have hkfresh : k ∉ s.cache.map Prod.fst := by
    intro hmem
    rw [← lookup_isSome_iff, hk] at hmem
    simp at hmem
  have hlencap : s.cache.length = s.capacity := by
    have h1 := hs.size_le
    have h2 := hs.size_eq
    omega
  have hcap1 : 1 ≤ s.capacity := by omega
  obtain ⟨b, hb, hbne⟩ := hs.full_bucket hlencap hcap1
  obtain ⟨t, ht⟩ := getLast?_of_ne_nil hbne
  obtain ⟨s2, hev, hinv2, hc2, hkeys2, htmem, hcap2, hsz2, _⟩ :=
    hs.removeMinFreqNode_some hb ht
  have hres := s.set_fresh_evict_eq v hk hsize hev
  refine ⟨b, t, _, hb, ht, hres, ?_⟩
  intro x
  have hkfresh2 : k ∉ s2.cache.map Prod.fst := by
    rw [hkeys2]
    intro hmem
    exact hkfresh (List.erase_subset t _ hmem)
  have hkeysfin : (objSet s2.cache k (v, 1)).map Prod.fst =
      ((s.cache.map Prod.fst).erase t) ++ [k] := by
    rw [objSet_keys_of_not_mem _ _ _ hkfresh2, hkeys2]
  have hfiniff : (({ s2 with
                     cache := objSet s2.cache k (v, 1),
                     freqMap := objSet s2.freqMap 1
                       (k :: ((List.lookup 1 s2.freqMap).getD [])),
                     minFreq := 1,
                     size := s2.size + 1 } : LFUCache V)).has x = true ↔
      x ∈ (objSet s2.cache k (v, 1)).map Prod.fst := lookup_isSome_iff _ _
  rw [hfiniff, hkeysfin, lfu_has_iff]
  constructor
  · intro hmem
    rcases List.mem_append.mp hmem with h1 | h1
    · rw [hs.keysNodup.mem_erase_iff] at h1
      exact Or.inr ⟨h1.2, h1.1⟩
    · rw [List.mem_singleton] at h1
      exact Or.inl h1
  · rintro (rfl | ⟨hmem, hne⟩)
    · exact List.mem_append.mpr (Or.inr (by simp))
    · refine List.mem_append.mpr (Or.inl ?_)
      rw [hs.keysNodup.mem_erase_iff]
      exact ⟨hne, hmem⟩

/-- Witness for C4: the general eviction statement applied to the concrete
reachable state after `set(1); set(2)` on a capacity-2 cache. -/
theorem C4_lfu_eviction_policy_witness :
    ∃ s' : LFUCache Nat,
      (⟨2, [(1, (11, 1)), (2, (22, 1))], [(1, [2, 1])], 1, 2⟩ :
        LFUCache Nat).set 3 33 = some s' ∧
      s'.has 1 = false ∧ s'.has 2 = true ∧ s'.has 3 = true := by
  obtain ⟨hgen, _, _⟩ := C4_lfu_eviction_policy
  obtain ⟨b, t, s', hb, ht, hset, hiff⟩ := hgen Nat 2
    [LFUOp.set 1 11, LFUOp.set 2 22]
    (⟨2, [(1, (11, 1)), (2, (22, 1))], [(1, [2, 1])], 1, 2⟩ : LFUCache Nat)
    3 33 (by decide) (by decide) (by decide) (by decide)
  have hbv : ([2, 1] : List Nat) = b := Option.some.inj hb
  have htv : t = 1 := by
    rw [← hbv] at ht
    exact (Option.some.inj ht).symm
  refine ⟨s', hset, ?_, ?_, ?_⟩
  · rcases hh : s'.has 1 with _ | _
    · rfl
    · exfalso
      rcases (hiff 1).mp hh with h1 | ⟨_, h1⟩
      · exact absurd h1 (by decide)
      · rw [htv] at h1
        exact h1 rfl
  · refine (hiff 2).mpr (Or.inr ⟨by decide, ?_⟩)
    rw [htv]
    decide
  · exact (hiff 3).mpr (Or.inl rfl)

/-- C5 counterexample.  The claim states that `minFreq` equals the lowest
frequency with a non-empty bucket after every operation (0 on an empty
cache).  The code violates it: with capacity 1, `set(a); get(a); delete(a)`
leaves an empty cache (no entries, size 0) whose `minFreq` is 1, because
`#increaseFreq` left an empty frequency-1 bucket in the map and
`#findMinFreq` takes the minimum over all remaining bucket keys, empty
buckets included. -/
theorem C5_counterexample :
    (runLFU 1 [LFUOp.set 1 11, LFUOp.get 1, LFUOp.del 1] : Option (LFUCache Nat)) =
      some ⟨1, [], [(1, [])], 1, 0⟩ := by
  decide

theorem LFUCacheWithTTL.delete_minFreq_eq {V : Type} (s : LFUCacheWithTTL V)
    {now k : Nat} {w : ValueWithTTL V} {f : Nat} {b : List Nat}
    (hk : List.lookup k s.cache = some (w, f)) (hexp : w.isExpired now = false)
    (hb : List.lookup f s.freqMap = some b) :
    ∃ s', s.delete now k = (true, s') ∧
      ((b.erase k = [] ∧ f = s.minFreq) →
        s'.minFreq = (minList ((s.freqMap.map Prod.fst).erase f)).getD 0) ∧
      (¬ (b.erase k = [] ∧ f = s.minFreq) → s'.minFreq = s.minFreq) := by
  have hfm : objDelete (objSet s.freqMap f (b.erase k)) f = objDelete s.freqMap f :=
    objDelete_objSet_self _ _ _
  have hfmkeys : (objDelete s.freqMap f).map Prod.fst =
      (s.freqMap.map Prod.fst).erase f := objDelete_keys _ _
  unfold LFUCacheWithTTL.delete LFUCacheWithTTL.has
  rw [hk]
  dsimp only
  rw [hexp]
  simp only [Bool.false_eq_true, if_false, if_true]
  rw [hk]
  dsimp only
  unfold LFUCacheWithTTL.removeNodeCompletely
  rw [hb]
  dsimp only
  by_cases hemp : (b.erase k).isEmpty
  · rw [if_pos hemp]
    by_cases hfmf : f = s.minFreq
    · rw [if_pos hfmf]
      refine ⟨_, rfl, ?_, ?_⟩
      · intro _
        unfold LFUCacheWithTTL.findMinFreq
        dsimp only
        split_ifs <;>
          (show (minList ((objDelete (objSet s.freqMap f (b.erase k))
            f).map Prod.fst)).getD 0 = _) <;>
          rw [hfm, hfmkeys]
      · intro hcon
        exfalso
        rw [List.isEmpty_iff] at hemp
        exact hcon ⟨hemp, hfmf⟩
    · rw [if_neg hfmf]
      refine ⟨_, rfl, ?_, ?_⟩
      · intro hcon
        exact absurd hcon.2 hfmf
      · intro _
        split_ifs <;> rfl
  · rw [if_neg hemp]
    refine ⟨_, rfl, ?_, ?_⟩
    · intro hcon
      rw [← List.isEmpty_iff] at hcon
      exact absurd hcon.1 hemp
    · intro _
      split_ifs <;> rfl

/-- C5 (amended).  The `minFreq` bookkeeping that the code actually
maintains: (a) in every reachable state of `LFUCache`, `minFreq` is a lower
bound on every non-empty bucket frequency, and at full capacity the
`minFreq` bucket exists and is non-empty (so the eviction candidate is
still found correctly); (b) when `delete` empties the bucket of the
deleted key and that bucket was the `minFreq` one, `minFreq` is recomputed
as the minimum over the bucket keys remaining in the map — including empty
buckets left behind by frequency promotions, so the result can be nonzero
on an empty cache and lower than the lowest non-empty frequency — and is
left unchanged by other deletes; (c) a fresh insertion resets `minFreq` to
1; (d) the removal path of `LFUCacheWithTTL` recomputes `minFreq` the same
way. -/
theorem C5_minfreq_amended :
    (∀ (V : Type) (c : Nat) (ops : List (LFUOp V)) (s : LFUCache V),
      runLFU c ops = some s →
      (∀ f b, List.lookup f s.freqMap = some b → b ≠ [] → s.minFreq ≤ f) ∧
      (s.cache.length = s.capacity → 1 ≤ s.capacity →
        ∃ b, List.lookup s.minFreq s.freqMap = some b ∧ b ≠ [])) ∧
    (∀ (V : Type) (c : Nat) (ops : List (LFUOp V)) (s : LFUCache V) (k : Nat)
      (v : V) (f : Nat),
      runLFU c ops = some s → List.lookup k s.cache = some (v, f) →
      ∃ b s', List.lookup f s.freqMap = some b ∧
        s.delete k = some (true, s') ∧
        ((b.erase k = [] ∧ f = s.minFreq) →
          s'.minFreq = (minList ((s.freqMap.map Prod.fst).erase f)).getD 0) ∧
        (¬ (b.erase k = [] ∧ f = s.minFreq) → s'.minFreq = s.minFreq)) ∧
    (∀ (V : Type) (s : LFUCache V) (k : Nat) (v : V) (s' : LFUCache V),
      List.lookup k s.cache = none → s.set k v = some s' → s'.minFreq = 1) ∧
    (∀ (V : Type) (s : LFUCacheWithTTL V) (now k : Nat) (w : ValueWithTTL V)
      (f : Nat) (b : List Nat),
      List.lookup k s.cache = some (w, f) → w.isExpired now = false →
      List.lookup f s.freqMap = some b →
      ∃ s', s.delete now k = (true, s') ∧
        ((b.erase k = [] ∧ f = s.minFreq) →
          s'.minFreq = (minList ((s.freqMap.map Prod.fst).erase f)).getD 0) ∧
        (¬ (b.erase k = [] ∧ f = s.minFreq) → s'.minFreq = s.minFreq)) := by
  refine ⟨?_, ?_, ?_, ?_⟩
  · intro V c ops s hrun
    obtain ⟨hs, _⟩ := runLFU_inv c ops hrun
    exact ⟨hs.minFreq_le, hs.full_bucket⟩
  · intro V c ops s k v f hrun hk
    obtain ⟨hs, _⟩ := runLFU_inv c ops hrun
    obtain ⟨b, s', hb, hkb, hdel, _, _, _, _, hmin1, hmin2⟩ := hs.delete_some hk
    exact ⟨b, s', hb, hdel, hmin1, hmin2⟩
  · intro V s k v s' hk h
    by_cases hsize : (s.capacity : Int) ≤ s.size
    · have hx := h
      unfold LFUCache.set at hx
      rw [hk] at hx
      dsimp only at hx
      rw [if_pos hsize] at hx
      rcases hev : s.removeMinFreqNode with _ | s2
      · rw [hev] at hx
        exact Option.noConfusion hx
      · rw [s.set_fresh_evict_eq v hk hsize hev] at h
        rw [← Option.some.inj h]
    · rw [s.set_fresh_eq v hk hsize] at h
      rw [← Option.some.inj h]
  · intro V s now k w f b hk hexp hb
    exact s.delete_minFreq_eq hk hexp hb

/-- Witness for C5 (amended): applied at concrete reachable states of both
variants. -/
theorem C5_minfreq_amended_witness :
    (∃ s' : LFUCache Nat,
      (⟨1, [], [(1, [])], 1, 0⟩ : LFUCache Nat).set 5 55 = some s' ∧
      s'.minFreq = 1) ∧
    (∃ s' : LFUCache Nat,
      (⟨2, [(1, (11, 1)), (2, (22, 1))], [(1, [2, 1])], 1, 2⟩ :
        LFUCache Nat).delete 1 = some (true, s') ∧ s'.minFreq = 1) ∧
    (∃ s' : LFUCacheWithTTL Nat,
      (⟨1, 100, [(7, (⟨77, 100, 100⟩, 2))], [(1, []), (2, [7])], 2, 1⟩ :
        LFUCacheWithTTL Nat).delete 50 7 = (true, s') ∧ s'.minFreq = 1) := by
  obtain ⟨hlow, hdel, hset1, httl⟩ := C5_minfreq_amended
  refine ⟨?_, ?_, ?_⟩
  · have hres : (⟨1, [], [(1, [])], 1, 0⟩ : LFUCache Nat).set 5 55 = some
        ⟨1, [(5, (55, 1))], [(1, [5])], 1, 1⟩ := by decide
    exact ⟨_, hres, hset1 Nat _ 5 55 _ (by decide) hres⟩
  · obtain ⟨b, s', hb, hdel', hmin1, hmin2⟩ := hdel Nat 2
      [LFUOp.set 1 11, LFUOp.set 2 22]
      (⟨2, [(1, (11, 1)), (2, (22, 1))], [(1, [2, 1])], 1, 2⟩ : LFUCache Nat)
      1 11 1 (by decide) (by decide)
    refine ⟨s', hdel', ?_⟩
    have hbv : ([2, 1] : List Nat) = b := Option.some.inj hb
    have hcon : ¬ (b.erase 1 = [] ∧ 1 = (⟨2, [(1, (11, 1)), (2, (22, 1))],
        [(1, [2, 1])], 1, 2⟩ : LFUCache Nat).minFreq) := by
      rw [← hbv]
      decide
    rw [hmin2 hcon]
  · obtain ⟨s', hdel', hmin1, hmin2⟩ := httl Nat
      (⟨1, 100, [(7, (⟨77, 100, 100⟩, 2))], [(1, []), (2, [7])], 2, 1⟩ :
        LFUCacheWithTTL Nat)
      50 7 ⟨77, 100, 100⟩ 2 [7] (by decide) (by decide) (by decide)
    refine ⟨s', hdel', ?_⟩
    rw [hmin1 (by decide)]
    decide

/-- C6 counterexample.  The claim says an expired entry found by `has` is
removed from the map and the list with `size` decreasing by 1.  With the
falsy key `0`, capacity 1 and ttl 100: `set(0, a); set(1, b)` leaves key 0
in the map but not in the list (the eviction guard skipped the map
deletion); at time 200 the entry under key 0 is expired and visible, and
`has(0)` removes it from the map and reports absent, but the size does not
decrease (it stays 1). -/
theorem C6_counterexample :
    ((List.lookup 0 (((LRUCacheWithTTL.empty 1 100 : LRUCacheWithTTL Nat).set 0 0
      10).set 0 1 20).cache).isSome = true) ∧
    (((((LRUCacheWithTTL.empty 1 100 : LRUCacheWithTTL Nat).set 0 0 10).set 0 1
      20).has 200 0).1 = false) ∧
    ((((LRUCacheWithTTL.empty 1 100 : LRUCacheWithTTL Nat).set 0 0 10).set 0 1
      20).size = 1) ∧
    (((((LRUCacheWithTTL.empty 1 100 : LRUCacheWithTTL Nat).set 0 0 10).set 0 1
      20).has 200 0).2.size = 1) ∧
    ((List.lookup 0 (((((LRUCacheWithTTL.empty 1 100 : LRUCacheWithTTL Nat).set 0 0
      10).set 0 1 20).has 200 0).2.cache)) = none) := by
  decide

theorem LFUCacheWithTTL.addToFreqList_cache {V : Type} (s : LFUCacheWithTTL V)
    (f k : Nat) : (s.addToFreqList f k).cache = s.cache := by
  unfold LFUCacheWithTTL.addToFreqList
  rcases List.lookup f s.freqMap <;> rfl

/-- C6 (amended).  Lazy expiry.  For `LFUCacheWithTTL` exactly as claimed:
`has` on an expired entry (in a state whose map and frequency map have
duplicate-free keys and whose entry sits in its bucket with positive size)
removes the key from the map and from its bucket, decreases the size by 1
and reports the key absent; `get` returns the none value.  For
`LRUCacheWithTTL` the expired entry is removed from the map, reported
absent, and removed from the list when still there, the size decreasing by
1 in that case; a falsy-keyed entry that the eviction bug left in the map
only is removed from the map alone and the size is unchanged. -/
theorem C6_lazy_expiry :
    (∀ (V : Type) (s : LRUCacheWithTTL V) (now k : Nat) (w : ValueWithTTL V),
      List.lookup k s.cache = some w → w.isExpired now = true →
      (s.has now k).1 = false ∧
      (s.has now k).2.cache = objDelete s.cache k ∧
      (s.has now k).2.dll = s.dll.erase k ∧
      ((s.has now k).2.size = if k ∈ s.dll then s.size - 1 else s.size) ∧
      (k ∈ s.dll → (s.has now k).2.size + 1 = s.size) ∧
      (s.get now k).1 = none ∧
      ((s.cache.map Prod.fst).Nodup → List.lookup k (s.has now k).2.cache = none)) ∧
    (∀ (V : Type) (s : LFUCacheWithTTL V) (now k : Nat) (w : ValueWithTTL V)
      (f : Nat) (b : List Nat),
      List.lookup k s.cache = some (w, f) → w.isExpired now = true →
      List.lookup f s.freqMap = some b → k ∈ b →
      (s.cache.map Prod.fst).Nodup → (s.freqMap.map Prod.fst).Nodup →
      0 < s.size →
      (s.has now k).1 = false ∧
      List.lookup k (s.has now k).2.cache = none ∧
      (s.has now k).2.size + 1 = s.size ∧
      (List.lookup f (s.has now k).2.freqMap =
        if b.erase k = [] then none else some (b.erase k)) ∧
      (s.get now k).1 = none) := by
  constructor
  · intro V s now k w hk hexp
    have hhas : s.has now k =
        (false, { s with cache := objDelete s.cache k, dll := s.dll.erase k }) := by
      unfold LRUCacheWithTTL.has
      rw [hk]
      dsimp only
      rw [hexp, if_pos rfl]
    have hsize : (s.has now k).2.size = if k ∈ s.dll then s.size - 1 else s.size := by
      rw [hhas]
      show (s.dll.erase k).length = _
      by_cases hmem : k ∈ s.dll
      · rw [if_pos hmem]
        exact List.length_erase_of_mem hmem
      · rw [if_neg hmem, List.erase_of_not_mem hmem]
        rfl
    refine ⟨by rw [hhas], by rw [hhas], by rw [hhas], hsize, ?_, ?_, ?_⟩
    · intro hmem
      rw [hsize, if_pos hmem]
      have h1 : 1 ≤ s.dll.length := by
        have := List.length_pos_of_mem hmem
        omega
      show s.dll.length - 1 + 1 = s.dll.length
      omega
    · unfold LRUCacheWithTTL.get
      rw [hhas]
      rfl
    · intro hnodup
      rw [hhas]
      exact lookup_objDelete_self s.cache k hnodup
  · intro V s now k w f b hk hexp hb hkb hcn hfn hsz
    have hhas : s.has now k = (false, s.removeNodeCompletely k f) := by
      unfold LFUCacheWithTTL.has
      rw [hk]
      dsimp only
      rw [hexp, if_pos rfl]
    have hrnc_cache : (s.removeNodeCompletely k f).cache =
        objDelete s.cache k ∧ (s.removeNodeCompletely k f).size + 1 = s.size ∧
        List.lookup f (s.removeNodeCompletely k f).freqMap =
          (if b.erase k = [] then none else some (b.erase k)) := by
      unfold LFUCacheWithTTL.removeNodeCompletely
      rw [hb]
      dsimp only
      by_cases hemp : (b.erase k).isEmpty
      · rw [if_pos hemp]
        rw [List.isEmpty_iff] at hemp
        rw [if_pos hemp]
        have hfm : objDelete (objSet s.freqMap f (b.erase k)) f =
            objDelete s.freqMap f := objDelete_objSet_self _ _ _
        by_cases hfmf : f = s.minFreq
        · rw [if_pos hfmf]
          dsimp only
          rw [if_pos hsz]
          refine ⟨rfl, by show s.size - 1 + 1 = s.size; omega, ?_⟩
          show List.lookup f (objDelete (objSet s.freqMap f (b.erase k)) f) = none
          rw [hfm]
          exact lookup_objDelete_self _ _ hfn
        · rw [if_neg hfmf]
          dsimp only
          rw [if_pos hsz]
          refine ⟨rfl, by show s.size - 1 + 1 = s.size; omega, ?_⟩
          show List.lookup f (objDelete (objSet s.freqMap f (b.erase k)) f) = none
          rw [hfm]
          exact lookup_objDelete_self _ _ hfn
      · rw [if_neg hemp]
        rw [List.isEmpty_iff] at hemp
        rw [if_neg hemp]
        dsimp only
        rw [if_pos hsz]
        exact ⟨rfl, by show s.size - 1 + 1 = s.size; omega, lookup_objSet _ _ _⟩
    refine ⟨by rw [hhas], ?_, ?_, ?_, ?_⟩
    · rw [hhas]
      show List.lookup k (s.removeNodeCompletely k f).cache = none
      rw [hrnc_cache.1]
      exact lookup_objDelete_self _ _ hcn
    · rw [hhas]
      exact hrnc_cache.2.1
    · rw [hhas]
      exact hrnc_cache.2.2
    · unfold LFUCacheWithTTL.get
      rw [hhas]
      rfl

/-- Witness for C6: the lazy-expiry theorem applied to concrete states of
both TTL variants (entry set at time 0 with ttl 100, checked at 150). -/
theorem C6_lazy_expiry_witness :
    ((((LRUCacheWithTTL.empty 2 100 : LRUCacheWithTTL Nat).set 0 3 30).has 150
      3).1 = false) ∧
    ((((LRUCacheWithTTL.empty 2 100 : LRUCacheWithTTL Nat).set 0 3 30).has 150
      3).2.size + 1 =
      ((LRUCacheWithTTL.empty 2 100 : LRUCacheWithTTL Nat).set 0 3 30).size) ∧
    (((⟨2, 100, [(7, (⟨77, 100, 100⟩, 1))], [(1, [7])], 1, 1⟩ :
      LFUCacheWithTTL Nat).has 150 7).1 = false) ∧
    (((⟨2, 100, [(7, (⟨77, 100, 100⟩, 1))], [(1, [7])], 1, 1⟩ :
      LFUCacheWithTTL Nat).has 150 7).2.size + 1 = 1) ∧
    (List.lookup 7 ((⟨2, 100, [(7, (⟨77, 100, 100⟩, 1))], [(1, [7])], 1, 1⟩ :
      LFUCacheWithTTL Nat).has 150 7).2.cache = none) := by
  obtain ⟨hA, hB⟩ := C6_lazy_expiry
  obtain ⟨a1, a2, a3, a4, a5, a6, a7⟩ := hA Nat
    ((LRUCacheWithTTL.empty 2 100 : LRUCacheWithTTL Nat).set 0 3 30) 150 3
    ⟨30, 100, 100⟩ (by decide) (by decide)
  obtain ⟨b1, b2, b3, b4, b5⟩ := hB Nat
    (⟨2, 100, [(7, (⟨77, 100, 100⟩, 1))], [(1, [7])], 1, 1⟩ : LFUCacheWithTTL Nat)
    150 7 ⟨77, 100, 100⟩ 1 [7] (by decide) (by decide) (by decide) (by decide)
    (by decide) (by decide) (by decide)
  exact ⟨a1, a5 (by decide), b1, b3, b2⟩

/-- C7.  TTL reset on read: for both TTL variants, a `get` that finds a
non-expired entry returns the stored value and replaces the expiry with
`now + ttl` (a full period from the moment of the get); in the frequency
variant the frequency is also promoted by 1.  Concretely: after
`set(k, v)` at time 0 with ttl 1000, `get(k)` at 800 returns `v` and
`get(k)` at 1600 (past the original expiry) still returns `v`, while 1900
misses. -/
theorem C7_ttl_reset_on_get :
    (∀ (V : Type) (s : LRUCacheWithTTL V) (now k : Nat) (w : ValueWithTTL V),
      List.lookup k s.cache = some w → w.isExpired now = false →
      (s.get now k).1 = some w.value ∧
      List.lookup k (s.get now k).2.cache = some (w.resetTTL now) ∧
      (w.resetTTL now).expiry = now + w.ttl) ∧
    (∀ (V : Type) (s : LFUCacheWithTTL V) (now k : Nat) (w : ValueWithTTL V)
      (f : Nat),
      List.lookup k s.cache = some (w, f) → w.isExpired now = false →
      (s.get now k).1 = some w.value ∧
      List.lookup k (s.get now k).2.cache = some (w.resetTTL now, f + 1) ∧
      (w.resetTTL now).expiry = now + w.ttl) ∧
    (((((LRUCacheWithTTL.empty 3 1000 : LRUCacheWithTTL Nat).set 0 1 11).get 800
      1).1 = some 11) ∧
     ((((LRUCacheWithTTL.empty 3 1000 : LRUCacheWithTTL Nat).set 0 1 11).get 800
      1).2.get 1600 1).1 = some 11 ∧
     ((((LRUCacheWithTTL.empty 3 1000 : LRUCacheWithTTL Nat).set 0 1 11).get 800
      1).2.get 1900 1).1 = none) ∧
    (((((LFUCacheWithTTL.empty 3 1000 : LFUCacheWithTTL Nat).set 0 1 11).get 800
      1).1 = some 11) ∧
     ((((LFUCacheWithTTL.empty 3 1000 : LFUCacheWithTTL Nat).set 0 1 11).get 800
      1).2.get 1600 1).1 = some 11 ∧
     ((((LFUCacheWithTTL.empty 3 1000 : LFUCacheWithTTL Nat).set 0 1 11).get 800
      1).2.get 1900 1).1 = none) := by
  refine ⟨?_, ?_, by decide, by decide⟩
  · intro V s now k w hk hexp
    have hhas : s.has now k = (true, s) := by
      unfold LRUCacheWithTTL.has
      rw [hk]
      dsimp only
      rw [hexp]
      simp only [Bool.false_eq_true, if_false]
    have hget : s.get now k = (some w.value,
        { s with cache := objSet s.cache k (w.resetTTL now),
                 dll := k :: s.dll.erase k }) := by
      unfold LRUCacheWithTTL.get
      rw [hhas]
      dsimp only
      rw [if_pos rfl, hk]
    refine ⟨by rw [hget], ?_, rfl⟩
    rw [hget]
    exact lookup_objSet _ _ _
  · intro V s now k w f hk hexp
    have hhas : s.has now k = (true, s) := by
      unfold LFUCacheWithTTL.has
      rw [hk]
      dsimp only
      rw [hexp]
      simp only [Bool.false_eq_true, if_false]
    have hget : s.get now k = (some w.value,
        ({ s with cache := objSet s.cache k (w.resetTTL now, f) } :
          LFUCacheWithTTL V).increaseFreq k) := by
      unfold LFUCacheWithTTL.get
      rw [hhas]
      dsimp only
      rw [if_pos rfl, hk]
    have hlook1 : List.lookup k (objSet s.cache k (w.resetTTL now, f)) =
        some (w.resetTTL now, f) := lookup_objSet _ _ _
    have hcache : List.lookup k
        (({ s with cache := objSet s.cache k (w.resetTTL now, f) } :
          LFUCacheWithTTL V).increaseFreq k).cache = some (w.resetTTL now, f + 1) := by
      unfold LFUCacheWithTTL.increaseFreq
      rw [hlook1]
      dsimp only
      rcases hbb : List.lookup f s.freqMap with _ | b
      · dsimp only
        rw [LFUCacheWithTTL.addToFreqList_cache]
        exact lookup_objSet _ _ _
      · dsimp only
        split_ifs with hc
        · rw [LFUCacheWithTTL.addToFreqList_cache]
          exact lookup_objSet _ _ _
        · rw [LFUCacheWithTTL.addToFreqList_cache]
          exact lookup_objSet _ _ _
    refine ⟨by rw [hget], ?_, rfl⟩
    rw [hget]
    exact hcache

/-- Witness for C7: the reset theorem applied to the concrete state after
`set(1, 11)` at time 0 with ttl 1000, read at time 800. -/
theorem C7_ttl_reset_on_get_witness :
    ((((LRUCacheWithTTL.empty 3 1000 : LRUCacheWithTTL Nat).set 0 1 11).get 800
      1).1 = some 11) ∧
    (List.lookup 1 (((LRUCacheWithTTL.empty 3 1000 :
      LRUCacheWithTTL Nat).set 0 1 11).get 800 1).2.cache =
      some ⟨11, 1800, 1000⟩) ∧
    (((⟨3, 1000, [(1, (⟨11, 1000, 1000⟩, 1))], [(1, [1])], 1, 1⟩ :
      LFUCacheWithTTL Nat).get 800 1).1 = some 11) ∧
    (List.lookup 1 ((⟨3, 1000, [(1, (⟨11, 1000, 1000⟩, 1))], [(1, [1])], 1, 1⟩ :
      LFUCacheWithTTL Nat).get 800 1).2.cache = some (⟨11, 1800, 1000⟩, 2)) := by
  obtain ⟨hA, hB, _, _⟩ := C7_ttl_reset_on_get
  obtain ⟨a1, a2, a3⟩ := hA Nat
    ((LRUCacheWithTTL.empty 3 1000 : LRUCacheWithTTL Nat).set 0 1 11) 800 1
    ⟨11, 1000, 1000⟩ (by decide) (by decide)
  obtain ⟨b1, b2, b3⟩ := hB Nat
    (⟨3, 1000, [(1, (⟨11, 1000, 1000⟩, 1))], [(1, [1])], 1, 1⟩ :
      LFUCacheWithTTL Nat) 800 1 ⟨11, 1000, 1000⟩ 1 (by decide) (by decide)
  exact ⟨a1, a2, b1, b2⟩

/-!
Pointer level model of `src/doubly-linked-list.ts` for the list claims.

Node objects are modelled by a heap: an association list from node
identities (`Nat`) to node records.  A JavaScript node reference is a heap
identity; `undefined` links are `none`.  Field mutation on a node is
`heapUpd`, which rewrites the entry under its identity, so aliasing behaves
as in JavaScript.  Operations that can throw a `TypeError` (a `!` access on
an `undefined` reference) return `Option`, `none` marking the exception;
`addToHead` returns `Except String` inside the `Option` so the thrown
ownership `Error` and its message are distinguished from a crash.  The
unbounded `while` traversals of the source (`#isNodeInList`, iteration) are
given the list's reported `size` as fuel, which is exact for well formed
lists.  List indices are modelled as `Nat`; the `index < 0` guards of the
source then collapse into the upper bound checks.
-/

structure DoublyLinkedListNode (V : Type) where
  value : V
  prev : Option Nat := none
  next : Option Nat := none
deriving Repr, DecidableEq

structure DoublyLinkedList (V : Type) where
  heap : List (Nat × DoublyLinkedListNode V) := []
  head : Option Nat := none
  tail : Option Nat := none
  size : Nat := 0
deriving Repr, DecidableEq

namespace DoublyLinkedList

variable {V : Type}

/-- Mutate the fields of the node stored under identity `i`. -/
def heapUpd (heap : List (Nat × DoublyLinkedListNode V)) (i : Nat)
    (f : DoublyLinkedListNode V → DoublyLinkedListNode V) :
    List (Nat × DoublyLinkedListNode V) :=
  match List.lookup i heap with
  | none => heap
  | some n => objSet heap i (f n)

theorem lookup_heapUpd_ne (heap : List (Nat × DoublyLinkedListNode V)) (i j : Nat)
    (f : DoublyLinkedListNode V → DoublyLinkedListNode V) (h : j ≠ i) :
    List.lookup j (heapUpd heap i f) = List.lookup j heap := by
  unfold heapUpd
  rcases List.lookup i heap with _ | n
  · rfl
  · exact lookup_objSet_ne heap i j _ h

theorem lookup_heapUpd_self (heap : List (Nat × DoublyLinkedListNode V)) (i : Nat)
    (f : DoublyLinkedListNode V → DoublyLinkedListNode V)
    {n : DoublyLinkedListNode V} (h : List.lookup i heap = some n) :
    List.lookup i (heapUpd heap i f) = some (f n) := by
  unfold heapUpd
  rw [h]
  exact lookup_objSet heap i (f n)

theorem lookup_heapUpd_isSome (heap : List (Nat × DoublyLinkedListNode V)) (i j : Nat)
    (f : DoublyLinkedListNode V → DoublyLinkedListNode V)
    (h : (List.lookup j heap).isSome = true) :
    (List.lookup j (heapUpd heap i f)).isSome = true := by
  by_cases hji : j = i
  · subst hji
    rcases hn : List.lookup j heap with _ | n
    · rw [hn] at h; exact absurd h (by simp)
    · rw [lookup_heapUpd_self heap j f hn]; rfl
  · rw [lookup_heapUpd_ne heap i j f hji]; exact h

/-- The links of a chain of nodes: each node in the list is allocated, its
`prev` points at the preceding node (`p` for the first) and its `next` at
the following node (`none` for the last). -/
def chain (heap : List (Nat × DoublyLinkedListNode V)) :
    Option Nat → List Nat → Bool
  | _, [] => true
  | p, i :: rest =>
    match List.lookup i heap with
    | none => false
    | some n => n.prev == p && n.next == rest.head? && chain heap (some i) rest

theorem chain_nil (heap : List (Nat × DoublyLinkedListNode V)) (p : Option Nat) :
    chain heap p [] = true := rfl

theorem chain_cons {heap : List (Nat × DoublyLinkedListNode V)} {p : Option Nat}
    {i : Nat} {rest : List Nat} :
    chain heap p (i :: rest) = true ↔
      ∃ n, List.lookup i heap = some n ∧ n.prev = p ∧ n.next = rest.head? ∧
        chain heap (some i) rest = true := by
  constructor
  · intro h
    unfold chain at h
    rcases hl : List.lookup i heap with _ | n
    · rw [hl] at h; exact absurd h (by simp)
    · rw [hl] at h
      simp only [Bool.and_eq_true, beq_iff_eq] at h
      exact ⟨n, rfl, h.1.1, h.1.2, h.2⟩
  · rintro ⟨n, hl, hp, hn, hc⟩
    unfold chain
    rw [hl]
    simp only [Bool.and_eq_true, beq_iff_eq]
    exact ⟨⟨hp, hn⟩, hc⟩

/-- Two heaps that agree on every node of a chain carry the same chain. -/
theorem chain_congr {heap1 heap2 : List (Nat × DoublyLinkedListNode V)}
    {L : List Nat} (hagree : ∀ j ∈ L, List.lookup j heap2 = List.lookup j heap1) :
    ∀ p, chain heap1 p L = true → chain heap2 p L = true := by
  induction L with
  | nil => intro p _; rfl
  | cons i rest ih =>
    intro p h
    obtain ⟨n, hl, hp, hn, hc⟩ := chain_cons.mp h
    refine chain_cons.mpr ⟨n, ?_, hp, hn, ?_⟩
    · rw [hagree i (List.mem_cons_self i rest), hl]
    · exact ih (fun j hj => hagree j (List.mem_cons_of_mem i hj)) (some i) hc

/-- Well formedness: the registers of a list value describe the chain `L`. -/
def wf (s : DoublyLinkedList V) (L : List Nat) : Prop :=
  chain s.heap none L = true ∧ s.head = L.head? ∧ s.tail = L.getLast? ∧
  s.size = L.length ∧ L.Nodup

instance (s : DoublyLinkedList V) (L : List Nat) : Decidable (s.wf L) := by
  unfold wf
  infer_instance

/-- Fuelled walk over `next` links collecting identities (the `for...of`
iteration of the source, fuel standing for the reported size). -/
def traverseFrom (heap : List (Nat × DoublyLinkedListNode V)) :
    Nat → Option Nat → List Nat
  | 0, _ => []
  | _ + 1, none => []
  | fuel + 1, some i =>
    match List.lookup i heap with
    | none => []
    | some n => i :: traverseFrom heap fuel n.next

/-- The identities reachable from the head, in order. -/
def traverse (s : DoublyLinkedList V) : List Nat :=
  traverseFrom s.heap s.size s.head

theorem traverseFrom_chain (heap : List (Nat × DoublyLinkedListNode V)) :
    ∀ (L : List Nat) (p : Option Nat), chain heap p L = true →
      traverseFrom heap L.length L.head? = L := by
  intro L
  induction L with
  | nil => intro p _; rfl
  | cons i rest ih =>
    intro p h
    obtain ⟨n, hl, _, hn, hc⟩ := chain_cons.mp h
    show traverseFrom heap (rest.length + 1) (some i) = i :: rest
    unfold traverseFrom
    rw [hl]
    dsimp only
    rw [hn]
    exact congrArg (i :: ·) (ih (some i) hc)

theorem traverse_of_wf {s : DoublyLinkedList V} {L : List Nat} (h : s.wf L) :
    s.traverse = L := by
  obtain ⟨hc, hh, _, hs, _⟩ := h
  unfold traverse
  rw [hh, hs]
  exact traverseFrom_chain s.heap L none hc

/-- `clear()`. -/
def clear (s : DoublyLinkedList V) : DoublyLinkedList V :=
  { s with head := none, tail := none, size := 0 }

/-- `push(value)`: the freshly constructed node is allocated under the
caller supplied identity `i`.  `none` marks the `TypeError` of
`this.#tail!.next` on a corrupt list. -/
def push (s : DoublyLinkedList V) (i : Nat) (v : V) :
    Option (DoublyLinkedList V) :=
  let heap0 := s.heap ++ [(i, ⟨v, none, none⟩)]
  if s.size = 0 then
    some { s with heap := heap0, head := some i, tail := some i,
                  size := s.size + 1 }
  else
    match s.tail with
    | none => none
    | some t =>
      let heap1 := heapUpd heap0 t (fun m => { m with next := some i })
      let heap2 := heapUpd heap1 i (fun m => { m with prev := some t })
      some { s with heap := heap2, tail := some i, size := s.size + 1 }

/-- `addToHead(node)`: `Except.error` is the thrown ownership `Error`,
outer `none` the `TypeError` of `this.#head!.prev` on a corrupt list. -/
def addToHead (s : DoublyLinkedList V) (i : Nat) :
    Option (Except String (DoublyLinkedList V)) :=
  match List.lookup i s.heap with
  | none => none
  | some n =>
    if n.prev ≠ none ∨ n.next ≠ none then
      some (Except.error "node is already part of a list")
    else if s.size = 0 then
      some (Except.ok { s with head := some i, tail := some i,
                               size := s.size + 1 })
    else
      match s.head with
      | none => none
      | some h =>
        let heap1 := heapUpd s.heap h (fun m => { m with prev := some i })
        let heap2 := heapUpd heap1 i (fun m => { m with next := some h })
        some (Except.ok { s with heap := heap2, head := some i,
                                 size := s.size + 1 })

/-- `removeTail()`: returns the identity of the removed node (`none` on an
empty list); outer `none` marks the `TypeError` of `prev!.next` on a
corrupt list. -/
def removeTail (s : DoublyLinkedList V) :
    Option (Option Nat × DoublyLinkedList V) :=
  if s.size = 0 then some (none, s)
  else if s.head = s.tail then some (s.head, s.clear)
  else
    match s.tail with
    | none => none
    | some t =>
      match List.lookup t s.heap with
      | none => none
      | some tn =>
        match tn.prev with
        | none => none
        | some p =>
          let heap1 := heapUpd s.heap t (fun m => { m with prev := none })
          let heap2 := heapUpd heap1 p (fun m => { m with next := none })
          some (some t, { s with heap := heap2, tail := some p,
                                 size := s.size - 1 })

/-- `pop()`: `removeTail` and then `node?.value`. -/
def pop (s : DoublyLinkedList V) : Option (Option V × DoublyLinkedList V) :=
  (s.removeTail).bind (fun r =>
    match r.1 with
    | none => some (none, r.2)
    | some t =>
      match List.lookup t r.2.heap with
      | none => none
      | some n => some (some n.value, r.2))

/-- `shift()`. -/
def shift (s : DoublyLinkedList V) : Option (Option V × DoublyLinkedList V) :=
  if s.size = 0 then some (none, s)
  else
    match s.head with
    | none => none
    | some h =>
      match List.lookup h s.heap with
      | none => none
      | some hn =>
        if s.size - 1 = 0 then
          let heap2 := heapUpd s.heap h (fun m => { m with next := none })
          some (some hn.value,
            { s with heap := heap2, head := hn.next, tail := none, size := 0 })
        else
          match hn.next with
          | none => none
          | some nh =>
            let heap1 := heapUpd s.heap nh (fun m => { m with prev := none })
            let heap2 := heapUpd heap1 h (fun m => { m with next := none })
            some (some hn.value,
              { s with heap := heap2, head := some nh, size := s.size - 1 })

/-- `#isNodeInList(node)`: the `while (current)` scan over `next` links,
with the reported size as fuel. -/
def isNodeInList (s : DoublyLinkedList V) (i : Nat) : Bool :=
  (s.traverse).contains i

/-- `removeNode(node)`: the argument is the identity of a node object, so
the `!node` guard of the source cannot fire.  Each field read happens on
the heap current at that point of the source. -/
def removeNode (s : DoublyLinkedList V) (i : Nat) :
    Option (Bool × DoublyLinkedList V) :=
  if s.size = 0 ∨ s.isNodeInList i = false then some (false, s)
  else
    match List.lookup i s.heap with
    | none => none
    | some n =>
      let h1 := match n.prev with
        | some p => heapUpd s.heap p (fun m => { m with next := n.next })
        | none => s.heap
      let head1 := match n.prev with
        | some _ => s.head
        | none => n.next
      match List.lookup i h1 with
      | none => none
      | some n1 =>
        let h2 := match n1.next with
          | some nx => heapUpd h1 nx (fun m => { m with prev := n1.prev })
          | none => h1
        let tail1 := match n1.next with
          | some _ => s.tail
          | none => n1.prev
        let h3 := heapUpd h2 i (fun m => { m with prev := none })
        let h4 := heapUpd h3 i (fun m => { m with next := none })
        some (true, { heap := h4, head := head1, tail := tail1,
                      size := s.size - 1 })

/-- Fuelled walk over `next` links (`node = node!.next` in `#getNode`);
`none` marks the `TypeError` on an `undefined` reference mid walk. -/
def walkNext (heap : List (Nat × DoublyLinkedListNode V)) :
    Nat → Option Nat → Option (Option Nat)
  | 0, o => some o
  | _ + 1, none => none
  | k + 1, some i =>
    match List.lookup i heap with
    | none => none
    | some n => walkNext heap k n.next

/-- Fuelled walk over `prev` links (`node = node!.prev` in `#getNode`). -/
def walkPrev (heap : List (Nat × DoublyLinkedListNode V)) :
    Nat → Option Nat → Option (Option Nat)
  | 0, o => some o
  | _ + 1, none => none
  | k + 1, some i =>
    match List.lookup i heap with
    | none => none
    | some n => walkPrev heap k n.prev

/-- `#getNode(index)`: two sided traversal; the real division
`index < this.#size / 2` is `2 * index < size` over naturals. -/
def getNode (s : DoublyLinkedList V) (index : Nat) : Option (Option Nat) :=
  if s.size ≤ index then some none
  else if 2 * index < s.size then walkNext s.heap index s.head
  else walkPrev s.heap (s.size - 1 - index) s.tail

/-- `remove(index)`. -/
def remove (s : DoublyLinkedList V) (index : Nat) :
    Option (Bool × DoublyLinkedList V) :=
  if s.size ≤ index then some (false, s)
  else if index = 0 then (s.shift).map (fun r => (true, r.2))
  else if index = s.size - 1 then (s.pop).map (fun r => (true, r.2))
  else
    (s.getNode (index - 1)).bind (fun po =>
      match po with
      | none => none
      | some p =>
        match List.lookup p s.heap with
        | none => none
        | some pn =>
          match pn.next with
          | none => none
          | some rt =>
            match List.lookup rt s.heap with
            | none => none
            | some rtn =>
              let h1 := heapUpd s.heap p (fun m => { m with next := rtn.next })
              match List.lookup rt h1 with
              | none => none
              | some rtn1 =>
                match rtn1.next with
                | none => none
                | some nx =>
                  let h2 := heapUpd h1 nx (fun m => { m with prev := some p })
                  let h3 := heapUpd h2 rt (fun m => { m with prev := none })
                  let h4 := heapUpd h3 rt (fun m => { m with next := none })
                  some (true, { s with heap := h4, size := s.size - 1 }))

end DoublyLinkedList

instance instDecidableEqExcept {ε α : Type} [DecidableEq ε] [DecidableEq α] :
    DecidableEq (Except ε α) := fun x y =>
  match x, y with
  | Except.ok a, Except.ok b =>
    if h : a = b then Decidable.isTrue (congrArg Except.ok h)
    else Decidable.isFalse (fun hc => h (Except.ok.inj hc))
  | Except.ok _, Except.error _ => Decidable.isFalse (fun hc => Except.noConfusion hc)
  | Except.error _, Except.ok _ => Decidable.isFalse (fun hc => Except.noConfusion hc)
  | Except.error e, Except.error f =>
    if h : e = f then Decidable.isTrue (congrArg Except.error h)
    else Decidable.isFalse (fun hc => h (Except.error.inj hc))

/-- Sanity: `push` builds a well formed three node list. -/
example :
    ∃ s : DoublyLinkedList Nat,
      (((({} : DoublyLinkedList Nat).push 1 10).bind
        (fun s1 => s1.push 2 20)).bind (fun s2 => s2.push 3 30)) = some s ∧
      s.wf [1, 2, 3] ∧ s.traverse = [1, 2, 3] := by
  refine ⟨_, rfl, by decide, by decide⟩

/-- Sanity: `removeTail` then `addToHead` of the detached node. -/
example :
    ∃ s : DoublyLinkedList Nat,
      ((({} : DoublyLinkedList Nat).push 1 10).bind
        (fun s1 => s1.push 2 20)) = some s ∧
      (s.removeTail).map (fun r => (r.1, r.2.traverse)) =
        some (some 2, [1]) ∧
      ((s.removeTail).bind (fun r => r.2.addToHead 2)).map
        (fun e => e.map DoublyLinkedList.traverse) =
        some (Except.ok [2, 1]) := by
  refine ⟨_, rfl, by decide, by decide⟩

/-- Sanity: `addToHead` of an attached node throws the ownership error. -/
example :
    (((({} : DoublyLinkedList Nat).push 1 10).bind
      (fun s1 => s1.push 2 20)).bind (fun s2 => s2.addToHead 1)) =
      some (Except.error "node is already part of a list") := by decide

/-- Sanity: `shift` and middle `remove` detach their nodes. -/
example :
    ∃ s : DoublyLinkedList Nat,
      (((({} : DoublyLinkedList Nat).push 1 10).bind
        (fun s1 => s1.push 2 20)).bind (fun s2 => s2.push 3 30)) = some s ∧
      (s.shift).map (fun r => (r.1, r.2.traverse, List.lookup 1 r.2.heap)) =
        some (some 10, [2, 3], some ⟨10, none, none⟩) ∧
      (s.remove 1).map (fun r => (r.1, r.2.traverse, List.lookup 2 r.2.heap)) =
        some (true, [1, 3], some ⟨20, none, none⟩) ∧
      (s.removeNode 2).map
        (fun r => (r.1, r.2.traverse, List.lookup 2 r.2.heap)) =
        some (true, [1, 3], some ⟨20, none, none⟩) := by
  refine ⟨_, rfl, by decide, by decide, by decide⟩

namespace DoublyLinkedList

variable {V : Type}

theorem getElem?_some_of_lt {L : List Nat} {pos : Nat} (h : pos < L.length) :
    ∃ i, L[pos]? = some i := ⟨L[pos], List.getElem?_eq_getElem h⟩

theorem lt_length_of_getElem?_some {L : List Nat} {pos : Nat} {i : Nat}
    (h : L[pos]? = some i) : pos < L.length := by
  by_contra hc
  rw [List.getElem?_eq_none_iff.mpr (Nat.le_of_not_lt hc)] at h
  exact Option.noConfusion h

theorem nodup_idx_ne {L : List Nat} (hnd : L.Nodup) {j k : Nat} {x y : Nat}
    (hj : L[j]? = some x) (hk : L[k]? = some y) (hjk : j ≠ k) : x ≠ y := by
  intro he
  rw [he] at hj
  exact hjk (List.getElem?_inj (lt_length_of_getElem?_some hj) hnd (hj.trans hk.symm))

/-- The node stored at a position of a chain: its `next` points at the
following position and its `prev` at the preceding one (`p` at position
0). -/
theorem chain_pos {heap : List (Nat × DoublyLinkedListNode V)} :
    ∀ (L : List Nat) (p : Option Nat), chain heap p L = true →
      ∀ (pos : Nat) (i : Nat), L[pos]? = some i →
        ∃ n, List.lookup i heap = some n ∧ n.next = L[pos + 1]? ∧
          (pos = 0 → n.prev = p) ∧
          (∀ q, pos = q + 1 → n.prev = L[q]?) := by
  intro L
  induction L with
  | nil =>
    intro p _ pos i hpos
    exact absurd hpos (by simp)
  | cons a rest ih =>
    intro p hch pos i hpos
    obtain ⟨n, hl, hp, hn, hc⟩ := chain_cons.mp hch
    match pos with
    | 0 =>
      rw [List.getElem?_cons_zero] at hpos
      obtain rfl : a = i := Option.some.inj hpos
      refine ⟨n, hl, ?_, fun _ => hp, fun q hq => absurd hq (by omega)⟩
      rw [hn, List.head?_eq_getElem? rest, List.getElem?_cons_succ]
    | Nat.succ q =>
      rw [List.getElem?_cons_succ] at hpos
      obtain ⟨m, hm, hmn, hm0, hmsucc⟩ := ih (some a) hc q i hpos
      refine ⟨m, hm, ?_, fun h0 => absurd h0 (by omega), ?_⟩
      · rw [hmn, List.getElem?_cons_succ]
      · intro r hr
        obtain rfl : q = r := by omega
        match q with
        | 0 =>
          rw [hm0 rfl, List.getElem?_cons_zero]
        | Nat.succ r2 =>
          rw [hmsucc r2 rfl, List.getElem?_cons_succ]

theorem walkNext_zero (heap : List (Nat × DoublyLinkedListNode V)) (o : Option Nat) :
    walkNext heap 0 o = some o := rfl

theorem walkPrev_zero (heap : List (Nat × DoublyLinkedListNode V)) (o : Option Nat) :
    walkPrev heap 0 o = some o := rfl

/-- `#getNode`'s forward walk lands on the indexed position. -/
theorem walkNext_chain {heap : List (Nat × DoublyLinkedListNode V)} :
    ∀ (L : List Nat) (p : Option Nat), chain heap p L = true →
      ∀ k, k ≤ L.length → walkNext heap k L.head? = some L[k]? := by
  intro L
  induction L with
  | nil =>
    intro p _ k hk
    obtain rfl : k = 0 := Nat.le_zero.mp hk
    rfl
  | cons a rest ih =>
    intro p hch k hk
    obtain ⟨n, hl, _, hn, hc⟩ := chain_cons.mp hch
    match k with
    | 0 => rw [walkNext_zero, List.head?_eq_getElem?]
    | Nat.succ j =>
      show walkNext heap (j + 1) (some a) = some (a :: rest)[j + 1]?
      unfold walkNext
      rw [hl]
      dsimp only
      rw [hn, List.getElem?_cons_succ]
      exact ih (some a) hc j (Nat.succ_le_succ_iff.mp hk)

/-- `#getNode`'s backward walk moves `k` positions towards the head. -/
theorem walkPrev_chain {heap : List (Nat × DoublyLinkedListNode V)}
    {L : List Nat} (hch : chain heap none L = true) :
    ∀ (k pos : Nat), k ≤ pos → pos < L.length →
      walkPrev heap k L[pos]? = some L[pos - k]? := by
  intro k
  induction k with
  | zero =>
    intro pos _ hpos
    rw [Nat.sub_zero]
    exact walkPrev_zero heap _
  | succ j ih =>
    intro pos hk hpos
    obtain ⟨q, rfl⟩ : ∃ q, pos = q + 1 := ⟨pos - 1, by omega⟩
    obtain ⟨i, hi⟩ := getElem?_some_of_lt hpos
    obtain ⟨n, hl, _, _, hpsucc⟩ := chain_pos L none hch (q + 1) i hi
    rw [hi]
    show walkPrev heap (j + 1) (some i) = _
    unfold walkPrev
    rw [hl]
    dsimp only
    rw [hpsucc q rfl]
    have hres := ih q (by omega) (by omega)
    rw [hres]
    exact congrArg (fun z => some L[z]?) (by omega)

/-- `#getNode(index)` returns the node at the index on a well formed
list, whichever end it walks from. -/
theorem getNode_wf {s : DoublyLinkedList V} {L : List Nat} (h : s.wf L)
    {index : Nat} (hidx : index < L.length) :
    s.getNode index = some L[index]? := by
  obtain ⟨hch, hh, ht, hs, _⟩ := h
  unfold getNode
  rw [if_neg (by omega)]
  by_cases hhalf : 2 * index < s.size
  · rw [if_pos hhalf, hh]
    exact walkNext_chain L none hch index (Nat.le_of_lt hidx)
  · rw [if_neg hhalf, ht, List.getLast?_eq_getElem? L, hs]
    have hres := walkPrev_chain hch (L.length - 1 - index) (L.length - 1)
      (by omega) (by omega)
    rw [hres]
    exact congrArg (fun z => some L[z]?) (by omega)

end DoublyLinkedList

namespace DoublyLinkedList

variable {V : Type}

/-- The ownership error of `addToHead` fires exactly on a non-`undefined`
`prev` or `next` link; on every other path the call returns normally or
crashes with a `TypeError`, never with the ownership `Error`. -/
theorem addToHead_error_iff {s : DoublyLinkedList V} {i : Nat}
    {n : DoublyLinkedListNode V} (hl : List.lookup i s.heap = some n) :
    s.addToHead i = some (Except.error "node is already part of a list") ↔
      (n.prev ≠ none ∨ n.next ≠ none) := by
  unfold addToHead
  rw [hl]
  dsimp only
  by_cases hg : n.prev ≠ none ∨ n.next ≠ none
  · rw [if_pos hg]
    exact ⟨fun _ => hg, fun _ => rfl⟩
  · rw [if_neg hg]
    constructor
    · intro hcontra
      by_cases hsz : s.size = 0
      · rw [if_pos hsz] at hcontra
        exact Except.noConfusion (Option.some.inj hcontra)
      · rw [if_neg hsz] at hcontra
        rcases hhd : s.head with _ | h0
        · rw [hhd] at hcontra
          exact Option.noConfusion hcontra
        · rw [hhd] at hcontra
          exact Except.noConfusion (Option.some.inj hcontra)
    · intro hcontra
      exact absurd hcontra hg

/-- `addToHead` of a detached fresh node on a well formed list: success,
the node is the new head, the size grows by 1, the previous elements keep
their order. -/
theorem addToHead_fresh {s : DoublyLinkedList V} {L : List Nat} (h : s.wf L)
    {i : Nat} {n : DoublyLinkedListNode V} (hl : List.lookup i s.heap = some n)
    (hp : n.prev = none) (hn : n.next = none) (hfresh : i ∉ L) :
    ∃ s2, s.addToHead i = some (Except.ok s2) ∧ s2.wf (i :: L) ∧
      s2.head = some i ∧ s2.size = s.size + 1 ∧
      s2.traverse = i :: s.traverse := by
  obtain ⟨hch, hh, ht, hs, hnd⟩ := h
  have hguard : ¬ (n.prev ≠ none ∨ n.next ≠ none) := by
    rw [hp, hn]
    simp
  cases L with
  | nil =>
    have hsz0 : s.size = 0 := hs
    have heq : s.addToHead i = some (Except.ok
        { s with head := some i, tail := some i, size := s.size + 1 }) := by
      unfold addToHead
      rw [hl]
      dsimp only
      rw [if_neg hguard, if_pos hsz0]
    have hwf2 : ({ s with head := some i, tail := some i, size := s.size + 1 } : DoublyLinkedList V).wf [i] := by
      refine ⟨?_, rfl, rfl, by show s.size + 1 = 1; rw [hsz0], by simp⟩
      exact chain_cons.mpr ⟨n, hl, hp, hn, chain_nil s.heap (some i)⟩
    refine ⟨_, heq, hwf2, rfl, rfl, ?_⟩
    rw [traverse_of_wf hwf2, traverse_of_wf ⟨hch, hh, ht, hs, hnd⟩]
  | cons h0 rest =>
    have hsznz : ¬ s.size = 0 := by
      rw [hs]
      exact Nat.succ_ne_zero rest.length
    have hh0 : s.head = some h0 := hh
    obtain ⟨n0, hl0, hp0, hn0, hc0⟩ := chain_cons.mp hch
    have hih0 : i ≠ h0 := fun he => hfresh (he ▸ List.mem_cons_self i rest)
    have hirest : i ∉ rest := fun he => hfresh (List.mem_cons_of_mem h0 he)
    have hh0rest : h0 ∉ rest := (List.nodup_cons.mp hnd).1
    have hndrest : rest.Nodup := (List.nodup_cons.mp hnd).2
    set heap1 := heapUpd s.heap h0 (fun m => { m with prev := some i }) with hheap1
    set heap2 := heapUpd heap1 i (fun m => { m with next := some h0 }) with hheap2
    have heq : s.addToHead i = some (Except.ok
        { s with heap := heap2, head := some i, size := s.size + 1 }) := by
      unfold addToHead
      rw [hl]
      dsimp only
      rw [if_neg hguard, if_neg hsznz, hh0]
    have hlook_i1 : List.lookup i heap1 = some n := by
      rw [hheap1, lookup_heapUpd_ne s.heap h0 i _ hih0]
      exact hl
    have hlook_i2 : List.lookup i heap2 = some { n with next := some h0 } := by
      rw [hheap2]
      exact lookup_heapUpd_self heap1 i _ hlook_i1
    have hlook_h02 : List.lookup h0 heap2 = some { n0 with prev := some i } := by
      rw [hheap2, lookup_heapUpd_ne heap1 i h0 _ (Ne.symm hih0), hheap1]
      exact lookup_heapUpd_self s.heap h0 _ hl0
    have hagree : ∀ j ∈ rest, List.lookup j heap2 = List.lookup j s.heap := by
      intro j hj
      have hji : j ≠ i := fun he => hirest (he ▸ hj)
      have hjh0 : j ≠ h0 := fun he => hh0rest (he ▸ hj)
      rw [hheap2, lookup_heapUpd_ne heap1 i j _ hji, hheap1,
        lookup_heapUpd_ne s.heap h0 j _ hjh0]
    have hch2 : chain heap2 none (i :: h0 :: rest) = true := by
      refine chain_cons.mpr ⟨{ n with next := some h0 }, hlook_i2, hp, rfl, ?_⟩
      refine chain_cons.mpr ⟨{ n0 with prev := some i }, hlook_h02, rfl, hn0, ?_⟩
      exact chain_congr hagree (some h0) hc0
    have hwf2 : ({ s with heap := heap2, head := some i, size := s.size + 1 } : DoublyLinkedList V).wf (i :: h0 :: rest) := by
      refine ⟨hch2, rfl, ?_, ?_, ?_⟩
      · show s.tail = _
        rw [ht, List.getLast?_cons_cons]
      · show s.size + 1 = _
        rw [hs]
        rfl
      · exact List.nodup_cons.mpr ⟨hfresh, hnd⟩
    refine ⟨_, heq, hwf2, rfl, rfl, ?_⟩
    rw [traverse_of_wf hwf2, traverse_of_wf ⟨hch, hh, ht, hs, hnd⟩]

end DoublyLinkedList

namespace DoublyLinkedList

variable {V : Type}

/-- `removeTail` on a well formed nonempty list returns the last node,
whose links are both `undefined` in the resulting heap. -/
theorem removeTail_detach {s : DoublyLinkedList V} {L : List Nat} (h : s.wf L)
    (hne : L ≠ []) :
    ∃ t s2 nd, L.getLast? = some t ∧ s.removeTail = some (some t, s2) ∧
      List.lookup t s2.heap = some nd ∧ nd.prev = none ∧ nd.next = none := by
  obtain ⟨hch, hh, ht, hs, hnd⟩ := h
  have hlen : 1 ≤ L.length := by
    cases L with
    | nil => exact absurd rfl hne
    | cons a rest => exact Nat.succ_le_succ (Nat.zero_le rest.length)
  obtain ⟨t, htl⟩ : ∃ t, L[L.length - 1]? = some t :=
    getElem?_some_of_lt (by omega)
  have hgetlast : L.getLast? = some t := by
    rw [List.getLast?_eq_getElem? L]
    exact htl
  have hts : s.tail = some t := by rw [ht, hgetlast]
  by_cases hl1 : L.length = 1
  · have ht0 : L[0]? = some t := by
      rw [show (0 : Nat) = L.length - 1 by omega]
      exact htl
    have hh2 : s.head = some t := by
      rw [hh, List.head?_eq_getElem?, ht0]
    obtain ⟨n, hl, hnn, hp0, _⟩ := chain_pos L none hch 0 t ht0
    have hnx : n.next = none := by
      rw [hnn]
      exact List.getElem?_eq_none_iff.mpr (by omega)
    have heq : s.removeTail = some (some t, s.clear) := by
      unfold removeTail
      rw [if_neg (by omega), if_pos (by rw [hh2, hts]), hh2]
    exact ⟨t, s.clear, n, hgetlast, heq, hl, hp0 rfl, hnx⟩
  · have hl2 : 2 ≤ L.length := by omega
    obtain ⟨a, ha0⟩ : ∃ a, L[0]? = some a := getElem?_some_of_lt (by omega)
    have hh2 : s.head = some a := by rw [hh, List.head?_eq_getElem?, ha0]
    have hat : a ≠ t := nodup_idx_ne hnd ha0 htl (by omega)
    obtain ⟨tn, hlt, htnn, _, htnp⟩ :=
      chain_pos L none hch (L.length - 1) t htl
    have htn_next : tn.next = none := by
      rw [htnn]
      exact List.getElem?_eq_none_iff.mpr (by omega)
    obtain ⟨p, hpl⟩ : ∃ p, L[L.length - 2]? = some p :=
      getElem?_some_of_lt (by omega)
    have htn_prev : tn.prev = some p := by
      rw [htnp (L.length - 2) (by omega), hpl]
    have hpt : t ≠ p := nodup_idx_ne hnd htl hpl (by omega)
    have heq : s.removeTail = some (some t,
        { s with heap := heapUpd (heapUpd s.heap t (fun m => { m with prev := none })) p (fun m => { m with next := none }), tail := some p, size := s.size - 1 }) := by
      unfold removeTail
      rw [if_neg (by omega), if_neg (by rw [hh2, hts]; exact fun hcon => hat (Option.some.inj hcon)), hts]
      dsimp only
      rw [hlt]
      dsimp only
      rw [htn_prev]
    have hlook : List.lookup t (heapUpd (heapUpd s.heap t
        (fun m => { m with prev := none })) p (fun m => { m with next := none })) =
        some { tn with prev := none } := by
      rw [lookup_heapUpd_ne _ p t _ hpt]
      exact lookup_heapUpd_self s.heap t _ hlt
    refine ⟨t, _, { tn with prev := none }, hgetlast, heq, hlook, rfl, htn_next⟩

/-- `pop` on a well formed nonempty list detaches the last node. -/
theorem pop_detach {s : DoublyLinkedList V} {L : List Nat} (h : s.wf L)
    (hne : L ≠ []) :
    ∃ t s2 v nd, L.getLast? = some t ∧ s.pop = some (some v, s2) ∧
      List.lookup t s2.heap = some nd ∧ nd.prev = none ∧ nd.next = none := by
  obtain ⟨t, s2, nd, hgetlast, heq, hlook, hp, hn⟩ := removeTail_detach h hne
  refine ⟨t, s2, nd.value, nd, hgetlast, ?_, hlook, hp, hn⟩
  unfold pop
  rw [heq]
  show (match (some t, s2).1 with
    | none => some (none, s2)
    | some t =>
      match List.lookup t s2.heap with
      | none => none
      | some n => some (some n.value, s2)) = some (some nd.value, s2)
  dsimp only
  rw [hlook]

/-- `shift` on a well formed nonempty list detaches the head node. -/
theorem shift_detach {s : DoublyLinkedList V} {L : List Nat} (h : s.wf L)
    (hne : L ≠ []) :
    ∃ a s2 nd, L.head? = some a ∧ s.shift = some (some nd.value, s2) ∧
      List.lookup a s2.heap = some nd ∧ nd.prev = none ∧ nd.next = none := by
  obtain ⟨hch, hh, ht, hs, hnd⟩ := h
  cases L with
  | nil => exact absurd rfl hne
  | cons a rest =>
    obtain ⟨hn0, hl0, hp0, hnx0, hc0⟩ := chain_cons.mp hch
    have hh2 : s.head = some a := hh
    have hsz : s.size = rest.length + 1 := hs
    cases rest with
    | nil =>
      have hsz1 : s.size = 1 := hsz
      have heq : s.shift = some (some hn0.value,
          { s with heap := heapUpd s.heap a (fun m => { m with next := none }), head := hn0.next, tail := none, size := 0 }) := by
        unfold shift
        rw [if_neg (by omega), hh2]
        dsimp only
        rw [hl0]
        dsimp only
        rw [if_pos (by omega)]
      refine ⟨a, { s with heap := heapUpd s.heap a (fun m => { m with next := none }), head := hn0.next, tail := none, size := 0 }, { hn0 with next := none }, rfl, ?_, ?_, hp0, rfl⟩
      · rw [heq]
      · exact lookup_heapUpd_self s.heap a _ hl0
    | cons b rest2 =>
      have hab : a ≠ b := by
        have : a ∉ b :: rest2 := (List.nodup_cons.mp hnd).1
        exact fun he => this (he ▸ List.mem_cons_self b rest2)
      have hnx0b : hn0.next = some b := hnx0
      have hsz1 : s.size = rest2.length + 2 := hsz
      have heq : s.shift = some (some hn0.value,
          { s with heap := heapUpd (heapUpd s.heap b (fun m => { m with prev := none })) a (fun m => { m with next := none }), head := some b, size := s.size - 1 }) := by
        unfold shift
        rw [if_neg (by omega), hh2]
        dsimp only
        rw [hl0]
        dsimp only
        rw [if_neg (by omega), hnx0b]
      refine ⟨a, { s with heap := heapUpd (heapUpd s.heap b (fun m => { m with prev := none })) a (fun m => { m with next := none }), head := some b, size := s.size - 1 }, { hn0 with next := none }, rfl, ?_, ?_, hp0, rfl⟩
      · rw [heq]
      · refine lookup_heapUpd_self _ a _ ?_
        rw [lookup_heapUpd_ne _ b a _ hab]
        exact hl0

end DoublyLinkedList

namespace DoublyLinkedList

variable {V : Type}

/-- `removeNode` on a member of a well formed list succeeds and clears
both links of the removed node. -/
theorem removeNode_detach {s : DoublyLinkedList V} {L : List Nat} (h : s.wf L)
    {i : Nat} (hi : i ∈ L) :
    ∃ s2 nd, s.removeNode i = some (true, s2) ∧
      List.lookup i s2.heap = some nd ∧ nd.prev = none ∧ nd.next = none := by
  have hs : s.size = L.length := h.2.2.2.1
  have hnd : L.Nodup := h.2.2.2.2
  have hch : chain s.heap none L = true := h.1
  have hlenpos : 0 < L.length := List.length_pos_of_mem hi
  have hinlist : s.isNodeInList i = true := by
    unfold isNodeInList
    rw [traverse_of_wf h]
    exact List.elem_eq_true_of_mem hi
  have hguard : ¬ (s.size = 0 ∨ s.isNodeInList i = false) := by
    rintro (hz | hf)
    · omega
    · rw [hinlist] at hf
      exact Bool.noConfusion hf
  obtain ⟨pos, hpos⟩ := List.getElem?_of_mem hi
  obtain ⟨n, hl, hnn, hp0, hpsucc⟩ := chain_pos L none hch pos i hpos
  unfold removeNode
  rw [if_neg hguard, hl]
  dsimp only
  rcases hprev : n.prev with _ | p
  · dsimp only
    rw [hl]
    dsimp only
    rcases hnext : n.next with _ | nx
    · dsimp only
      have hlk3 : List.lookup i (heapUpd s.heap i (fun m => { m with prev := none })) = some { n with prev := none } :=
        lookup_heapUpd_self _ i _ hl
      have hlk4 : List.lookup i (heapUpd (heapUpd s.heap i (fun m => { m with prev := none })) i (fun m => { m with next := none })) = some ⟨n.value, none, none⟩ :=
        lookup_heapUpd_self _ i _ hlk3
      exact ⟨_, ⟨n.value, none, none⟩, rfl, hlk4, rfl, rfl⟩
    · have hnxl : L[pos + 1]? = some nx := by rw [← hnn, hnext]
      have hinx : i ≠ nx := nodup_idx_ne hnd hpos hnxl (by omega)
      dsimp only
      have hlk2 : List.lookup i (heapUpd s.heap nx (fun m => { m with prev := n.prev })) = some n := by
        rw [lookup_heapUpd_ne _ nx i _ hinx]
        exact hl
      have hlk3 : List.lookup i (heapUpd (heapUpd s.heap nx (fun m => { m with prev := n.prev })) i (fun m => { m with prev := none })) = some { n with prev := none } :=
        lookup_heapUpd_self _ i _ hlk2
      have hlk4 : List.lookup i (heapUpd (heapUpd (heapUpd s.heap nx (fun m => { m with prev := n.prev })) i (fun m => { m with prev := none })) i (fun m => { m with next := none })) = some ⟨n.value, none, none⟩ :=
        lookup_heapUpd_self _ i _ hlk3
      exact ⟨_, ⟨n.value, none, none⟩, rfl, hlk4, rfl, rfl⟩
  · have hposnz : pos ≠ 0 := by
      intro h0
      rw [hp0 h0] at hprev
      exact Option.noConfusion hprev
    have hpl : L[pos - 1]? = some p := by
      rw [← hpsucc (pos - 1) (by omega), hprev]
    have hip : i ≠ p := nodup_idx_ne hnd hpos hpl (by omega)
    dsimp only
    rw [lookup_heapUpd_ne _ p i _ hip, hl]
    dsimp only
    rcases hnext : n.next with _ | nx
    · dsimp only
      have hlk2 : List.lookup i (heapUpd s.heap p (fun m => { m with next := none })) = some n := by
        rw [lookup_heapUpd_ne _ p i _ hip]
        exact hl
      have hlk3 : List.lookup i (heapUpd (heapUpd s.heap p (fun m => { m with next := none })) i (fun m => { m with prev := none })) = some { n with prev := none } :=
        lookup_heapUpd_self _ i _ hlk2
      have hlk4 : List.lookup i (heapUpd (heapUpd (heapUpd s.heap p (fun m => { m with next := none })) i (fun m => { m with prev := none })) i (fun m => { m with next := none })) = some ⟨n.value, none, none⟩ :=
        lookup_heapUpd_self _ i _ hlk3
      exact ⟨_, ⟨n.value, none, none⟩, rfl, hlk4, rfl, rfl⟩
    · have hnxl : L[pos + 1]? = some nx := by rw [← hnn, hnext]
      have hinx : i ≠ nx := nodup_idx_ne hnd hpos hnxl (by omega)
      dsimp only
      have hlk2 : List.lookup i (heapUpd (heapUpd s.heap p (fun m => { m with next := some nx })) nx (fun m => { m with prev := n.prev })) = some n := by
        rw [lookup_heapUpd_ne _ nx i _ hinx, lookup_heapUpd_ne _ p i _ hip]
        exact hl
      have hlk3 : List.lookup i (heapUpd (heapUpd (heapUpd s.heap p (fun m => { m with next := some nx })) nx (fun m => { m with prev := n.prev })) i (fun m => { m with prev := none })) = some { n with prev := none } :=
        lookup_heapUpd_self _ i _ hlk2
      have hlk4 : List.lookup i (heapUpd (heapUpd (heapUpd (heapUpd s.heap p (fun m => { m with next := some nx })) nx (fun m => { m with prev := n.prev })) i (fun m => { m with prev := none })) i (fun m => { m with next := none })) = some ⟨n.value, none, none⟩ :=
        lookup_heapUpd_self _ i _ hlk3
      exact ⟨_, ⟨n.value, none, none⟩, rfl, hlk4, rfl, rfl⟩

end DoublyLinkedList

namespace DoublyLinkedList

variable {V : Type}

/-- `remove(index)` on a valid index of a well formed list succeeds and
clears both links of the removed node, through whichever of its three
paths (`shift`, `pop`, middle splice) it takes. -/
theorem remove_detach {s : DoublyLinkedList V} {L : List Nat} (h : s.wf L)
    {index : Nat} (hidx : index < L.length) :
    ∃ i s2 nd, L[index]? = some i ∧ s.remove index = some (true, s2) ∧
      List.lookup i s2.heap = some nd ∧ nd.prev = none ∧ nd.next = none := by
  have hs : s.size = L.length := h.2.2.2.1
  have hnd : L.Nodup := h.2.2.2.2
  have hch : chain s.heap none L = true := h.1
  have hne : L ≠ [] := by
    intro hcon
    rw [hcon] at hidx
    exact absurd hidx (by simp)
  unfold remove
  rw [if_neg (by omega)]
  by_cases hz : index = 0
  · rw [if_pos hz]
    obtain ⟨a, s2, nd, hhead, hshift, hlook, hp, hn⟩ := shift_detach h hne
    refine ⟨a, s2, nd, ?_, ?_, hlook, hp, hn⟩
    · rw [hz, ← List.head?_eq_getElem?]
      exact hhead
    · rw [hshift]
      rfl
  · rw [if_neg hz]
    by_cases hlast : index = s.size - 1
    · rw [if_pos hlast]
      obtain ⟨t, s2, v, nd, hgetlast, hpop, hlook, hp, hn⟩ := pop_detach h hne
      refine ⟨t, s2, nd, ?_, ?_, hlook, hp, hn⟩
      · rw [List.getLast?_eq_getElem?] at hgetlast
        rw [show index = L.length - 1 by omega]
        exact hgetlast
      · rw [hpop]
        rfl
    · rw [if_neg hlast]
      have hmid : 1 ≤ index ∧ index + 1 < L.length := by omega
      obtain ⟨p, hpl⟩ : ∃ p, L[index - 1]? = some p :=
        getElem?_some_of_lt (by omega)
      obtain ⟨rt, hrtl⟩ : ∃ rt, L[index]? = some rt :=
        getElem?_some_of_lt (by omega)
      obtain ⟨nx, hnxl⟩ : ∃ nx, L[index + 1]? = some nx :=
        getElem?_some_of_lt (by omega)
      obtain ⟨pn, hlp, hpn_next, _, _⟩ := chain_pos L none hch (index - 1) p hpl
      obtain ⟨rtn, hlrt, hrtn_next, _, _⟩ := chain_pos L none hch index rt hrtl
      have hpn2 : pn.next = some rt := by
        rw [hpn_next, show index - 1 + 1 = index by omega]
        exact hrtl
      have hrtn2 : rtn.next = some nx := by
        rw [hrtn_next]
        exact hnxl
      have hrtp : rt ≠ p := nodup_idx_ne hnd hrtl hpl (by omega)
      have hrtnx : rt ≠ nx := nodup_idx_ne hnd hrtl hnxl (by omega)
      rw [getNode_wf h (by omega), hpl]
      dsimp only [Option.bind]
      rw [hlp]
      dsimp only
      rw [hpn2]
      dsimp only
      rw [hlrt]
      dsimp only
      have hlkh1 : List.lookup rt (heapUpd s.heap p (fun m => { m with next := rtn.next })) = some rtn := by
        rw [lookup_heapUpd_ne _ p rt _ hrtp]
        exact hlrt
      rw [hlkh1]
      dsimp only
      rw [hrtn2]
      dsimp only
      have hlk2 : List.lookup rt (heapUpd (heapUpd s.heap p (fun m => { m with next := some nx })) nx (fun m => { m with prev := some p })) = some rtn := by
        rw [lookup_heapUpd_ne _ nx rt _ hrtnx, lookup_heapUpd_ne _ p rt _ hrtp]
        exact hlrt
      have hlk3 : List.lookup rt (heapUpd (heapUpd (heapUpd s.heap p (fun m => { m with next := some nx })) nx (fun m => { m with prev := some p })) rt (fun m => { m with prev := none })) = some { rtn with prev := none } :=
        lookup_heapUpd_self _ rt _ hlk2
      have hlk4 : List.lookup rt (heapUpd (heapUpd (heapUpd (heapUpd s.heap p (fun m => { m with next := some nx })) nx (fun m => { m with prev := some p })) rt (fun m => { m with prev := none })) rt (fun m => { m with next := none })) = some ⟨rtn.value, none, none⟩ :=
        lookup_heapUpd_self _ rt _ hlk3
      exact ⟨rt, _, ⟨rtn.value, none, none⟩, hrtl, rfl, hlk4, rfl, rfl⟩

end DoublyLinkedList

/-- C8.  `DoublyLinkedList.addToHead(node)` raises the ownership error
exactly when the node's `prev` or `next` link is not `undefined`; when no
error is raised (node detached and fresh, list well formed) the node
becomes the new head, the size grows by 1, and the previously present
elements keep their relative order behind it. -/
theorem C8_addToHead_ownership :
    (∀ (V : Type) (s : DoublyLinkedList V) (i : Nat)
      (n : DoublyLinkedListNode V), List.lookup i s.heap = some n →
      (s.addToHead i = some (Except.error "node is already part of a list") ↔
        (n.prev ≠ none ∨ n.next ≠ none))) ∧
    (∀ (V : Type) (s : DoublyLinkedList V) (L : List Nat) (i : Nat)
      (n : DoublyLinkedListNode V), s.wf L →
      List.lookup i s.heap = some n → n.prev = none → n.next = none →
      i ∉ L →
      ∃ s2, s.addToHead i = some (Except.ok s2) ∧ s2.head = some i ∧
        s2.size = s.size + 1 ∧ s2.traverse = i :: s.traverse) := by
  constructor
  · intro V s i n hl
    exact DoublyLinkedList.addToHead_error_iff hl
  · intro V s L i n hwf hl hp hn hfresh
    obtain ⟨s2, heq, _, hhead, hsize, htrav⟩ :=
      DoublyLinkedList.addToHead_fresh hwf hl hp hn hfresh
    exact ⟨s2, heq, hhead, hsize, htrav⟩

/-- Witness for C8: a two node list rejects re-attaching its tail node and
accepts a detached fresh node, which becomes the head. -/
theorem C8_addToHead_ownership_witness :
    ((⟨[(1, ⟨10, none, some 2⟩), (2, ⟨20, some 1, none⟩)], some 1, some 2, 2⟩ :
      DoublyLinkedList Nat).addToHead 2 =
      some (Except.error "node is already part of a list")) ∧
    (∃ s2 : DoublyLinkedList Nat,
      (⟨[(1, ⟨10, none, some 2⟩), (2, ⟨20, some 1, none⟩),
         (3, ⟨30, none, none⟩)], some 1, some 2, 2⟩ :
        DoublyLinkedList Nat).addToHead 3 = some (Except.ok s2) ∧
      s2.head = some 3 ∧ s2.size = 3 ∧ s2.traverse = [3, 1, 2]) := by
  obtain ⟨ha, hb⟩ := C8_addToHead_ownership
  constructor
  · exact (ha Nat _ 2 ⟨20, some 1, none⟩ (by decide)).mpr (by decide)
  · obtain ⟨s2, heq, hhead, hsize, htrav⟩ := hb Nat
      (⟨[(1, ⟨10, none, some 2⟩), (2, ⟨20, some 1, none⟩),
         (3, ⟨30, none, none⟩)], some 1, some 2, 2⟩ : DoublyLinkedList Nat)
      [1, 2] 3 ⟨30, none, none⟩ (by decide) (by decide) rfl rfl (by decide)
    exact ⟨s2, heq, hhead, hsize, htrav.trans (by decide)⟩

/-- C10.  Every node detached by `removeTail`, `removeNode`, `shift`,
`pop` or `remove` from a well formed list has both links `undefined` in
the resulting heap, so passing it to `addToHead` of any list cannot raise
the ownership error. -/
theorem C10_detached_nodes :
    (∀ (V : Type) (s : DoublyLinkedList V) (L : List Nat), s.wf L → L ≠ [] →
      ∃ t s2 nd, L.getLast? = some t ∧ s.removeTail = some (some t, s2) ∧
        List.lookup t s2.heap = some nd ∧ nd.prev = none ∧ nd.next = none) ∧
    (∀ (V : Type) (s : DoublyLinkedList V) (L : List Nat) (i : Nat),
      s.wf L → i ∈ L →
      ∃ s2 nd, s.removeNode i = some (true, s2) ∧
        List.lookup i s2.heap = some nd ∧ nd.prev = none ∧ nd.next = none) ∧
    (∀ (V : Type) (s : DoublyLinkedList V) (L : List Nat), s.wf L → L ≠ [] →
      ∃ a s2 nd, L.head? = some a ∧ s.shift = some (some nd.value, s2) ∧
        List.lookup a s2.heap = some nd ∧ nd.prev = none ∧ nd.next = none) ∧
    (∀ (V : Type) (s : DoublyLinkedList V) (L : List Nat), s.wf L → L ≠ [] →
      ∃ t s2 v nd, L.getLast? = some t ∧ s.pop = some (some v, s2) ∧
        List.lookup t s2.heap = some nd ∧ nd.prev = none ∧ nd.next = none) ∧
    (∀ (V : Type) (s : DoublyLinkedList V) (L : List Nat) (index : Nat),
      s.wf L → index < L.length →
      ∃ i s2 nd, L[index]? = some i ∧ s.remove index = some (true, s2) ∧
        List.lookup i s2.heap = some nd ∧ nd.prev = none ∧ nd.next = none) ∧
    (∀ (V : Type) (s2 : DoublyLinkedList V) (j : Nat)
      (nd : DoublyLinkedListNode V), List.lookup j s2.heap = some nd →
      nd.prev = none → nd.next = none →
      s2.addToHead j ≠ some (Except.error "node is already part of a list")) := by
  refine ⟨?_, ?_, ?_, ?_, ?_, ?_⟩
  · intro V s L hwf hne
    exact DoublyLinkedList.removeTail_detach hwf hne
  · intro V s L i hwf hi
    exact DoublyLinkedList.removeNode_detach hwf hi
  · intro V s L hwf hne
    exact DoublyLinkedList.shift_detach hwf hne
  · intro V s L hwf hne
    exact DoublyLinkedList.pop_detach hwf hne
  · intro V s L index hwf hidx
    exact DoublyLinkedList.remove_detach hwf hidx
  · intro V s2 j nd hl hp hn hcon
    have hiff := (DoublyLinkedList.addToHead_error_iff hl).mp hcon
    rw [hp, hn] at hiff
    rcases hiff with hx | hx
    · exact hx rfl
    · exact hx rfl

/-- Witness for C10: on the concrete three node list `1 ⇄ 2 ⇄ 3` every
detaching operation leaves the removed node with both links cleared, and
such a node passes the ownership check of `addToHead`. -/
theorem C10_detached_nodes_witness :
    (∃ s2 nd, (⟨[(1, ⟨10, none, some 2⟩), (2, ⟨20, some 1, some 3⟩),
        (3, ⟨30, some 2, none⟩)], some 1, some 3, 3⟩ :
        DoublyLinkedList Nat).removeTail = some (some 3, s2) ∧
      List.lookup 3 s2.heap = some nd ∧ nd.prev = none ∧ nd.next = none) ∧
    (∃ s2 nd, (⟨[(1, ⟨10, none, some 2⟩), (2, ⟨20, some 1, some 3⟩),
        (3, ⟨30, some 2, none⟩)], some 1, some 3, 3⟩ :
        DoublyLinkedList Nat).removeNode 2 = some (true, s2) ∧
      List.lookup 2 s2.heap = some nd ∧ nd.prev = none ∧ nd.next = none) ∧
    (∃ s2 nd, (⟨[(1, ⟨10, none, some 2⟩), (2, ⟨20, some 1, some 3⟩),
        (3, ⟨30, some 2, none⟩)], some 1, some 3, 3⟩ :
        DoublyLinkedList Nat).shift = some (some nd.value, s2) ∧
      List.lookup 1 s2.heap = some nd ∧ nd.prev = none ∧ nd.next = none) ∧
    (∃ s2 v nd, (⟨[(1, ⟨10, none, some 2⟩), (2, ⟨20, some 1, some 3⟩),
        (3, ⟨30, some 2, none⟩)], some 1, some 3, 3⟩ :
        DoublyLinkedList Nat).pop = some (some v, s2) ∧
      List.lookup 3 s2.heap = some nd ∧ nd.prev = none ∧ nd.next = none) ∧
    (∃ s2 nd, (⟨[(1, ⟨10, none, some 2⟩), (2, ⟨20, some 1, some 3⟩),
        (3, ⟨30, some 2, none⟩)], some 1, some 3, 3⟩ :
        DoublyLinkedList Nat).remove 1 = some (true, s2) ∧
      List.lookup 2 s2.heap = some nd ∧ nd.prev = none ∧ nd.next = none) ∧
    ((⟨[(7, ⟨70, none, none⟩)], none, none, 0⟩ :
      DoublyLinkedList Nat).addToHead 7 ≠
      some (Except.error "node is already part of a list")) := by
  obtain ⟨hrt, hrn, hsh, hpp, hrm, hat⟩ := C10_detached_nodes
  refine ⟨?_, ?_, ?_, ?_, ?_, ?_⟩
  · obtain ⟨t, s2, nd, hgl, heq, hlk, hp, hn⟩ := hrt Nat
      (⟨[(1, ⟨10, none, some 2⟩), (2, ⟨20, some 1, some 3⟩),
         (3, ⟨30, some 2, none⟩)], some 1, some 3, 3⟩ : DoublyLinkedList Nat)
      [1, 2, 3] (by decide) (by decide)
    obtain rfl : t = 3 :=
      Option.some.inj (((by decide : ([1, 2, 3] : List Nat).getLast? =
        some 3)).symm.trans hgl).symm
    exact ⟨s2, nd, heq, hlk, hp, hn⟩
  · obtain ⟨s2, nd, heq, hlk, hp, hn⟩ := hrn Nat
      (⟨[(1, ⟨10, none, some 2⟩), (2, ⟨20, some 1, some 3⟩),
         (3, ⟨30, some 2, none⟩)], some 1, some 3, 3⟩ : DoublyLinkedList Nat)
      [1, 2, 3] 2 (by decide) (by decide)
    exact ⟨s2, nd, heq, hlk, hp, hn⟩
  · obtain ⟨a, s2, nd, hhd, heq, hlk, hp, hn⟩ := hsh Nat
      (⟨[(1, ⟨10, none, some 2⟩), (2, ⟨20, some 1, some 3⟩),
         (3, ⟨30, some 2, none⟩)], some 1, some 3, 3⟩ : DoublyLinkedList Nat)
      [1, 2, 3] (by decide) (by decide)
    obtain rfl : a = 1 :=
      Option.some.inj (((by decide : ([1, 2, 3] : List Nat).head? =
        some 1)).symm.trans hhd).symm
    exact ⟨s2, nd, heq, hlk, hp, hn⟩
  · obtain ⟨t, s2, v, nd, hgl, heq, hlk, hp, hn⟩ := hpp Nat
      (⟨[(1, ⟨10, none, some 2⟩), (2, ⟨20, some 1, some 3⟩),
         (3, ⟨30, some 2, none⟩)], some 1, some 3, 3⟩ : DoublyLinkedList Nat)
      [1, 2, 3] (by decide) (by decide)
    obtain rfl : t = 3 :=
      Option.some.inj (((by decide : ([1, 2, 3] : List Nat).getLast? =
        some 3)).symm.trans hgl).symm
    exact ⟨s2, v, nd, heq, hlk, hp, hn⟩
  · obtain ⟨i, s2, nd, hil, heq, hlk, hp, hn⟩ := hrm Nat
      (⟨[(1, ⟨10, none, some 2⟩), (2, ⟨20, some 1, some 3⟩),
         (3, ⟨30, some 2, none⟩)], some 1, some 3, 3⟩ : DoublyLinkedList Nat)
      [1, 2, 3] 1 (by decide) (by decide)
    obtain rfl : i = 2 :=
      Option.some.inj (((by decide : ([1, 2, 3] : List Nat)[1]? =
        some 2)).symm.trans hil).symm
    exact ⟨s2, nd, heq, hlk, hp, hn⟩
  · exact hat Nat
      (⟨[(7, ⟨70, none, none⟩)], none, none, 0⟩ : DoublyLinkedList Nat)
      7 ⟨70, none, none⟩ (by decide) rfl rfl

/-- Modelled from the spec: `isInteger` of the `@/is` module used by every
cache constructor.  The module file is absent from `src/` (only its test
is present); the spec and the test pin it to `Number.isInteger` semantics:
true exactly on finite numbers with no fractional part.  Finite JavaScript
numbers are modelled as rationals, so the test is a denominator of 1. -/
def isInteger (q : ℚ) : Bool := q.den == 1

/-- `new LRUCache(capacity)`: the constructor validation, the thrown
`CacheError` messages appearing as `Except.error`. -/
def LRUCache.construct (V : Type) (capacity : ℚ) :
    Except String (LRUCache V) :=
  if isInteger capacity = false then
    Except.error "cache capacity must be integer"
  else if capacity ≤ 0 then
    Except.error "cache capacity must be greater than 0"
  else Except.ok (LRUCache.empty capacity.num.toNat)

/-- `new LFUCache(capacity)`. -/
def LFUCache.construct (V : Type) (capacity : ℚ) :
    Except String (LFUCache V) :=
  if isInteger capacity = false then
    Except.error "cache capacity must be integer"
  else if capacity ≤ 0 then
    Except.error "cache capacity must be greater than 0"
  else Except.ok (LFUCache.empty capacity.num.toNat)

/-- `new LRUCacheWithTTL(capacity, ttl)`: capacity checks first, then the
same two checks on `ttl`. -/
def LRUCacheWithTTL.construct (V : Type) (capacity ttl : ℚ) :
    Except String (LRUCacheWithTTL V) :=
  if isInteger capacity = false then
    Except.error "cache capacity must be integer"
  else if capacity ≤ 0 then
    Except.error "cache capacity must be greater than 0"
  else if isInteger ttl = false then
    Except.error "cache ttl must be integer"
  else if ttl ≤ 0 then
    Except.error "cache ttl must be greater than 0"
  else Except.ok (LRUCacheWithTTL.empty capacity.num.toNat ttl.num.toNat)

/-- `new LFUCacheWithTTL(capacity, ttl)`. -/
def LFUCacheWithTTL.construct (V : Type) (capacity ttl : ℚ) :
    Except String (LFUCacheWithTTL V) :=
  if isInteger capacity = false then
    Except.error "cache capacity must be integer"
  else if capacity ≤ 0 then
    Except.error "cache capacity must be greater than 0"
  else if isInteger ttl = false then
    Except.error "cache ttl must be integer"
  else if ttl ≤ 0 then
    Except.error "cache ttl must be greater than 0"
  else Except.ok (LFUCacheWithTTL.empty capacity.num.toNat ttl.num.toNat)

/-- Sanity: the constructor tests of the repository. -/
example :
    LRUCache.construct Nat 2 = Except.ok (LRUCache.empty 2) ∧
    LRUCache.construct Nat 0 =
      Except.error "cache capacity must be greater than 0" ∧
    LRUCache.construct Nat (Rat.divInt 3 2) =
      Except.error "cache capacity must be integer" ∧
    LFUCacheWithTTL.construct Nat 2 1000 =
      Except.ok (LFUCacheWithTTL.empty 2 1000) := by decide

/-- C9.  Constructor validation for all four cache variants: a non
integer capacity raises the "cache capacity must be integer" error, an
integral capacity at most 0 the "cache capacity must be greater than 0"
error; once the capacity passes, the TTL variants run the same two checks
on `ttl` with the ttl messages; a valid pair constructs the cache.
Concretely, capacity 0 and -1 hit the positivity message and 3/2 the
integrality message, and likewise for ttl. -/
theorem C9_constructor_validation :
    (∀ (V : Type) (q : ℚ), isInteger q = false →
      LRUCache.construct V q =
        Except.error "cache capacity must be integer" ∧
      LFUCache.construct V q =
        Except.error "cache capacity must be integer" ∧
      (∀ t, LRUCacheWithTTL.construct V q t =
        Except.error "cache capacity must be integer") ∧
      (∀ t, LFUCacheWithTTL.construct V q t =
        Except.error "cache capacity must be integer")) ∧
    (∀ (V : Type) (q : ℚ), isInteger q = true → q ≤ 0 →
      LRUCache.construct V q =
        Except.error "cache capacity must be greater than 0" ∧
      LFUCache.construct V q =
        Except.error "cache capacity must be greater than 0" ∧
      (∀ t, LRUCacheWithTTL.construct V q t =
        Except.error "cache capacity must be greater than 0") ∧
      (∀ t, LFUCacheWithTTL.construct V q t =
        Except.error "cache capacity must be greater than 0")) ∧
    (∀ (V : Type) (q t : ℚ), isInteger q = true → 0 < q →
      isInteger t = false →
      LRUCacheWithTTL.construct V q t =
        Except.error "cache ttl must be integer" ∧
      LFUCacheWithTTL.construct V q t =
        Except.error "cache ttl must be integer") ∧
    (∀ (V : Type) (q t : ℚ), isInteger q = true → 0 < q →
      isInteger t = true → t ≤ 0 →
      LRUCacheWithTTL.construct V q t =
        Except.error "cache ttl must be greater than 0" ∧
      LFUCacheWithTTL.construct V q t =
        Except.error "cache ttl must be greater than 0") ∧
    (∀ (V : Type) (q t : ℚ), isInteger q = true → 0 < q →
      isInteger t = true → 0 < t →
      LRUCache.construct V q = Except.ok (LRUCache.empty q.num.toNat) ∧
      LFUCache.construct V q = Except.ok (LFUCache.empty q.num.toNat) ∧
      LRUCacheWithTTL.construct V q t =
        Except.ok (LRUCacheWithTTL.empty q.num.toNat t.num.toNat) ∧
      LFUCacheWithTTL.construct V q t =
        Except.ok (LFUCacheWithTTL.empty q.num.toNat t.num.toNat)) ∧
    (LRUCache.construct Nat 0 =
      Except.error "cache capacity must be greater than 0" ∧
     LRUCache.construct Nat (-1) =
      Except.error "cache capacity must be greater than 0" ∧
     LRUCache.construct Nat (Rat.divInt 3 2) =
      Except.error "cache capacity must be integer" ∧
     LFUCache.construct Nat 0 =
      Except.error "cache capacity must be greater than 0" ∧
     LFUCache.construct Nat (-1) =
      Except.error "cache capacity must be greater than 0" ∧
     LFUCache.construct Nat (Rat.divInt 3 2) =
      Except.error "cache capacity must be integer" ∧
     LRUCacheWithTTL.construct Nat 0 1000 =
      Except.error "cache capacity must be greater than 0" ∧
     LRUCacheWithTTL.construct Nat (-1) 1000 =
      Except.error "cache capacity must be greater than 0" ∧
     LRUCacheWithTTL.construct Nat (Rat.divInt 3 2) 1000 =
      Except.error "cache capacity must be integer" ∧
     LFUCacheWithTTL.construct Nat 0 1000 =
      Except.error "cache capacity must be greater than 0" ∧
     LFUCacheWithTTL.construct Nat (-1) 1000 =
      Except.error "cache capacity must be greater than 0" ∧
     LFUCacheWithTTL.construct Nat (Rat.divInt 3 2) 1000 =
      Except.error "cache capacity must be integer" ∧
     LRUCacheWithTTL.construct Nat 2 0 =
      Except.error "cache ttl must be greater than 0" ∧
     LRUCacheWithTTL.construct Nat 2 (-1) =
      Except.error "cache ttl must be greater than 0" ∧
     LRUCacheWithTTL.construct Nat 2 (Rat.divInt 3 2) =
      Except.error "cache ttl must be integer" ∧
     LFUCacheWithTTL.construct Nat 2 0 =
      Except.error "cache ttl must be greater than 0" ∧
     LFUCacheWithTTL.construct Nat 2 (-1) =
      Except.error "cache ttl must be greater than 0" ∧
     LFUCacheWithTTL.construct Nat 2 (Rat.divInt 3 2) =
      Except.error "cache ttl must be integer") := by
  refine ⟨?_, ?_, ?_, ?_, ?_, by decide⟩
  · intro V q hq
    refine ⟨?_, ?_, fun t => ?_, fun t => ?_⟩
    · unfold LRUCache.construct
      rw [if_pos hq]
    · unfold LFUCache.construct
      rw [if_pos hq]
    · unfold LRUCacheWithTTL.construct
      rw [if_pos hq]
    · unfold LFUCacheWithTTL.construct
      rw [if_pos hq]
  · intro V q hq hle
    have hnint : ¬ (isInteger q = false) := by
      rw [hq]
      decide
    refine ⟨?_, ?_, fun t => ?_, fun t => ?_⟩
    · unfold LRUCache.construct
      rw [if_neg hnint, if_pos hle]
    · unfold LFUCache.construct
      rw [if_neg hnint, if_pos hle]
    · unfold LRUCacheWithTTL.construct
      rw [if_neg hnint, if_pos hle]
    · unfold LFUCacheWithTTL.construct
      rw [if_neg hnint, if_pos hle]
  · intro V q t hq hpos ht
    have hnint : ¬ (isInteger q = false) := by
      rw [hq]
      decide
    have hnle : ¬ (q ≤ 0) := not_le.mpr hpos
    constructor
    · unfold LRUCacheWithTTL.construct
      rw [if_neg hnint, if_neg hnle, if_pos ht]
    · unfold LFUCacheWithTTL.construct
      rw [if_neg hnint, if_neg hnle, if_pos ht]
  · intro V q t hq hpos ht htle
    have hnint : ¬ (isInteger q = false) := by
      rw [hq]
      decide
    have hnle : ¬ (q ≤ 0) := not_le.mpr hpos
    have hnintt : ¬ (isInteger t = false) := by
      rw [ht]
      decide
    constructor
    · unfold LRUCacheWithTTL.construct
      rw [if_neg hnint, if_neg hnle, if_neg hnintt, if_pos htle]
    · unfold LFUCacheWithTTL.construct
      rw [if_neg hnint, if_neg hnle, if_neg hnintt, if_pos htle]
  · intro V q t hq hpos ht htpos
    have hnint : ¬ (isInteger q = false) := by
      rw [hq]
      decide
    have hnle : ¬ (q ≤ 0) := not_le.mpr hpos
    have hnintt : ¬ (isInteger t = false) := by
      rw [ht]
      decide
    have hntle : ¬ (t ≤ 0) := not_le.mpr htpos
    refine ⟨?_, ?_, ?_, ?_⟩
    · unfold LRUCache.construct
      rw [if_neg hnint, if_neg hnle]
    · unfold LFUCache.construct
      rw [if_neg hnint, if_neg hnle]
    · unfold LRUCacheWithTTL.construct
      rw [if_neg hnint, if_neg hnle, if_neg hnintt, if_neg hntle]
    · unfold LFUCacheWithTTL.construct
      rw [if_neg hnint, if_neg hnle, if_neg hnintt, if_neg hntle]

/-- Witness for C9: each validation clause applied at a concrete input. -/
theorem C9_constructor_validation_witness :
    LRUCache.construct Nat (Rat.divInt 3 2) =
      Except.error "cache capacity must be integer" ∧
    LFUCache.construct Nat (-1) =
      Except.error "cache capacity must be greater than 0" ∧
    LRUCacheWithTTL.construct Nat 2 (Rat.divInt 3 2) =
      Except.error "cache ttl must be integer" ∧
    LFUCacheWithTTL.construct Nat 2 0 =
      Except.error "cache ttl must be greater than 0" ∧
    LRUCacheWithTTL.construct Nat 2 1000 =
      Except.ok (LRUCacheWithTTL.empty 2 1000) := by
  obtain ⟨h1, h2, h3, h4, h5, _⟩ := C9_constructor_validation
  refine ⟨(h1 Nat (Rat.divInt 3 2) (by decide)).1,
    ((h2 Nat (-1) (by decide) (by decide)).2).1,
    (h3 Nat 2 (Rat.divInt 3 2) (by decide) (by decide) (by decide)).1,
    (h4 Nat 2 0 (by decide) (by decide) (by decide) (by decide)).2, ?_⟩
  exact ((h5 Nat 2 1000 (by decide) (by decide) (by decide)
    (by decide)).2.2.1).trans (by decide)
